import Mathlib

/-!
# Row partitioning, reassembly and master-worker scheduling of the Mandelbrot grid

A shallow embedding of `MPI/mandelbrot_block.cc`, `MPI/mandelbrot_cyclic.cc` and
`mandelbrot_mw.cc`.

Conventions of the embedding.

* A C++ `int*` buffer is a map from cell index to stored value (`Buf`); a store
  `b[i] = v` is `Buf.write b i v`.  Buffers obtained from `new int[...]` are not
  initialised by the program, so their initial contents are parameters.
* The `double` coordinates are embedded twice.  In the first part of the development they
  are exact rationals (`mandelbrot`, `forCols`, `start`, ...): this is the reading of the
  statements made for exact arithmetic, and the rounding of IEEE arithmetic is outside it.
  In the second part (namespace `Fp`) the same functions are embedded over an arbitrary
  arithmetic `Arith` of `double`, about which nothing is assumed, so that what is proved
  there for every `A : Arith` holds whatever the rounding; `binary64` is the arithmetic
  with round-to-nearest-even and NaN, `exactArith` the rationals.  The buffers of the
  second part log the stores made to them.
* C++ `int` counters that the program only ever counts upwards from `0` are natural
  numbers; signed overflow is undefined behaviour in C++ and outside the model.
* A counting `for` loop is a structural recursion on the number of iterations its
  counter still has to make; further exit conditions of the loop header are tested
  explicitly in each iteration.
-/

set_option linter.unusedVariables false

namespace HPC

/-! ## Buffers -/

/-- An `int*` buffer: cell index to stored value. -/
abbrev Buf := Nat → ℤ

/-- The store `b[i] = v`. -/
def Buf.write (b : Buf) (i : Nat) (v : ℤ) : Buf :=
  fun k => if k = i then v else b k

/-! ## The kernel (identical in the three source files) -/

/-- The loop `for (it = 0; it < maxit && (x*x + y*y) < 4; ++it)` of `mandelbrot`, in exact
arithmetic (`Fp.mandelbrotLoop` is the loop over an arbitrary arithmetic);
the first argument is `maxit - it`. -/
def mandelbrotLoop (cx cy : ℚ) : Nat → Nat → ℚ → ℚ → Nat
  | 0, it, _, _ => it
  | n + 1, it, x, y =>
    if x * x + y * y < 4 then
      mandelbrotLoop cx cy n (it + 1) (x * x - y * y + cx) (2 * x * y + cy)
    else it

/-- The function `mandelbrot(x, y)`, with `maxit = 511`, in exact arithmetic. -/
def mandelbrot (x y : ℚ) : ℤ :=
  (mandelbrotLoop x y 511 0 x y : Nat)

/-! ## Loop headers shared by the row computations -/

/-- The column loop `x = x0; for (int j = 0; j < width; ++j) { body(j, x); x += dx; }`, in
exact arithmetic (`Fp.forCols` is the loop over an arbitrary arithmetic);
the first counter argument is `width - j`. -/
def forCols {α : Type} (dx : ℚ) (body : Nat → ℚ → α → α) : Nat → Nat → ℚ → α → α
  | 0, _, _, a => a
  | n + 1, j, x, a => forCols dx body n (j + 1) (x + dx) (body j x a)

/-- The row loop `for (int i = 0, cy = cy0; i < n && cy < height; i++, cy += stride) body(i, cy)`
of `start` (block: `stride = 1`, cyclic: `stride = size`) and of `worker` (`stride = 1`);
the first counter argument is `n - i`. -/
def forRows {α : Type} (height stride : Nat) (body : Nat → Nat → α → α) :
    Nat → Nat → Nat → α → α
  | 0, _, _, a => a
  | n + 1, i, cy, a =>
    if cy < height then forRows height stride body n (i + 1) (cy + stride) (body i cy a)
    else a

/-- The row loop `for (int i = i0; i < height; i++) { body(i, y); y += dy; }` of
`doRemainingRows`; the first counter argument is `height - i`. -/
def forRem {α : Type} (dy : ℚ) (body : Nat → ℚ → α → α) : Nat → Nat → ℚ → α → α
  | 0, _, _, a => a
  | n + 1, i, y, a => forRem dy body n (i + 1) (y + dy) (body i y a)

/-- The body of every row computation: `x = minX; for j { buf[i*width + j + off] = mandelbrot(x, y); x += dx; }`
with `off = 0` in `start` and `doRemainingRows`, `off = 1` in `worker`. -/
def fillRow (minX dx : ℚ) (width off i : Nat) (y : ℚ) (buf : Buf) : Buf :=
  forCols dx (fun j x b => b.write (i * width + j + off) (mandelbrot x y)) width 0 minX buf

/-- The constants set in every `main`. -/
def minX : ℚ := -21 / 10

/-- The constant `maxX = 0.7`. -/
def maxX : ℚ := 7 / 10

/-- The constant `minY = -1.25`. -/
def minY : ℚ := -5 / 4

/-- The constant `maxY = 1.25`. -/
def maxY : ℚ := 5 / 4

/-- The step `dx = (maxX - minX)/width` of `main`. -/
def dxOf (width : Nat) : ℚ := (maxX - minX) / width

/-- The step `dy = (maxY - minY)/height` of `main`. -/
def dyOf (height : Nat) : ℚ := (maxY - minY) / height

/-- The collective `MPI_Gather(result, data_size, MPI_INT, results, data_size, MPI_INT, root, ...)`
as seen at the root: the first `data_size` cells of the send buffer of rank `r` land at
`results[r*data_size ..]`, for each rank `r < size`; the rest of `results` is left alone. -/
def gather (bufs : Nat → Buf) (data_size size : Nat) (results : Buf) : Buf :=
  fun k => if k < size * data_size then bufs (k / data_size) (k % data_size) else results k

/-! ## Block strategy (`MPI/mandelbrot_block.cc`) -/

namespace Block

/-- The function `start` of `mandelbrot_block.cc` (the unused `maxX`, `maxY`, `size` are
dropped). -/
def start (temp : Buf) (minX minY dx dy : ℚ) (height width job_size rank : Nat) : Buf :=
  forRows height 1 (fun i cy t => fillRow minX dx width 0 i ((cy : ℚ) * dy + minY) t)
    job_size 0 (rank * job_size) temp

/-- The rows `cy` for which the loop of `start` runs its body, in order. -/
def startRows (height job_size rank : Nat) : List Nat :=
  forRows height 1 (fun _ cy l => l ++ [cy]) job_size 0 (rank * job_size) []

/-- The function `doRemainingRows` of `mandelbrot_block.cc` (the unused `data_size` is dropped).
The parameter `minY` is part of the signature and the body never reads it: `y` starts at
`job_height * size * dy`. -/
def doRemainingRows (results : Buf) (size height width job_height : Nat) (minX minY dx dy : ℚ) :
    Buf :=
  forRem dy (fun i y r => fillRow minX dx width 0 i y r)
    (height - job_height * size) (job_height * size) ((job_height * size : Nat) * dy) results

/-- The rows `i` for which the loop of `doRemainingRows` runs its body, in order. -/
def remRows (size height job_height : Nat) (dy : ℚ) : List Nat :=
  forRem dy (fun i _ l => l ++ [i]) (height - job_height * size) (job_height * size)
    ((job_height * size : Nat) * dy) []

/-- The grid that `displayResult` receives on rank 0 in `main`: every rank runs `start` on its
own buffer, the buffers are gathered into `results`, and rank 0 runs `doRemainingRows`. -/
def grid (height width size : Nat) (localInit : Nat → Buf) (gridInit : Buf) : Buf :=
  let dx := dxOf width
  let dy := dyOf height
  let job_height := height / size
  let data_size := job_height * width
  let result := fun rank => start (localInit rank) minX minY dx dy height width job_height rank
  let results := gather result data_size size gridInit
  doRemainingRows results size height width job_height minX minY dx dy

end Block

/-! ## Cyclic strategy (`MPI/mandelbrot_cyclic.cc`) -/

namespace Cyclic

/-- The function `start` of `mandelbrot_cyclic.cc` (the unused `maxX`, `maxY` are dropped). -/
def start (temp : Buf) (minX minY dx dy : ℚ) (height width job_size rank size : Nat) : Buf :=
  forRows height size (fun i cy t => fillRow minX dx width 0 i ((cy : ℚ) * dy + minY) t)
    job_size 0 rank temp

/-- The rows `cy` for which the loop of `start` runs its body, in order. -/
def startRows (height job_size rank size : Nat) : List Nat :=
  forRows height size (fun _ cy l => l ++ [cy]) job_size 0 rank []

/-- The inner loop of `fixMatrix`:
`for j { permresults[i*width + j] = results[(cycNum + count*job_height)*width + j]; }`;
the first counter argument is `width - j`. -/
def copyRow (results : Buf) (width job_height i cycNum count : Nat) : Nat → Nat → Buf → Buf
  | 0, _, perm => perm
  | n + 1, j, perm =>
    copyRow results width job_height i cycNum count n (j + 1)
      (perm.write (i * width + j) (results ((cycNum + count * job_height) * width + j)))

/-- The outer loop of `fixMatrix` with its counters `i`, `cycNum`, `count`;
the first counter argument is `job_height*size - i`. -/
def fixLoop (results : Buf) (size width job_height : Nat) : Nat → Nat → Nat → Nat → Buf → Buf
  | 0, _, _, _, perm => perm
  | n + 1, i, cycNum, count, perm =>
    let perm1 := copyRow results width job_height i cycNum count width 0 perm
    let count1 := count + 1
    if count1 ≥ size then
      fixLoop results size width job_height n (i + 1) (cycNum + 1) (count1 % size) perm1
    else
      fixLoop results size width job_height n (i + 1) cycNum count1 perm1

/-- The function `fixMatrix` of `mandelbrot_cyclic.cc` (the unused `height` is dropped). -/
def fixMatrix (results permresults : Buf) (size width job_height : Nat) : Buf :=
  fixLoop results size width job_height (job_height * size) 0 0 0 permresults

/-- The function `doRemainingRows` of `mandelbrot_cyclic.cc`, textually the one of
`mandelbrot_block.cc` (the unused `data_size` is dropped): `minY` is a parameter the body never
reads. -/
def doRemainingRows (results : Buf) (size height width job_height : Nat) (minX minY dx dy : ℚ) :
    Buf :=
  forRem dy (fun i y r => fillRow minX dx width 0 i y r)
    (height - job_height * size) (job_height * size) ((job_height * size : Nat) * dy) results

/-- The rows `i` for which the loop of `doRemainingRows` runs its body, in order. -/
def remRows (size height job_height : Nat) (dy : ℚ) : List Nat :=
  forRem dy (fun i _ l => l ++ [i]) (height - job_height * size) (job_height * size)
    ((job_height * size : Nat) * dy) []

/-- The grid that `displayResult` receives on rank 0 in `main`: `start` on every rank, the
gather into `results`, `fixMatrix` into `permresults`, then `doRemainingRows`. -/
def grid (height width size : Nat) (localInit : Nat → Buf) (gatherInit permInit : Buf) : Buf :=
  let dx := dxOf width
  let dy := dyOf height
  let job_height := height / size
  let data_size := job_height * width
  let result := fun rank => start (localInit rank) minX minY dx dy height width job_height rank size
  let results := gather result data_size size gatherInit
  let permresults := fixMatrix results permInit size width job_height
  doRemainingRows permresults size height width job_height minX minY dx dy

end Cyclic

/-! ## Master-worker strategy (`mandelbrot_mw.cc`) -/

namespace MW

/-- The constant `ROOT`. -/
def ROOT : Nat := 0

/-- The message tags `TAG[] = {0, 1, 2}`: result, data, finish. -/
inductive Tag
  | result
  | data
  | finish
  deriving DecidableEq, Repr

/-- The function `worker` (the unused `maxX`, `maxY` are dropped). -/
def worker (start : Nat) (result : Buf) (minX minY dx dy : ℚ) (height width job_height : Nat) :
    Buf :=
  (forRows height 1 (fun i cy r => fillRow minX dx width 1 i ((cy : ℚ) * dy + minY) r)
    job_height 0 start result).write 0 (start : ℤ)

/-- The function `displayResult`: the values it reads from `results`, printed and handed to
`render`, row by row. -/
def displayResult (results : Buf) (height width size : Nat) : List (List ℤ) :=
  let offset := if size = 1 then 1 else 0
  (List.range height).map fun i => (List.range width).map fun j => results (i * width + j + offset)

/-- The inner loop of `fixMatrix`: `for j { results[offset*width + j] = result[i*width + j + 1]; }`;
the first counter argument is `width - j`. -/
def fixCols (offset : Nat) (result : Buf) (width i : Nat) : Nat → Nat → Buf → Buf
  | 0, _, results => results
  | n + 1, j, results =>
    fixCols offset result width i n (j + 1)
      (results.write (offset * width + j) (result (i * width + j + 1)))

/-- The outer loop of `fixMatrix`; the first counter argument is `job_height - i`. -/
def fixRows (offset : Nat) (result : Buf) (width : Nat) : Nat → Nat → Buf → Buf
  | 0, _, results => results
  | n + 1, i, results =>
    fixRows offset result width n (i + 1) (fixCols offset result width i width 0 results)

/-- The function `fixMatrix` of `mandelbrot_mw.cc`. -/
def fixMatrix (offset : Nat) (result results : Buf) (width job_height : Nat) : Buf :=
  fixRows offset result width job_height 0 results

/-- What the coordinator does on the wire, in program order. -/
inductive Event
  | send (dest : Nat) (tag : Tag) (value : Nat)
  | recv (source : Nat) (offset : Nat)
  deriving DecidableEq

/-- The state of a run as the coordinator drives it: its locals `actives`, `jobs`, its receive
buffer `result` and the grid `results`; the `result` buffer of every worker rank; the RESULT
messages sent by workers and not yet received (source rank, payload); the coordinator's
sends and receives so far; and what `displayResult` has shown. -/
structure State where
  actives : Nat
  jobs : Nat
  result : Buf
  results : Buf
  wbuf : Nat → Buf
  inflight : List (Nat × Buf)
  trace : List Event
  shown : List (List ℤ)

/-- How a run of the coordinator ends: it leaves the collection loop (`done`), it sits in
`MPI_Recv` with no RESULT message under way (`blocked`), or the model ran out of fuel. -/
inductive Outcome
  | done (s : State)
  | blocked (s : State)
  | unfinished (s : State)

/-- The coordinator's `MPI_Send(&jobs, 1, MPI_INT, dest, TAG[1], ...)` and its effect on the
receiving rank: `slave` on `dest` leaves its `MPI_Recv` with the data tag, runs
`worker(offset, result, ...)` on its own buffer and sends that buffer back. -/
def sendData (minX minY dx dy : ℚ) (height width job_height : Nat) (s : State) (dest : Nat) :
    State :=
  let buf := worker s.jobs (s.wbuf dest) minX minY dx dy height width job_height
  { s with
    wbuf := fun r => if r = dest then buf else s.wbuf r
    inflight := s.inflight ++ [(dest, buf)]
    trace := s.trace ++ [Event.send dest Tag.data s.jobs] }

/-- The loop `for (; actives < size && jobs < height; actives++, jobs += job_height)` of `master`;
the counter argument is `size - actives`. -/
def dispatch (minX minY dx dy : ℚ) (height width job_height : Nat) : Nat → State → State
  | 0, s => s
  | n + 1, s =>
    if s.jobs < height then
      dispatch minX minY dx dy height width job_height n
        { sendData minX minY dx dy height width job_height s s.actives with
          actives := s.actives + 1
          jobs := s.jobs + job_height }
    else s

/-- One pass through the body of the `do ... while` loop of `master`.  The blocking
`MPI_Recv(result, data_size, MPI_INT, MPI_ANY_SOURCE, TAG[0], ...)` delivers one of the
messages under way, number `pick` modulo their count; with none under way it never returns
(`none`).  `offset = result[0]` is used as an index, hence read as a natural number. -/
def collectBody (minX minY dx dy : ℚ) (height width job_height data_size : Nat) (pick : Nat)
    (s : State) : Option State :=
  match s.inflight[pick % s.inflight.length]? with
  | none => none
  | some (slave, payload) =>
    let result : Buf := fun k => if k < data_size then payload k else s.result k
    let offset := (result 0).toNat
    let s1 : State :=
      { s with
        result := result
        inflight := s.inflight.eraseIdx (pick % s.inflight.length)
        trace := s.trace ++ [Event.recv slave offset]
        actives := s.actives - 1 }
    let s2 : State :=
      if s1.jobs < height then
        { sendData minX minY dx dy height width job_height s1 slave with
          jobs := s1.jobs + job_height
          actives := s1.actives + 1 }
      else
        { s1 with trace := s1.trace ++ [Event.send slave Tag.finish s1.jobs] }
    some { s2 with results := fixMatrix offset result s2.results width job_height }

/-- The loop `do { ... } while (actives > 1);` of `master`.  `arrival k` chooses the message
delivered by the `k`-th receive from now. -/
def collect (minX minY dx dy : ℚ) (height width job_height data_size : Nat) :
    (Nat → Nat) → Nat → State → Outcome
  | _, 0, s => Outcome.unfinished s
  | arrival, fuel + 1, s =>
    match collectBody minX minY dx dy height width job_height data_size (arrival 0) s with
    | none => Outcome.blocked s
    | some s1 =>
      if s1.actives > 1 then
        collect minX minY dx dy height width job_height data_size (fun k => arrival (k + 1)) fuel s1
      else Outcome.done s1

/-- The function `master` (the unused `maxX`, `maxY`, `rank`, `time` are dropped).  `results` is
the content of `new int[height * width]`, `wbuf` the content of the workers' buffers at the
start of the run. -/
def master (result : Buf) (minX minY dx dy : ℚ) (height width job_height size data_size : Nat)
    (results : Buf) (wbuf : Nat → Buf) (arrival : Nat → Nat) (fuel : Nat) : Outcome :=
  let s0 : State :=
    { actives := 1, jobs := 0, result := result, results := results, wbuf := wbuf,
      inflight := [], trace := [], shown := [] }
  if size = 1 then
    let result1 := worker ROOT result minX minY dx dy height width job_height
    Outcome.done { s0 with result := result1, shown := displayResult result1 height width size }
  else
    match collect minX minY dx dy height width job_height data_size arrival fuel
        (dispatch minX minY dx dy height width job_height (size - 1) s0) with
    | Outcome.done s => Outcome.done { s with shown := displayResult s.results height width size }
    | o => o

/-- The messages the coordinator sent to `rank`, in order. -/
def inbox (rank : Nat) : List Event → List (Tag × Nat)
  | [] => []
  | Event.send dest tag value :: es =>
    if dest = rank then (tag, value) :: inbox rank es else inbox rank es
  | Event.recv _ _ :: es => inbox rank es

/-- The function `slave` (the unused `maxX`, `maxY`, `data_size` and the load counter
`rankList[rank]` are dropped), run against the messages the coordinator sends to this rank: each
`MPI_Recv(&offset, ...)` takes the next one; a data tag runs `worker` and sends `result`, any
other tag leaves the loop.  Returns the payloads sent and whether the function has returned
(`false`: it sits in `MPI_Recv`). -/
def slave (minX minY dx dy : ℚ) (height width job_height : Nat) :
    Buf → List (Tag × Nat) → List Buf × Bool
  | _, [] => ([], false)
  | result, (tag, offset) :: msgs =>
    if tag = Tag.data then
      let result1 := worker offset result minX minY dx dy height width job_height
      let rest := slave minX minY dx dy height width job_height result1 msgs
      (result1 :: rest.1, rest.2)
    else ([], true)

/-- The offsets `result[0]` of the RESULT messages the coordinator received, in order. -/
def recvOffsets : List Event → List Nat
  | [] => []
  | Event.recv _ offset :: es => offset :: recvOffsets es
  | Event.send _ _ _ :: es => recvOffsets es

/-- The offsets the coordinator sent in DATA messages, in order. -/
def dataSends : List Event → List Nat
  | [] => []
  | Event.send _ tag value :: es =>
    if tag = Tag.data then value :: dataSends es else dataSends es
  | Event.recv _ _ :: es => dataSends es

/-- Cell `(i, j)` of a matrix given by its rows. -/
def cell (m : List (List ℤ)) (i j : Nat) : Option ℤ :=
  (m[i]?).bind fun row => row[j]?

/-- The grid of the specification: the kernel invoked over every cell in row-major order, at
the grid coordinate `x = minX + col*dx`, `y = minY + row*dy`. -/
def kernelGrid (height width : Nat) : List (List ℤ) :=
  (List.range height).map fun (row : Nat) => (List.range width).map fun (col : Nat) =>
    mandelbrot (minX + (col : ℚ) * dxOf width) (minY + (row : ℚ) * dyOf height)

/-- The protocol invariant of the coordinator for one-row tasks: `actives - 1` messages are
under way; each carries an offset below `jobs` in cell `0` and the kernel values of that row
behind it; the offsets received and under way are those dispatched, `0 .. jobs - 1`. -/
structure Proto (minX minY dx dy : ℚ) (height width : Nat) (s : State) : Prop where
  actives_eq : s.actives = s.inflight.length + 1
  jobs_le : s.jobs ≤ height
  payload : ∀ p ∈ s.inflight, ∃ o, o < s.jobs ∧ p.2 0 = (o : ℤ) ∧
    ∀ j, j < width → p.2 (j + 1) = mandelbrot (minX + j * dx) ((o : ℚ) * dy + minY)
  offsets : List.Perm (recvOffsets s.trace ++ s.inflight.map (fun p => (p.2 0).toNat))
    (List.range s.jobs)
  sends : dataSends s.trace = List.range s.jobs

/-- The grid invariant of the coordinator for one-row tasks: the rows whose RESULT was received
hold their kernel values, every other cell holds what `results0` held. -/
structure GridOK (minX minY dx dy : ℚ) (width : Nat) (results0 : Buf) (s : State) : Prop where
  rows : ∀ o ∈ recvOffsets s.trace, ∀ j, j < width →
    s.results (o * width + j) = mandelbrot (minX + j * dx) ((o : ℚ) * dy + minY)
  frame : ∀ k, (∀ o ∈ recvOffsets s.trace, k < o * width ∨ (o + 1) * width ≤ k) →
    s.results k = results0 k

/-- The run of `main` on rank 0 for a communicator of `size` processes: `job_height` is `height`
for a single process and `1` otherwise, `data_size = job_height * width + 1`. -/
def run (height width size : Nat) (result results : Buf) (wbuf : Nat → Buf)
    (arrival : Nat → Nat) (fuel : Nat) : Outcome :=
  let dx := dxOf width
  let dy := dyOf height
  let job_height := if size = 1 then height else 1
  let data_size := job_height * width + 1
  master result minX minY dx dy height width job_height size data_size results wbuf arrival fuel

end MW

/-! ## Observations of the loops -/

/-- The accesses of the inner loop of the cyclic `fixMatrix`, in order: for each `j` the index
written in `permresults` and the index read in `results`; the first counter argument is
`width - j`. -/
def Cyclic.copyRowAccesses (width job_height i cycNum count : Nat) :
    Nat → Nat → List (Nat × Nat) → List (Nat × Nat)
  | 0, _, acc => acc
  | n + 1, j, acc =>
    Cyclic.copyRowAccesses width job_height i cycNum count n (j + 1)
      (acc ++ [(i * width + j, (cycNum + count * job_height) * width + j)])

/-- The accesses of the cyclic `fixMatrix` loop, in order; same recursion as `fixLoop`. -/
def Cyclic.fixLoopAccesses (size width job_height : Nat) :
    Nat → Nat → Nat → Nat → List (Nat × Nat) → List (Nat × Nat)
  | 0, _, _, _, acc => acc
  | n + 1, i, cycNum, count, acc =>
    let acc1 := Cyclic.copyRowAccesses width job_height i cycNum count width 0 acc
    let count1 := count + 1
    if count1 ≥ size then
      Cyclic.fixLoopAccesses size width job_height n (i + 1) (cycNum + 1) (count1 % size) acc1
    else
      Cyclic.fixLoopAccesses size width job_height n (i + 1) cycNum count1 acc1

/-- The counters `(i, cycNum, count)` of the cyclic `fixMatrix` at the head of every pass of
its outer loop, in order; same recursion as `fixLoop`. -/
def Cyclic.fixLoopCounters (size : Nat) :
    Nat → Nat → Nat → Nat → List (Nat × Nat × Nat) → List (Nat × Nat × Nat)
  | 0, _, _, _, acc => acc
  | n + 1, i, cycNum, count, acc =>
    let count1 := count + 1
    if count1 ≥ size then
      Cyclic.fixLoopCounters size n (i + 1) (cycNum + 1) (count1 % size)
        (acc ++ [(i, cycNum, count)])
    else
      Cyclic.fixLoopCounters size n (i + 1) cycNum count1 (acc ++ [(i, cycNum, count)])

/-- The accesses (index written, index read) of `fixMatrix(results, permresults, size, height,
width, job_height)`, in order. -/
def Cyclic.fixMatrixAccesses (size width job_height : Nat) : List (Nat × Nat) :=
  Cyclic.fixLoopAccesses size width job_height (job_height * size) 0 0 0 []

/-- The counters `(i, cycNum, count)` of `fixMatrix` at the head of every pass. -/
def Cyclic.fixMatrixCounters (size job_height : Nat) : List (Nat × Nat × Nat) :=
  Cyclic.fixLoopCounters size (job_height * size) 0 0 0 []

/-- The number of DATA messages the coordinator sent to `rank`. -/
def MW.sendsTo (rank : Nat) : List MW.Event → Nat
  | [] => 0
  | MW.Event.send dest tag _ :: es =>
    (if dest = rank ∧ tag = MW.Tag.data then 1 else 0) + MW.sendsTo rank es
  | MW.Event.recv _ _ :: es => MW.sendsTo rank es

/-- The number of RESULT messages the coordinator received from `rank`. -/
def MW.recvsFrom (rank : Nat) : List MW.Event → Nat
  | [] => 0
  | MW.Event.send _ _ _ :: es => MW.recvsFrom rank es
  | MW.Event.recv source _ :: es => (if source = rank then 1 else 0) + MW.recvsFrom rank es

/-- The state in which `master` (with more than one process) enters its `do ... while` loop:
its locals after the initial dispatch loop. -/
def MW.dispatched (result : Buf) (minX minY dx dy : ℚ) (height width job_height size : Nat)
    (results : Buf) (wbuf : Nat → Buf) : MW.State :=
  MW.dispatch minX minY dx dy height width job_height (size - 1)
    { actives := 1, jobs := 0, result := result, results := results, wbuf := wbuf,
      inflight := [], trace := [], shown := [] }

/-- The state at the end of pass `k` of the `do ... while` loop of `master` entered in state
`s` (`k = 0`: at the head of the first pass); `none` when the loop has been left before that
pass or sits in a receive.  Same passes as `collect`. -/
def MW.collectAt (minX minY dx dy : ℚ) (height width job_height data_size : Nat) :
    (Nat → Nat) → Nat → MW.State → Option MW.State
  | _, 0, s => some s
  | arrival, k + 1, s =>
    match MW.collectBody minX minY dx dy height width job_height data_size (arrival 0) s with
    | none => none
    | some s1 =>
      if k = 0 ∨ s1.actives > 1 then
        MW.collectAt minX minY dx dy height width job_height data_size
          (fun i => arrival (i + 1)) k s1
      else none

/-- The per-worker invariant of the coordinator: no rank has two RESULT messages under way,
and the DATA messages sent to a rank are the RESULT messages received from it plus the one
under way, if any. -/
structure MW.Workers (s : MW.State) : Prop where
  nodup : (s.inflight.map Prod.fst).Nodup
  held : ∀ w, MW.sendsTo w s.trace
    = MW.recvsFrom w s.trace + (s.inflight.map Prod.fst).count w

end HPC

/-! ## The program over an arbitrary `double` arithmetic, with stores logged

The definitions above read the `double` operations as exact operations on rationals.  The
definitions below embed the same functions once more, with two differences.

* The `double` operations are the fields of an arithmetic `Arith`, about which nothing is
  assumed: every theorem stated for all `A : Arith` holds whatever the rounding is.  Two
  arithmetics are given: `exactArith`, the rationals, and `binary64`, round-to-nearest-even
  with a 53-bit significand and NaN.  Each operation is taken to be a function of its
  operands: a compiler that fuses `x*x + y*y` into one rounding is outside the model.
* A buffer is a `Mem`: its content together with the list of the indices stored to, in order,
  so that what a function writes can be read off the function itself.
-/

namespace HPC

/-- The operations on `double` that the program uses: `+`, `-`, `*`, `/`, the conversion of
an `int`, the value of a decimal literal given as a fraction (`-2.1` is `lit (-21) 10`), and
the comparisons `<` and `<=` (`a >= b` is `le b a`). -/
structure Arith where
  F : Type
  add : F → F → F
  sub : F → F → F
  mul : F → F → F
  div : F → F → F
  ofInt : ℤ → F
  lit : ℤ → Nat → F
  lt : F → F → Bool
  le : F → F → Bool

/-- Exact arithmetic: the rationals. -/
def exactArith : Arith :=
  { F := ℚ
    add := fun a b => a + b
    sub := fun a b => a - b
    mul := fun a b => a * b
    div := fun a b => a / b
    ofInt := fun n => (n : ℚ)
    lit := fun num den => (num : ℚ) / (den : ℚ)
    lt := fun a b => decide (a < b)
    le := fun a b => decide (a ≤ b) }

/-- A value of the `binary64` arithmetic: NaN, or the number `m * 2^e`.  Every operation
rounds its exact result to a significand of 53 binary digits, to nearest, ties to even.  The
exponent is not bounded: overflow to an infinity, gradual underflow and the sign of zero are
not modelled, so the model is that of `binary64` for results in its normal range. -/
inductive B64
  | nan
  | fin (m : ℤ) (e : ℤ)

namespace B64

/-- The number of binary digits of `n`; the first argument bounds the recursion. -/
def bitlenAux : Nat → Nat → Nat
  | 0, _ => 0
  | fuel + 1, n => if n = 0 then 0 else bitlenAux fuel (n / 2) + 1

/-- The number of binary digits of `n`. -/
def bitlen (n : Nat) : Nat := bitlenAux n n

/-- Rounding of a magnitude to 53 binary digits, to nearest, ties to even: the rounded
significand and the number of digits dropped. -/
def roundMant (n : Nat) : Nat × Nat :=
  let s := bitlen n - 53
  if s = 0 then (n, 0)
  else
    let q := n >>> s
    let r := n % 2 ^ s
    let half := 2 ^ (s - 1)
    if r > half ∨ (r = half ∧ q % 2 = 1) then (q + 1, s) else (q, s)

/-- The `binary64` value nearest to `m * 2^e`. -/
def rnd (m e : ℤ) : B64 :=
  fin (if m < 0 then -((roundMant m.natAbs).1 : ℤ) else ((roundMant m.natAbs).1 : ℤ))
    (e + ((roundMant m.natAbs).2 : ℤ))

/-- Addition: the exact sum, rounded. -/
def add : B64 → B64 → B64
  | fin m1 e1, fin m2 e2 =>
    rnd (m1 * ((2 ^ (e1 - min e1 e2).toNat : Nat) : ℤ)
        + m2 * ((2 ^ (e2 - min e1 e2).toNat : Nat) : ℤ)) (min e1 e2)
  | _, _ => nan

/-- Negation. -/
def neg : B64 → B64
  | fin m e => fin (-m) e
  | nan => nan

/-- Subtraction: the exact difference, rounded. -/
def sub (a b : B64) : B64 := add a (neg b)

/-- Multiplication: the exact product, rounded. -/
def mul : B64 → B64 → B64
  | fin m1 e1, fin m2 e2 => rnd (m1 * m2) (e1 + e2)
  | _, _ => nan

/-- Division: the quotient is computed to at least 55 binary digits, a sticky digit records a
remainder, and the result is rounded.  A zero divisor gives NaN here. -/
def div : B64 → B64 → B64
  | fin m1 e1, fin m2 e2 =>
    if m2 = 0 then nan
    else
      rnd
        (if (m1 < 0) = (m2 < 0) then
          ((2 * ((m1.natAbs <<< (55 + bitlen m2.natAbs)) / m2.natAbs)
            + (if (m1.natAbs <<< (55 + bitlen m2.natAbs)) % m2.natAbs = 0 then 0 else 1) : Nat) : ℤ)
        else
          -((2 * ((m1.natAbs <<< (55 + bitlen m2.natAbs)) / m2.natAbs)
            + (if (m1.natAbs <<< (55 + bitlen m2.natAbs)) % m2.natAbs = 0 then 0 else 1) : Nat) : ℤ))
        (e1 - e2 - ((55 + bitlen m2.natAbs : Nat) : ℤ) - 1)
  | _, _ => nan

/-- Conversion of an `int`. -/
def ofInt (n : ℤ) : B64 := rnd n 0

/-- The value of the decimal literal `num/den`: the nearest `binary64` value. -/
def lit (num : ℤ) (den : Nat) : B64 := div (ofInt num) (ofInt (den : ℤ))

/-- The comparison `<`; false when an operand is NaN. -/
def lt : B64 → B64 → Bool
  | fin m1 e1, fin m2 e2 =>
    decide (m1 * ((2 ^ (e1 - min e1 e2).toNat : Nat) : ℤ)
      < m2 * ((2 ^ (e2 - min e1 e2).toNat : Nat) : ℤ))
  | _, _ => false

/-- The comparison `<=`; false when an operand is NaN. -/
def le : B64 → B64 → Bool
  | fin m1 e1, fin m2 e2 =>
    decide (m1 * ((2 ^ (e1 - min e1 e2).toNat : Nat) : ℤ)
      ≤ m2 * ((2 ^ (e2 - min e1 e2).toNat : Nat) : ℤ))
  | _, _ => false

/-- The rational number a value stands for (`0` for NaN). -/
def toRat : B64 → ℚ
  | fin m e => (m : ℚ) * (2 : ℚ) ^ e
  | nan => 0

end B64

/-- The arithmetic of IEEE 754 `binary64` with round-to-nearest-even, within the limits stated
at `B64`. -/
def binary64 : Arith :=
  { F := B64
    add := B64.add
    sub := B64.sub
    mul := B64.mul
    div := B64.div
    ofInt := B64.ofInt
    lit := B64.lit
    lt := B64.lt
    le := B64.le }

/-- A buffer with the log of the stores made to it: its content and the indices stored to, in
order. -/
structure Mem where
  buf : Buf
  log : List Nat

/-- A buffer just obtained from `new int[...]`, holding `b`: nothing stored yet. -/
def Mem.fresh (b : Buf) : Mem :=
  { buf := b, log := [] }

/-- The store `m[i] = v`. -/
def Mem.write (m : Mem) (i : Nat) (v : ℤ) : Mem :=
  { buf := m.buf.write i v, log := m.log ++ [i] }

namespace Fp

/-- The loop `for (it = 0; it < maxit && (x*x + y*y) < 4; ++it)` of `mandelbrot`;
the first argument is `maxit - it`. -/
def mandelbrotLoop (A : Arith) (cx cy : A.F) : Nat → Nat → A.F → A.F → Nat
  | 0, it, _, _ => it
  | n + 1, it, x, y =>
    if A.lt (A.add (A.mul x x) (A.mul y y)) (A.ofInt 4) = true then
      mandelbrotLoop A cx cy n (it + 1) (A.add (A.sub (A.mul x x) (A.mul y y)) cx)
        (A.add (A.mul (A.mul (A.ofInt 2) x) y) cy)
    else it

/-- The function `mandelbrot(x, y)`, with `maxit = 511`. -/
def mandelbrot (A : Arith) (x y : A.F) : ℤ :=
  (mandelbrotLoop A x y 511 0 x y : Nat)

/-- The iterate `(x, y)` held by the loop of `mandelbrot(cx, cy)` after `n` passes of its
body. -/
def orbit (A : Arith) (cx cy : A.F) : Nat → A.F × A.F
  | 0 => (cx, cy)
  | n + 1 =>
    (A.add (A.sub (A.mul (orbit A cx cy n).1 (orbit A cx cy n).1)
        (A.mul (orbit A cx cy n).2 (orbit A cx cy n).2)) cx,
      A.add (A.mul (A.mul (A.ofInt 2) (orbit A cx cy n).1) (orbit A cx cy n).2) cy)

/-- The squared modulus `x*x + y*y` as the loop test computes it. -/
def normSq (A : Arith) (p : A.F × A.F) : A.F :=
  A.add (A.mul p.1 p.1) (A.mul p.2 p.2)

/-- The value of an accumulator that starts at `x0` after `k` executions of `x += dx`. -/
def steps (A : Arith) (x0 dx : A.F) : Nat → A.F
  | 0 => x0
  | k + 1 => A.add (steps A x0 dx k) dx

/-- The column loop `x = x0; for (int j = 0; j < width; ++j) { body(j, x); x += dx; }`;
the first counter argument is `width - j`. -/
def forCols {α : Type} (A : Arith) (dx : A.F) (body : Nat → A.F → α → α) :
    Nat → Nat → A.F → α → α
  | 0, _, _, a => a
  | n + 1, j, x, a => forCols A dx body n (j + 1) (A.add x dx) (body j x a)

/-- The row loop `for (int i = i0; i < height; i++) { body(i, y); y += dy; }` of
`doRemainingRows`; the first counter argument is `height - i`. -/
def forRem {α : Type} (A : Arith) (dy : A.F) (body : Nat → A.F → α → α) :
    Nat → Nat → A.F → α → α
  | 0, _, _, a => a
  | n + 1, i, y, a => forRem A dy body n (i + 1) (A.add y dy) (body i y a)

/-- The body of every row computation:
`x = minX; for j { buf[i*width + j + off] = mandelbrot(x, y); x += dx; }`
with `off = 0` in `start` and `doRemainingRows`, `off = 1` in `worker`. -/
def fillRow (A : Arith) (minX dx : A.F) (width off i : Nat) (y : A.F) (buf : Mem) : Mem :=
  forCols A dx (fun j x b => b.write (i * width + j + off) (mandelbrot A x y)) width 0 minX buf

/-- The constant `minX = -2.1` of every `main`. -/
def minX (A : Arith) : A.F := A.lit (-21) 10

/-- The constant `maxX = 0.7`. -/
def maxX (A : Arith) : A.F := A.lit 7 10

/-- The constant `minY = -1.25`. -/
def minY (A : Arith) : A.F := A.lit (-5) 4

/-- The constant `maxY = 1.25`. -/
def maxY (A : Arith) : A.F := A.lit 5 4

/-- The step `dx = (maxX - minX)/width` of `main`. -/
def dxOf (A : Arith) (width : Nat) : A.F := A.div (A.sub (maxX A) (minX A)) (A.ofInt (width : ℤ))

/-- The step `dy = (maxY - minY)/height` of `main`. -/
def dyOf (A : Arith) (height : Nat) : A.F :=
  A.div (A.sub (maxY A) (minY A)) (A.ofInt (height : ℤ))

/-- The ordinate `y = cy * dy + minY` that `start` and `worker` compute for grid row `cy`. -/
def rowY (A : Arith) (minY dy : A.F) (cy : Nat) : A.F :=
  A.add (A.mul (A.ofInt (cy : ℤ)) dy) minY

/-- The collective `MPI_Gather(result, data_size, MPI_INT, results, data_size, MPI_INT, root, ...)`
as seen at the root: the cells `0 .. size*data_size - 1` of `results` are stored to, in this
order, cell `r*data_size + k` receiving cell `k` of the send buffer of rank `r`. -/
def gather (bufs : Nat → Buf) (data_size size : Nat) (results : Mem) : Mem :=
  (List.range (size * data_size)).foldl
    (fun m k => m.write k (bufs (k / data_size) (k % data_size))) results

namespace Block

/-- The function `start` of `mandelbrot_block.cc` (the unused `maxX`, `maxY`, `size` are
dropped). -/
def start (A : Arith) (temp : Mem) (minX minY dx dy : A.F) (height width job_size rank : Nat) :
    Mem :=
  forRows height 1
    (fun i cy t => fillRow A minX dx width 0 i (A.add (A.mul (A.ofInt (cy : ℤ)) dy) minY) t)
    job_size 0 (rank * job_size) temp

/-- The function `doRemainingRows` of `mandelbrot_block.cc` (the unused `data_size` is dropped).
The parameter `minY` is part of the signature and the body never reads it: `y` starts at
`job_height * size * dy`. -/
def doRemainingRows (A : Arith) (results : Mem) (size height width job_height : Nat)
    (minX minY dx dy : A.F) : Mem :=
  forRem A dy (fun i y r => fillRow A minX dx width 0 i y r)
    (height - job_height * size) (job_height * size)
    (A.mul (A.ofInt ((job_height * size : Nat) : ℤ)) dy) results

/-- The buffer `results` that `displayResult` receives on rank 0 in `main`: every rank runs
`start` on its own buffer, the buffers are gathered into `results`, and rank 0 runs
`doRemainingRows`. -/
def grid (A : Arith) (height width size : Nat) (localInit : Nat → Buf) (gridInit : Buf) : Mem :=
  let dx := dxOf A width
  let dy := dyOf A height
  let job_height := height / size
  let data_size := job_height * width
  let result := fun rank =>
    start A (Mem.fresh (localInit rank)) (minX A) (minY A) dx dy height width job_height rank
  let results := gather (fun rank => (result rank).buf) data_size size (Mem.fresh gridInit)
  doRemainingRows A results size height width job_height (minX A) (minY A) dx dy

end Block

namespace Cyclic

/-- The function `start` of `mandelbrot_cyclic.cc` (the unused `maxX`, `maxY` are dropped). -/
def start (A : Arith) (temp : Mem) (minX minY dx dy : A.F)
    (height width job_size rank size : Nat) : Mem :=
  forRows height size
    (fun i cy t => fillRow A minX dx width 0 i (A.add (A.mul (A.ofInt (cy : ℤ)) dy) minY) t)
    job_size 0 rank temp

/-- The inner loop of `fixMatrix`:
`for j { permresults[i*width + j] = results[(cycNum + count*job_height)*width + j]; }`;
the first counter argument is `width - j`. -/
def copyRow (results : Buf) (width job_height i cycNum count : Nat) : Nat → Nat → Mem → Mem
  | 0, _, perm => perm
  | n + 1, j, perm =>
    copyRow results width job_height i cycNum count n (j + 1)
      (perm.write (i * width + j) (results ((cycNum + count * job_height) * width + j)))

/-- The outer loop of `fixMatrix` with its counters `i`, `cycNum`, `count`;
the first counter argument is `job_height*size - i`. -/
def fixLoop (results : Buf) (size width job_height : Nat) : Nat → Nat → Nat → Nat → Mem → Mem
  | 0, _, _, _, perm => perm
  | n + 1, i, cycNum, count, perm =>
    let perm1 := copyRow results width job_height i cycNum count width 0 perm
    let count1 := count + 1
    if count1 ≥ size then
      fixLoop results size width job_height n (i + 1) (cycNum + 1) (count1 % size) perm1
    else
      fixLoop results size width job_height n (i + 1) cycNum count1 perm1

/-- The function `fixMatrix` of `mandelbrot_cyclic.cc` (the unused `height` is dropped). -/
def fixMatrix (results : Buf) (permresults : Mem) (size width job_height : Nat) : Mem :=
  fixLoop results size width job_height (job_height * size) 0 0 0 permresults

/-- The function `doRemainingRows` of `mandelbrot_cyclic.cc`, textually the one of
`mandelbrot_block.cc` (the unused `data_size` is dropped): `minY` is a parameter the body never
reads. -/
def doRemainingRows (A : Arith) (results : Mem) (size height width job_height : Nat)
    (minX minY dx dy : A.F) : Mem :=
  forRem A dy (fun i y r => fillRow A minX dx width 0 i y r)
    (height - job_height * size) (job_height * size)
    (A.mul (A.ofInt ((job_height * size : Nat) : ℤ)) dy) results

/-- The buffers of rank 0 in `main`: `start` on every rank, the gather into `results` (first
component), then `fixMatrix` into `permresults` and `doRemainingRows` on it (second
component, what `displayResult` receives). -/
def grid (A : Arith) (height width size : Nat) (localInit : Nat → Buf)
    (gatherInit permInit : Buf) : Mem × Mem :=
  let dx := dxOf A width
  let dy := dyOf A height
  let job_height := height / size
  let data_size := job_height * width
  let result := fun rank =>
    start A (Mem.fresh (localInit rank)) (minX A) (minY A) dx dy height width job_height rank size
  let results := gather (fun rank => (result rank).buf) data_size size (Mem.fresh gatherInit)
  let permresults := fixMatrix results.buf (Mem.fresh permInit) size width job_height
  (results, doRemainingRows A permresults size height width job_height (minX A) (minY A) dx dy)

end Cyclic

namespace MW

/-- The function `worker` (the unused `maxX`, `maxY` are dropped). -/
def worker (A : Arith) (start : Nat) (result : Mem) (minX minY dx dy : A.F)
    (height width job_height : Nat) : Mem :=
  (forRows height 1
    (fun i cy r => fillRow A minX dx width 1 i (A.add (A.mul (A.ofInt (cy : ℤ)) dy) minY) r)
    job_height 0 start result).write 0 (start : ℤ)

/-- The coordinator's `MPI_Send(&jobs, 1, MPI_INT, dest, TAG[1], ...)` and its effect on the
receiving rank: `slave` on `dest` leaves its `MPI_Recv` with the data tag, runs
`worker(offset, result, ...)` on its own buffer and sends that buffer back. -/
def sendData (A : Arith) (minX minY dx dy : A.F) (height width job_height : Nat)
    (s : HPC.MW.State) (dest : Nat) : HPC.MW.State :=
  let buf :=
    (worker A s.jobs (Mem.fresh (s.wbuf dest)) minX minY dx dy height width job_height).buf
  { s with
    wbuf := fun r => if r = dest then buf else s.wbuf r
    inflight := s.inflight ++ [(dest, buf)]
    trace := s.trace ++ [HPC.MW.Event.send dest HPC.MW.Tag.data s.jobs] }

/-- The loop `for (; actives < size && jobs < height; actives++, jobs += job_height)` of `master`;
the counter argument is `size - actives`. -/
def dispatch (A : Arith) (minX minY dx dy : A.F) (height width job_height : Nat) :
    Nat → HPC.MW.State → HPC.MW.State
  | 0, s => s
  | n + 1, s =>
    if s.jobs < height then
      dispatch A minX minY dx dy height width job_height n
        { sendData A minX minY dx dy height width job_height s s.actives with
          actives := s.actives + 1
          jobs := s.jobs + job_height }
    else s

/-- One pass through the body of the `do ... while` loop of `master`.  The blocking
`MPI_Recv(result, data_size, MPI_INT, MPI_ANY_SOURCE, TAG[0], ...)` delivers one of the
messages under way, number `pick` modulo their count; with none under way it never returns
(`none`).  `offset = result[0]` is used as an index, hence read as a natural number. -/
def collectBody (A : Arith) (minX minY dx dy : A.F) (height width job_height data_size : Nat)
    (pick : Nat) (s : HPC.MW.State) : Option HPC.MW.State :=
  match s.inflight[pick % s.inflight.length]? with
  | none => none
  | some (slave, payload) =>
    let result : Buf := fun k => if k < data_size then payload k else s.result k
    let offset := (result 0).toNat
    let s1 : HPC.MW.State :=
      { s with
        result := result
        inflight := s.inflight.eraseIdx (pick % s.inflight.length)
        trace := s.trace ++ [HPC.MW.Event.recv slave offset]
        actives := s.actives - 1 }
    let s2 : HPC.MW.State :=
      if s1.jobs < height then
        { sendData A minX minY dx dy height width job_height s1 slave with
          jobs := s1.jobs + job_height
          actives := s1.actives + 1 }
      else
        { s1 with trace := s1.trace ++ [HPC.MW.Event.send slave HPC.MW.Tag.finish s1.jobs] }
    some { s2 with results := HPC.MW.fixMatrix offset result s2.results width job_height }

/-- The loop `do { ... } while (actives > 1);` of `master`.  `arrival k` chooses the message
delivered by the `k`-th receive from now. -/
def collect (A : Arith) (minX minY dx dy : A.F) (height width job_height data_size : Nat) :
    (Nat → Nat) → Nat → HPC.MW.State → HPC.MW.Outcome
  | _, 0, s => HPC.MW.Outcome.unfinished s
  | arrival, fuel + 1, s =>
    match collectBody A minX minY dx dy height width job_height data_size (arrival 0) s with
    | none => HPC.MW.Outcome.blocked s
    | some s1 =>
      if s1.actives > 1 then
        collect A minX minY dx dy height width job_height data_size (fun k => arrival (k + 1))
          fuel s1
      else HPC.MW.Outcome.done s1

/-- The function `master` (the unused `maxX`, `maxY`, `rank`, `time` are dropped).  `results` is
the content of `new int[height * width]`, `wbuf` the content of the workers' buffers at the
start of the run. -/
def master (A : Arith) (result : Buf) (minX minY dx dy : A.F)
    (height width job_height size data_size : Nat)
    (results : Buf) (wbuf : Nat → Buf) (arrival : Nat → Nat) (fuel : Nat) : HPC.MW.Outcome :=
  let s0 : HPC.MW.State :=
    { actives := 1, jobs := 0, result := result, results := results, wbuf := wbuf,
      inflight := [], trace := [], shown := [] }
  if size = 1 then
    let result1 :=
      (worker A HPC.MW.ROOT (Mem.fresh result) minX minY dx dy height width job_height).buf
    HPC.MW.Outcome.done
      { s0 with result := result1, shown := HPC.MW.displayResult result1 height width size }
  else
    match collect A minX minY dx dy height width job_height data_size arrival fuel
        (dispatch A minX minY dx dy height width job_height (size - 1) s0) with
    | HPC.MW.Outcome.done s =>
      HPC.MW.Outcome.done { s with shown := HPC.MW.displayResult s.results height width size }
    | o => o

/-- The run of `main` on rank 0 for a communicator of `size` processes: `job_height` is `height`
for a single process and `1` otherwise, `data_size = job_height * width + 1`. -/
def run (A : Arith) (height width size : Nat) (result results : Buf) (wbuf : Nat → Buf)
    (arrival : Nat → Nat) (fuel : Nat) : HPC.MW.Outcome :=
  let dx := dxOf A width
  let dy := dyOf A height
  let job_height := if size = 1 then height else 1
  let data_size := job_height * width + 1
  master A result (minX A) (minY A) dx dy height width job_height size data_size results wbuf
    arrival fuel

/-- The grid obtained by invoking the kernel over every cell in row-major order the way the
program steps through a row: `y = row*dy + minY`, and `x` is `minX` after `col` additions of
`dx`. -/
def steppedGrid (A : Arith) (height width : Nat) : List (List ℤ) :=
  (List.range height).map fun (row : Nat) => (List.range width).map fun (col : Nat) =>
    mandelbrot A (steps A (minX A) (dxOf A width) col) (rowY A (minY A) (dyOf A height) row)

/-- The grid of the specification: the kernel invoked over every cell in row-major order at the
grid coordinate `x = minX + col*dx`, `y = minY + row*dy`. -/
def kernelGrid (A : Arith) (height width : Nat) : List (List ℤ) :=
  (List.range height).map fun (row : Nat) => (List.range width).map fun (col : Nat) =>
    mandelbrot A (A.add (minX A) (A.mul (A.ofInt (col : ℤ)) (dxOf A width)))
      (A.add (minY A) (A.mul (A.ofInt (row : ℤ)) (dyOf A height)))

/-- The protocol invariant of the coordinator for one-row tasks: `actives - 1` messages are
under way; each carries an offset below `jobs` in cell `0` and the kernel values of that row
behind it; the offsets received and under way are those dispatched, `0 .. jobs - 1`. -/
structure Proto (A : Arith) (minX minY dx dy : A.F) (height width : Nat) (s : HPC.MW.State) :
    Prop where
  actives_eq : s.actives = s.inflight.length + 1
  jobs_le : s.jobs ≤ height
  payload : ∀ p ∈ s.inflight, ∃ o, o < s.jobs ∧ p.2 0 = (o : ℤ) ∧
    ∀ j, j < width → p.2 (j + 1) = mandelbrot A (steps A minX dx j) (rowY A minY dy o)
  offsets : List.Perm
    (HPC.MW.recvOffsets s.trace ++ s.inflight.map (fun p => (p.2 0).toNat))
    (List.range s.jobs)
  sends : HPC.MW.dataSends s.trace = List.range s.jobs

/-- The grid invariant of the coordinator for one-row tasks: the rows whose RESULT was received
hold their kernel values, every other cell holds what `results0` held. -/
structure GridOK (A : Arith) (minX minY dx dy : A.F) (width : Nat) (results0 : Buf)
    (s : HPC.MW.State) : Prop where
  rows : ∀ o ∈ HPC.MW.recvOffsets s.trace, ∀ j, j < width →
    s.results (o * width + j) = mandelbrot A (steps A minX dx j) (rowY A minY dy o)
  frame : ∀ k, (∀ o ∈ HPC.MW.recvOffsets s.trace, k < o * width ∨ (o + 1) * width ≤ k) →
    s.results k = results0 k

end MW

end Fp

end HPC

/-! ## Stores and the loops that fill rows -/

namespace HPC

theorem Buf.write_same (b : Buf) (i : Nat) (v : ℤ) : b.write i v i = v := by
  simp [Buf.write]

theorem Buf.write_other (b : Buf) (i : Nat) (v : ℤ) (k : Nat) (h : k ≠ i) :
    b.write i v k = b k := by
  simp [Buf.write, h]

/-- Cells outside the index range of a column loop keep their content. -/
theorem forCols_write_miss (dx : ℚ) (f : ℚ → ℤ) (base : Nat) :
    ∀ (n j0 : Nat) (x0 : ℚ) (b : Buf) (k : Nat),
      (k < base + j0 ∨ base + j0 + n ≤ k) →
      forCols dx (fun j x b => b.write (base + j) (f x)) n j0 x0 b k = b k := by
  intro n
  induction n with
  | zero => intro j0 x0 b k _; rfl
  | succ n ih =>
    intro j0 x0 b k hk
    rw [forCols, ih (j0 + 1) (x0 + dx) _ k (by omega)]
    exact Buf.write_other _ _ _ _ (by omega)

/-- The cell `base + (j0 + m)` holds the value computed at the `m`-th abscissa from `x0`. -/
theorem forCols_write_hit (dx : ℚ) (f : ℚ → ℤ) (base : Nat) :
    ∀ (n j0 : Nat) (x0 : ℚ) (b : Buf) (m : Nat), m < n →
      forCols dx (fun j x b => b.write (base + j) (f x)) n j0 x0 b (base + (j0 + m))
        = f (x0 + m * dx) := by
  intro n
  induction n with
  | zero => intro j0 x0 b m hm; omega
  | succ n ih =>
    intro j0 x0 b m hm
    rw [forCols]
    cases m with
    | zero =>
      rw [forCols_write_miss dx f base n (j0 + 1) (x0 + dx) _ _ (by omega)]
      simp [Buf.write]
    | succ m =>
      have h := ih (j0 + 1) (x0 + dx) (b.write (base + j0) (f x0)) m (by omega)
      have e : base + (j0 + (m + 1)) = base + (j0 + 1 + m) := by omega
      rw [e, h]
      congr 1
      push_cast
      ring

theorem fillRow_eq (minX dx : ℚ) (width off i : Nat) (y : ℚ) (buf : Buf) :
    fillRow minX dx width off i y buf
      = forCols dx (fun j x b => b.write (i * width + off + j) (mandelbrot x y)) width 0 minX buf := by
  unfold fillRow
  have e : (fun (j : Nat) (x : ℚ) (b : Buf) => b.write (i * width + j + off) (mandelbrot x y))
      = (fun (j : Nat) (x : ℚ) (b : Buf) => b.write (i * width + off + j) (mandelbrot x y)) := by
    funext j x b
    rw [Nat.add_right_comm]
  rw [e]

/-- Row `i` of the buffer after `fillRow`: column `j` holds the kernel value at `minX + j*dx`. -/
theorem fillRow_hit (minX dx : ℚ) (width off i : Nat) (y : ℚ) (buf : Buf) (j : Nat)
    (hj : j < width) :
    fillRow minX dx width off i y buf (i * width + j + off) = mandelbrot (minX + j * dx) y := by
  rw [fillRow_eq]
  have h := forCols_write_hit dx (fun x => mandelbrot x y) (i * width + off) width 0 minX buf j hj
  have e : i * width + j + off = i * width + off + (0 + j) := by omega
  rw [e]
  exact h

/-- The function `fillRow` changes no cell outside row `i`. -/
theorem fillRow_miss (minX dx : ℚ) (width off i : Nat) (y : ℚ) (buf : Buf) (k : Nat)
    (hk : k < i * width + off ∨ i * width + width + off ≤ k) :
    fillRow minX dx width off i y buf k = buf k := by
  rw [fillRow_eq]
  exact forCols_write_miss dx (fun x => mandelbrot x y) (i * width + off) width 0 minX buf k
    (by omega)

/-- The row loop changes no cell outside rows `i0 .. i0 + n - 1`. -/
theorem forRows_fill_miss (minX minY dx dy : ℚ) (height width stride off : Nat) :
    ∀ (n i0 cy0 : Nat) (buf : Buf) (k : Nat),
      (k < i0 * width + off ∨ (i0 + n) * width + off ≤ k) →
      forRows height stride
        (fun i cy t => fillRow minX dx width off i ((cy : ℚ) * dy + minY) t) n i0 cy0 buf k
        = buf k := by
  intro n
  induction n with
  | zero => intro i0 cy0 buf k _; rfl
  | succ n ih =>
    intro i0 cy0 buf k hk
    rw [forRows]
    split
    · have e1 : (i0 + 1) * width = i0 * width + width := by ring
      have e2 : (i0 + (n + 1)) * width = (i0 + 1 + n) * width := by ring_nf
      have e3 : (i0 + 1 + n) * width = i0 * width + width + n * width := by ring
      rw [ih (i0 + 1) (cy0 + stride) _ k (by omega)]
      exact fillRow_miss _ _ _ _ _ _ _ _ (by omega)
    · rfl

/-- Local row `i0 + m` after the row loop, when the guard `cy < height` lets iteration `m` run:
column `j` holds the kernel value of grid row `cy0 + m*stride`. -/
theorem forRows_fill_hit (minX minY dx dy : ℚ) (height width stride off : Nat) :
    ∀ (n i0 cy0 : Nat) (buf : Buf) (m j : Nat), m < n → j < width →
      cy0 + m * stride < height →
      forRows height stride
        (fun i cy t => fillRow minX dx width off i ((cy : ℚ) * dy + minY) t) n i0 cy0 buf
        ((i0 + m) * width + j + off)
        = mandelbrot (minX + j * dx) (((cy0 + m * stride : Nat) : ℚ) * dy + minY) := by
  intro n
  induction n with
  | zero => intro i0 cy0 buf m j hm; omega
  | succ n ih =>
    intro i0 cy0 buf m j hm hj hcy
    have h0 : cy0 < height := lt_of_le_of_lt (Nat.le_add_right _ _) hcy
    rw [forRows, if_pos h0]
    cases m with
    | zero =>
      have e1 : (i0 + 1) * width = i0 * width + width := by ring
      rw [forRows_fill_miss minX minY dx dy height width stride off n (i0 + 1) (cy0 + stride) _ _
        (by left; simp only [Nat.add_zero]; omega)]
      simp only [Nat.add_zero, Nat.zero_mul]
      exact fillRow_hit _ _ _ _ _ _ _ _ hj
    | succ m =>
      have h := ih (i0 + 1) (cy0 + stride)
        (fillRow minX dx width off i0 ((cy0 : ℚ) * dy + minY) buf) m j (by omega) hj
        (by have e0 : cy0 + stride + m * stride = cy0 + (m + 1) * stride := by ring
            rw [e0]; exact hcy)
      have e : i0 + (m + 1) = i0 + 1 + m := by omega
      have e2 : cy0 + (m + 1) * stride = cy0 + stride + m * stride := by ring
      rw [e, e2]
      exact h

/-- The remainder loop changes no cell outside rows `i0 .. i0 + n - 1`. -/
theorem forRem_fill_miss (minX dx dy : ℚ) (width : Nat) :
    ∀ (n i0 : Nat) (y0 : ℚ) (buf : Buf) (k : Nat),
      (k < i0 * width ∨ (i0 + n) * width ≤ k) →
      forRem dy (fun i y r => fillRow minX dx width 0 i y r) n i0 y0 buf k = buf k := by
  intro n
  induction n with
  | zero => intro i0 y0 buf k _; rfl
  | succ n ih =>
    intro i0 y0 buf k hk
    have e1 : (i0 + 1) * width = i0 * width + width := by ring
    have e2 : (i0 + (n + 1)) * width = i0 * width + width + n * width := by ring
    have e3 : (i0 + 1 + n) * width = i0 * width + width + n * width := by ring
    rw [forRem, ih (i0 + 1) (y0 + dy) _ k (by omega)]
    exact fillRow_miss _ _ _ _ _ _ _ _ (by omega)

/-- Row `i0 + m` after the remainder loop: column `j` holds the kernel value at ordinate
`y0 + m*dy`. -/
theorem forRem_fill_hit (minX dx dy : ℚ) (width : Nat) :
    ∀ (n i0 : Nat) (y0 : ℚ) (buf : Buf) (m j : Nat), m < n → j < width →
      forRem dy (fun i y r => fillRow minX dx width 0 i y r) n i0 y0 buf ((i0 + m) * width + j)
        = mandelbrot (minX + j * dx) (y0 + m * dy) := by
  intro n
  induction n with
  | zero => intro i0 y0 buf m j hm; omega
  | succ n ih =>
    intro i0 y0 buf m j hm hj
    rw [forRem]
    cases m with
    | zero =>
      have e1 : (i0 + 1) * width = i0 * width + width := by ring
      rw [forRem_fill_miss minX dx dy width n (i0 + 1) (y0 + dy) _ _
        (by left; simp only [Nat.add_zero]; omega)]
      have h := fillRow_hit minX dx width 0 i0 y0 buf j hj
      simp only [Nat.add_zero] at h ⊢
      rw [h]
      simp
    | succ m =>
      have h := ih (i0 + 1) (y0 + dy) (fillRow minX dx width 0 i0 y0 buf) m j (by omega) hj
      have e : i0 + (m + 1) = i0 + 1 + m := by omega
      rw [e, h]
      congr 1
      push_cast
      ring

end HPC

/-! ## Gather, and the static strategies -/

namespace HPC

/-- The gather leaves the cells from `size*data_size` on alone. -/
theorem gather_miss (bufs : Nat → Buf) (data_size size : Nat) (results : Buf) (k : Nat)
    (hk : size * data_size ≤ k) :
    gather bufs data_size size results k = results k := by
  simp only [gather, Nat.not_lt.mpr hk, if_false]

/-- A row-collecting loop whose guard never fires lists `cy0, cy0 + stride, ...`. -/
theorem forRows_rows (height stride : Nat) :
    ∀ (n i0 cy0 : Nat) (l : List Nat), (∀ m, m < n → cy0 + m * stride < height) →
      forRows height stride (fun _ cy l => l ++ [cy]) n i0 cy0 l
        = l ++ (List.range n).map (fun m => cy0 + m * stride) := by
  intro n
  induction n with
  | zero => intro i0 cy0 l _; simp [forRows]
  | succ n ih =>
    intro i0 cy0 l h
    have h0 : cy0 < height := by simpa using h 0 (Nat.succ_pos n)
    rw [forRows, if_pos h0, ih (i0 + 1) (cy0 + stride) _
      (fun m hm => by
        have := h (m + 1) (by omega)
        have e : cy0 + stride + m * stride = cy0 + (m + 1) * stride := by ring
        rw [e]; exact this)]
    rw [List.range_succ_eq_map, List.map_cons, List.map_map, List.append_assoc]
    simp only [List.singleton_append, Nat.zero_mul, Nat.add_zero]
    congr 2
    apply List.map_congr_left
    intro m _
    simp only [Function.comp, Nat.succ_eq_add_one]
    ring

/-- The remainder loop lists the rows `i0, i0 + 1, ..., i0 + n - 1`. -/
theorem forRem_rows (dy : ℚ) :
    ∀ (n i0 : Nat) (y0 : ℚ) (l : List Nat),
      forRem dy (fun i _ l => l ++ [i]) n i0 y0 l = l ++ (List.range n).map (fun m => i0 + m) := by
  intro n
  induction n with
  | zero => intro i0 y0 l; simp [forRem]
  | succ n ih =>
    intro i0 y0 l
    rw [forRem, ih (i0 + 1) (y0 + dy)]
    rw [List.range_succ_eq_map, List.map_cons, List.map_map, List.append_assoc]
    simp only [List.singleton_append, Nat.add_zero]
    congr 2
    apply List.map_congr_left
    intro m _
    simp only [Function.comp, Nat.succ_eq_add_one]
    ring

namespace Cyclic

/-- The inner loop of `fixMatrix` changes no cell outside columns `j0 ..` of row `i`. -/
theorem copyRow_miss (results : Buf) (width job_height i cycNum count : Nat) :
    ∀ (n j0 : Nat) (perm : Buf) (k : Nat),
      (k < i * width + j0 ∨ i * width + j0 + n ≤ k) →
      copyRow results width job_height i cycNum count n j0 perm k = perm k := by
  intro n
  induction n with
  | zero => intro j0 perm k _; rfl
  | succ n ih =>
    intro j0 perm k hk
    rw [copyRow, ih (j0 + 1) _ k (by omega)]
    exact Buf.write_other _ _ _ _ (by omega)

/-- The outer loop of `fixMatrix` changes no cell outside rows `i0 .. i0 + n - 1`. -/
theorem fixLoop_miss (results : Buf) (size width job_height : Nat) :
    ∀ (n i0 cycNum count : Nat) (perm : Buf) (k : Nat),
      (k < i0 * width ∨ (i0 + n) * width ≤ k) →
      fixLoop results size width job_height n i0 cycNum count perm k = perm k := by
  intro n
  induction n with
  | zero => intro i0 cycNum count perm k _; rfl
  | succ n ih =>
    intro i0 cycNum count perm k hk
    have e2 : (i0 + (n + 1)) * width = i0 * width + width + n * width := by ring
    have e3 : (i0 + 1 + n) * width = i0 * width + width + n * width := by ring
    have e1 : (i0 + 1) * width = i0 * width + width := by ring
    rw [fixLoop]
    split
    · rw [ih (i0 + 1) _ _ _ k (by omega)]
      exact copyRow_miss _ _ _ _ _ _ _ _ _ _ (by omega)
    · rw [ih (i0 + 1) _ _ _ k (by omega)]
      exact copyRow_miss _ _ _ _ _ _ _ _ _ _ (by omega)

/-- The function `fixMatrix` changes no cell from row `job_height*size` on. -/
theorem fixMatrix_miss (results permresults : Buf) (size width job_height k : Nat)
    (hk : job_height * size * width ≤ k) :
    fixMatrix results permresults size width job_height k = permresults k := by
  exact fixLoop_miss results size width job_height (job_height * size) 0 0 0 permresults k
    (by right; simpa using hk)

/-- With `job_size = height / size` the guard `cy < height` of cyclic `start` never fires. -/
theorem start_guard (height size rank k : Nat) (hr : rank < size) (hk : k < height / size) :
    rank + k * size < height := by
  have h1 : (k + 1) * size ≤ height / size * size := Nat.mul_le_mul_right _ hk
  have h2 : height / size * size ≤ height := Nat.div_mul_le_self _ _
  have h3 : (k + 1) * size = k * size + size := by ring
  omega

end Cyclic

end HPC

/-! ## The kernel at its first check -/

namespace HPC

/-- The iteration count only grows along the loop. -/
theorem mandelbrotLoop_ge (cx cy : ℚ) :
    ∀ (n it : Nat) (x y : ℚ), it ≤ mandelbrotLoop cx cy n it x y := by
  intro n
  induction n with
  | zero => intro it x y; exact Nat.le_refl _
  | succ n ih =>
    intro it x y
    rw [mandelbrotLoop]
    split
    · exact Nat.le_trans (Nat.le_succ it) (ih (it + 1) _ _)
    · exact Nat.le_refl _

/-- The kernel returns `0` exactly when the first escape test fails. -/
theorem mandelbrot_eq_zero_iff (x y : ℚ) : mandelbrot x y = 0 ↔ 4 ≤ x * x + y * y := by
  have h : mandelbrotLoop x y 511 0 x y
      = if x * x + y * y < 4 then
          mandelbrotLoop x y 510 1 (x * x - y * y + x) (2 * x * y + y) else 0 := by
    show mandelbrotLoop x y (510 + 1) 0 x y = _
    rw [mandelbrotLoop]
  unfold mandelbrot
  rw [h]
  constructor
  · intro h0
    by_contra hlt
    rw [if_pos (not_le.mp hlt)] at h0
    have := mandelbrotLoop_ge x y 510 1 (x * x - y * y + x) (2 * x * y + y)
    have h1 : mandelbrotLoop x y 510 1 (x * x - y * y + x) (2 * x * y + y) = 0 := by
      exact_mod_cast h0
    omega
  · intro hge
    rw [if_neg (not_lt.mpr hge)]
    rfl

namespace Block

/-- With `job_size = height / size` the guard `cy < height` of block `start` never fires. -/
theorem block_start_guard (height size rank k : Nat) (hr : rank < size) (hk : k < height / size) :
    rank * (height / size) + k * 1 < height := by
  have h1 : (rank + 1) * (height / size) ≤ size * (height / size) := Nat.mul_le_mul_right _ hr
  have h2 : size * (height / size) ≤ height := Nat.mul_div_le _ _
  have h3 : (rank + 1) * (height / size) = rank * (height / size) + height / size := by ring
  omega

/-- The rows block `start` computes on rank `rank`. -/
theorem block_startRows_eq (height size rank : Nat) (hr : rank < size) :
    startRows height (height / size) rank
      = (List.range (height / size)).map (fun k => rank * (height / size) + k) := by
  have h := forRows_rows height 1 (height / size) 0 (rank * (height / size)) []
    (fun m hm => block_start_guard height size rank m hr hm)
  simpa [startRows] using h

/-- The rows `doRemainingRows` computes. -/
theorem block_remRows_eq (size height job_height : Nat) (dy : ℚ) :
    remRows size height job_height dy
      = List.range' (job_height * size) (height - job_height * size) := by
  have h := forRem_rows dy (height - job_height * size) (job_height * size)
    ((job_height * size : Nat) * dy) []
  rw [List.range'_eq_map_range]
  simpa [remRows] using h

/-- What `doRemainingRows` writes: cell `(i, j)` of a remainder row gets the kernel value at
ordinate `i*dy`. -/
theorem doRemainingRows_hit (results : Buf) (size height width job_height : Nat)
    (minX minY dx dy : ℚ) (i j : Nat) (hlo : job_height * size ≤ i) (hi : i < height)
    (hj : j < width) :
    doRemainingRows results size height width job_height minX minY dx dy (i * width + j)
      = mandelbrot (minX + j * dx) ((i : ℚ) * dy) := by
  have h := forRem_fill_hit minX dx dy width (height - job_height * size) (job_height * size)
    ((job_height * size : Nat) * dy) results (i - job_height * size) j (by omega) hj
  have e : job_height * size + (i - job_height * size) = i := by omega
  rw [e] at h
  rw [doRemainingRows, h]
  congr 1
  have e2 : (i : ℚ) = ((job_height * size : Nat) : ℚ) + ((i - job_height * size : Nat) : ℚ) := by
    rw [← Nat.cast_add, e]
  rw [e2]
  ring

end Block

namespace Cyclic

/-- The two static strategies share `doRemainingRows`. -/
theorem doRemainingRows_eq_block (results : Buf) (size height width job_height : Nat)
    (minX minY dx dy : ℚ) :
    doRemainingRows results size height width job_height minX minY dx dy
      = Block.doRemainingRows results size height width job_height minX minY dx dy := rfl

end Cyclic

end HPC

/-! ## The static strategies: reassembly and partition -/

namespace HPC

/-- C3. What `doRemainingRows` (block and cyclic) writes at the remainder row `9`, column `1`
for `height = 10`, `width = 4` and three processes (`job_height = 3`): the kernel value at
ordinate `9*dy = 2.25`, which is `0`, whereas the kernel at the grid coordinate
`(minX + 1*dx, minY + 9*dy) = (-1.4, 1)` is not `0`. -/
theorem doRemainingRows_drops_minY (results : Buf) :
    Block.doRemainingRows results 3 10 4 (10 / 3) minX minY (dxOf 4) (dyOf 10) (9 * 4 + 1)
        = mandelbrot (minX + (1 : Nat) * dxOf 4) ((9 : Nat) * dyOf 10)
      ∧ Block.doRemainingRows results 3 10 4 (10 / 3) minX minY (dxOf 4) (dyOf 10) (9 * 4 + 1) = 0
      ∧ Cyclic.doRemainingRows results 3 10 4 (10 / 3) minX minY (dxOf 4) (dyOf 10) (9 * 4 + 1) = 0
      ∧ mandelbrot (minX + (1 : Nat) * dxOf 4) (minY + (9 : Nat) * dyOf 10) ≠ 0 := by
  have hcode := Block.doRemainingRows_hit results 3 10 4 (10 / 3) minX minY (dxOf 4) (dyOf 10) 9 1
    (by decide) (by decide) (by decide)
  have hcell : Block.doRemainingRows results 3 10 4 (10 / 3) minX minY (dxOf 4) (dyOf 10)
      (9 * 4 + 1) = 0 := by
    rw [hcode, mandelbrot_eq_zero_iff]
    norm_num [minX, maxX, minY, maxY, dxOf, dyOf]
  refine ⟨hcode, hcell, hcell, ?_⟩
  rw [Ne, mandelbrot_eq_zero_iff]
  norm_num [minX, maxX, minY, maxY, dxOf, dyOf]

end HPC

/-! ## Master-worker: the worker, the placement and the protocol invariant -/

namespace HPC

namespace MW

/-- The function `worker` stores the offset in cell `0`. -/
theorem worker_zero (start : Nat) (result : Buf) (minX minY dx dy : ℚ)
    (height width job_height : Nat) :
    worker start result minX minY dx dy height width job_height 0 = (start : ℤ) := by
  simp [worker, Buf.write]

/-- Row `i` of the payload of `worker`, when the guard lets iteration `i` run: the kernel
values of grid row `start + i`. -/
theorem worker_hit (start : Nat) (result : Buf) (minX minY dx dy : ℚ)
    (height width job_height i j : Nat) (hi : i < job_height) (hcy : start + i < height)
    (hj : j < width) :
    worker start result minX minY dx dy height width job_height (i * width + j + 1)
      = mandelbrot (minX + j * dx) (((start + i : Nat) : ℚ) * dy + minY) := by
  have h := forRows_fill_hit minX minY dx dy height width 1 1 job_height 0 start result i j hi hj
    (by rw [Nat.mul_one]; exact hcy)
  simp only [Nat.zero_add, Nat.mul_one] at h
  rw [worker, Buf.write_other _ _ _ _ (Nat.succ_ne_zero _)]
  exact h

/-- The inner loop of `fixMatrix` changes no cell outside columns `j0 ..` of row `offset`. -/
theorem fixCols_miss (offset : Nat) (result : Buf) (width i : Nat) :
    ∀ (n j0 : Nat) (results : Buf) (k : Nat),
      (k < offset * width + j0 ∨ offset * width + j0 + n ≤ k) →
      fixCols offset result width i n j0 results k = results k := by
  intro n
  induction n with
  | zero => intro j0 results k _; rfl
  | succ n ih =>
    intro j0 results k hk
    rw [fixCols, ih (j0 + 1) _ k (by omega)]
    exact Buf.write_other _ _ _ _ (by omega)

/-- The inner loop of `fixMatrix` copies payload row `i` into grid row `offset`. -/
theorem fixCols_hit (offset : Nat) (result : Buf) (width i : Nat) :
    ∀ (n j0 : Nat) (results : Buf) (m : Nat), m < n →
      fixCols offset result width i n j0 results (offset * width + (j0 + m))
        = result (i * width + (j0 + m) + 1) := by
  intro n
  induction n with
  | zero => intro j0 results m hm; omega
  | succ n ih =>
    intro j0 results m hm
    rw [fixCols]
    cases m with
    | zero =>
      rw [fixCols_miss offset result width i n (j0 + 1) _ _ (by omega)]
      simp [Buf.write]
    | succ m =>
      have h := ih (j0 + 1) (results.write (offset * width + j0) (result (i * width + j0 + 1)))
        m (by omega)
      have e : j0 + (m + 1) = j0 + 1 + m := by omega
      rw [e, h]

/-- For one-row tasks `fixMatrix` writes the payload to grid row `offset`. -/
theorem fixMatrix_one_hit (offset : Nat) (result results : Buf) (width j : Nat) (hj : j < width) :
    fixMatrix offset result results width 1 (offset * width + j) = result (j + 1) := by
  have h := fixCols_hit offset result width 0 width 0 results j hj
  simp only [Nat.zero_add, Nat.zero_mul] at h
  exact h

/-- For one-row tasks `fixMatrix` changes no cell outside grid row `offset`. -/
theorem fixMatrix_one_miss (offset : Nat) (result results : Buf) (width k : Nat)
    (hk : k < offset * width ∨ (offset + 1) * width ≤ k) :
    fixMatrix offset result results width 1 k = results k := by
  have e : (offset + 1) * width = offset * width + width := by ring
  exact fixCols_miss offset result width 0 width 0 results k (by omega)

theorem recvOffsets_append (a b : List Event) :
    recvOffsets (a ++ b) = recvOffsets a ++ recvOffsets b := by
  induction a with
  | nil => rfl
  | cons e es ih => cases e <;> simp [recvOffsets, ih]

theorem dataSends_append (a b : List Event) :
    dataSends (a ++ b) = dataSends a ++ dataSends b := by
  induction a with
  | nil => rfl
  | cons e es ih =>
    cases e with
    | send d t v =>
      by_cases h : t = Tag.data <;> simp [dataSends, ih, h]
    | recv s o => simp [dataSends, ih]

/-- Cell `(i, j)` of what `displayResult` shows. -/
theorem cell_displayResult (results : Buf) (height width size i j : Nat)
    (hi : i < height) (hj : j < width) :
    cell (displayResult results height width size) i j
      = some (results (i * width + j + if size = 1 then 1 else 0)) := by
  simp [cell, displayResult, List.getElem?_map, List.getElem?_range, hi, hj]

/-- Cell `(i, j)` of the specification grid. -/
theorem cell_kernelGrid (height width i j : Nat) (hi : i < height) (hj : j < width) :
    cell (kernelGrid height width) i j
      = some (mandelbrot (minX + j * dxOf width) (minY + i * dyOf height)) := by
  unfold cell kernelGrid
  rw [List.getElem?_map, List.getElem?_range hi, Option.map_some', Option.some_bind,
    List.getElem?_map, List.getElem?_range hj, Option.map_some']

/-- A dispatched one-row task keeps the protocol invariant: the state after
`MPI_Send(&jobs, ..., dest, TAG[1], ...); jobs += 1; actives++`. -/
theorem Proto.send_data {minX minY dx dy : ℚ} {height width : Nat} {s t : State} (dest : Nat)
    (h : Proto minX minY dx dy height width s) (hlt : s.jobs < height)
    (hin : t.inflight
      = s.inflight ++ [(dest, worker s.jobs (s.wbuf dest) minX minY dx dy height width 1)])
    (htr : t.trace = s.trace ++ [Event.send dest Tag.data s.jobs])
    (hjobs : t.jobs = s.jobs + 1) (hact : t.actives = s.actives + 1) :
    Proto minX minY dx dy height width t := by
  refine ⟨?_, ?_, ?_, ?_, ?_⟩
  · rw [hact, hin, h.actives_eq]; simp
  · omega
  · intro p hp
    rw [hin, List.mem_append, List.mem_singleton] at hp
    rcases hp with hp | rfl
    · obtain ⟨o, ho, h0, hv⟩ := h.payload p hp
      exact ⟨o, by omega, h0, hv⟩
    · refine ⟨s.jobs, by omega,
        worker_zero s.jobs (s.wbuf dest) minX minY dx dy height width 1, ?_⟩
      intro j hj
      show worker s.jobs (s.wbuf dest) minX minY dx dy height width 1 (j + 1) = _
      have hw := worker_hit s.jobs (s.wbuf dest) minX minY dx dy height width 1 0 j
        (by decide) (by omega) hj
      simp only [Nat.zero_mul, Nat.zero_add, Nat.add_zero] at hw
      exact hw
  · rw [htr, hin, hjobs, recvOffsets_append, List.map_append, List.range_succ]
    have h1 : recvOffsets [Event.send dest Tag.data s.jobs] = [] := rfl
    rw [h1, List.append_nil, ← List.append_assoc]
    have h2 : List.map (fun p : Nat × Buf => (p.2 0).toNat)
        [(dest, worker s.jobs (s.wbuf dest) minX minY dx dy height width 1)] = [s.jobs] := by
      simp [worker_zero]
    rw [h2]
    exact List.Perm.append_right _ h.offsets
  · rw [htr, hjobs, dataSends_append, h.sends, List.range_succ]
    simp [dataSends]

end MW

end HPC

/-! ## Master-worker: one pass of the collection loop -/

namespace HPC

namespace MW

/-- A list is its `k`-th element followed by the list without it, up to order. -/
theorem perm_cons_eraseIdx {α : Type} :
    ∀ (l : List α) (k : Nat) (h : k < l.length), List.Perm l (l[k] :: l.eraseIdx k)
  | _ :: _, 0, _ => List.Perm.refl _
  | a :: l, k + 1, h =>
    (List.Perm.cons a (perm_cons_eraseIdx l k (Nat.lt_of_succ_lt_succ h))).trans
      (List.Perm.swap _ _ _)

/-- The pass of the collection loop that hands out a further task. -/
theorem collectBody_data (minX minY dx dy : ℚ) (height width job_height data_size pick : Nat)
    (s : State) (slave : Nat) (payload : Buf)
    (hget : s.inflight[pick % s.inflight.length]? = some (slave, payload))
    (hlt : s.jobs < height) :
    collectBody minX minY dx dy height width job_height data_size pick s
      = some
        { actives := s.actives - 1 + 1
          jobs := s.jobs + job_height
          result := fun k => if k < data_size then payload k else s.result k
          results := fixMatrix (if 0 < data_size then payload 0 else s.result 0).toNat
            (fun k => if k < data_size then payload k else s.result k) s.results width job_height
          wbuf := fun r =>
            if r = slave then worker s.jobs (s.wbuf slave) minX minY dx dy height width job_height
            else s.wbuf r
          inflight := s.inflight.eraseIdx (pick % s.inflight.length)
            ++ [(slave, worker s.jobs (s.wbuf slave) minX minY dx dy height width job_height)]
          trace := s.trace
            ++ [Event.recv slave (if 0 < data_size then payload 0 else s.result 0).toNat]
            ++ [Event.send slave Tag.data s.jobs]
          shown := s.shown } := by
  simp only [collectBody, hget, hlt, if_true, sendData]

/-- The pass of the collection loop that answers with FINISH. -/
theorem collectBody_finish (minX minY dx dy : ℚ) (height width job_height data_size pick : Nat)
    (s : State) (slave : Nat) (payload : Buf)
    (hget : s.inflight[pick % s.inflight.length]? = some (slave, payload))
    (hge : ¬ s.jobs < height) :
    collectBody minX minY dx dy height width job_height data_size pick s
      = some
        { actives := s.actives - 1
          jobs := s.jobs
          result := fun k => if k < data_size then payload k else s.result k
          results := fixMatrix (if 0 < data_size then payload 0 else s.result 0).toNat
            (fun k => if k < data_size then payload k else s.result k) s.results width job_height
          wbuf := s.wbuf
          inflight := s.inflight.eraseIdx (pick % s.inflight.length)
          trace := s.trace
            ++ [Event.recv slave (if 0 < data_size then payload 0 else s.result 0).toNat]
            ++ [Event.send slave Tag.finish s.jobs]
          shown := s.shown } := by
  simp only [collectBody, hget, hge, if_false]

/-- With no message under way the receive of the collection loop never returns. -/
theorem collectBody_blocked (minX minY dx dy : ℚ) (height width job_height data_size pick : Nat)
    (s : State) (hnil : s.inflight = []) :
    collectBody minX minY dx dy height width job_height data_size pick s = none := by
  simp [collectBody, hnil]

/-- The grid invariant after a received one-row payload has been placed. -/
theorem GridOK.place {minX minY dx dy : ℚ} {width : Nat} {results0 : Buf} {s t : State}
    (hG : GridOK minX minY dx dy width results0 s) (o : Nat) (result : Buf)
    (hv : ∀ j, j < width → result (j + 1) = mandelbrot (minX + j * dx) ((o : ℚ) * dy + minY))
    (hres : t.results = fixMatrix o result s.results width 1)
    (htr : recvOffsets t.trace = recvOffsets s.trace ++ [o]) :
    GridOK minX minY dx dy width results0 t := by
  constructor
  · intro o1 ho1 j hj
    rw [hres]
    by_cases heq : o1 = o
    · rw [heq, fixMatrix_one_hit o result s.results width j hj]
      exact hv j hj
    · rw [htr, List.mem_append, List.mem_singleton] at ho1
      have hmem : o1 ∈ recvOffsets s.trace := by
        rcases ho1 with h | h
        · exact h
        · exact absurd h heq
      have hout : o1 * width + j < o * width ∨ (o + 1) * width ≤ o1 * width + j := by
        rcases Nat.lt_or_gt_of_ne heq with h | h
        · left
          have h1 : (o1 + 1) * width ≤ o * width := Nat.mul_le_mul_right _ h
          have h2 : (o1 + 1) * width = o1 * width + width := by ring
          omega
        · right
          have h1 : (o + 1) * width ≤ o1 * width := Nat.mul_le_mul_right _ h
          omega
      rw [fixMatrix_one_miss o result s.results width _ hout]
      exact hG.rows o1 hmem j hj
  · intro k hk
    rw [hres, fixMatrix_one_miss o result s.results width k
      (hk o (by rw [htr]; simp))]
    exact hG.frame k (fun o1 ho1 => hk o1 (by rw [htr]; simp [ho1]))

/-- One pass of the collection loop for one-row tasks: with a message under way the receive
returns, both invariants are kept, the number of passes still to make drops by one, and the
messages under way run out only once every row has been handed out. -/
theorem collectBody_step {minX minY dx dy : ℚ} {height width data_size : Nat} {results0 : Buf}
    {s : State} (hds : width < data_size)
    (hP : Proto minX minY dx dy height width s)
    (hG : GridOK minX minY dx dy width results0 s)
    (hne : s.inflight ≠ []) (pick : Nat) :
    ∃ t, collectBody minX minY dx dy height width 1 data_size pick s = some t
      ∧ Proto minX minY dx dy height width t
      ∧ GridOK minX minY dx dy width results0 t
      ∧ (height - t.jobs) + t.inflight.length + 1 = (height - s.jobs) + s.inflight.length
      ∧ (t.inflight = [] → t.jobs = height)
      ∧ t.shown = s.shown := by
  have hlen : 0 < s.inflight.length := List.length_pos.mpr hne
  have hklt : pick % s.inflight.length < s.inflight.length := Nat.mod_lt _ hlen
  rcases hpair : s.inflight[pick % s.inflight.length] with ⟨slave, payload⟩
  have hget : s.inflight[pick % s.inflight.length]? = some (slave, payload) := by
    rw [List.getElem?_eq_getElem hklt, hpair]
  have hmem : (slave, payload) ∈ s.inflight := by
    rw [← hpair]; exact List.getElem_mem hklt
  obtain ⟨o, ho, h0, hv⟩ := hP.payload (slave, payload) hmem
  have hpos : 0 < data_size := by omega
  have hoff : (if 0 < data_size then payload 0 else s.result 0).toNat = o := by
    rw [if_pos hpos]
    show (payload 0).toNat = o
    have h0' : payload 0 = (o : ℤ) := h0
    rw [h0']
    exact Int.toNat_natCast o
  have hres : ∀ j, j < width →
      (fun k => if k < data_size then payload k else s.result k) (j + 1)
        = mandelbrot (minX + j * dx) ((o : ℚ) * dy + minY) := by
    intro j hj
    have hlt : j + 1 < data_size := by omega
    simp only [hlt, if_true]
    exact hv j hj
  have hperm : List.Perm
      (recvOffsets s.trace ++ [o]
        ++ (s.inflight.eraseIdx (pick % s.inflight.length)).map (fun p => (p.2 0).toNat))
      (List.range s.jobs) := by
    have h1 := (perm_cons_eraseIdx s.inflight _ hklt).map (fun p : Nat × Buf => (p.2 0).toNat)
    rw [hpair, List.map_cons] at h1
    have h2 : (payload 0).toNat = o := by
      have h0' : payload 0 = (o : ℤ) := h0
      rw [h0']; exact Int.toNat_natCast o
    simp only [h2] at h1
    rw [List.append_assoc, List.singleton_append]
    exact (List.Perm.append_left _ h1.symm).trans hP.offsets
  have hlenE : (s.inflight.eraseIdx (pick % s.inflight.length)).length + 1 = s.inflight.length := by
    rw [List.length_eraseIdx_of_lt hklt]; omega
  by_cases hlt : s.jobs < height
  · refine ⟨_, collectBody_data minX minY dx dy height width 1 data_size pick s slave payload
      hget hlt, ?_, ?_, ?_, ?_, rfl⟩
    · -- the state after the receive keeps the protocol invariant, then a task is sent
      have hP1 : Proto minX minY dx dy height width
          { s with
            inflight := s.inflight.eraseIdx (pick % s.inflight.length)
            trace := s.trace ++ [Event.recv slave o]
            actives := s.actives - 1 } := by
        refine ⟨?_, hP.jobs_le, ?_, ?_, ?_⟩
        · show s.actives - 1 = (s.inflight.eraseIdx (pick % s.inflight.length)).length + 1
          rw [hP.actives_eq]; omega
        · intro p hp
          exact hP.payload p (List.mem_of_mem_eraseIdx hp)
        · show List.Perm (recvOffsets (s.trace ++ [Event.recv slave o]) ++ _) _
          rw [recvOffsets_append]
          exact hperm
        · show dataSends (s.trace ++ [Event.recv slave o]) = _
          rw [dataSends_append, hP.sends]
          simp [dataSends]
      refine Proto.send_data slave hP1 hlt ?_ ?_ rfl rfl
      · rfl
      · show _ ++ [Event.recv slave _] ++ _ = _
        rw [hoff]
    · refine GridOK.place hG o (fun k => if k < data_size then payload k else s.result k)
        hres ?_ ?_
      · show fixMatrix _ _ _ _ _ = _
        rw [hoff]
      · show recvOffsets (_ ++ [Event.recv slave _] ++ _) = _
        rw [hoff, recvOffsets_append, recvOffsets_append]
        simp [recvOffsets]
    · show height - (s.jobs + 1) + (_ ++ [_]).length + 1 = _
      rw [List.length_append, List.length_singleton]
      omega
    · intro hnil
      have : (s.inflight.eraseIdx (pick % s.inflight.length)
        ++ [(slave, worker s.jobs (s.wbuf slave) minX minY dx dy height width 1)]) = [] := hnil
      simp at this
  · refine ⟨_, collectBody_finish minX minY dx dy height width 1 data_size pick s slave payload
      hget hlt, ?_, ?_, ?_, ?_, rfl⟩
    · refine ⟨?_, hP.jobs_le, ?_, ?_, ?_⟩
      · show s.actives - 1 = (s.inflight.eraseIdx (pick % s.inflight.length)).length + 1
        rw [hP.actives_eq]; omega
      · intro p hp
        exact hP.payload p (List.mem_of_mem_eraseIdx hp)
      · show List.Perm (recvOffsets (_ ++ [Event.recv slave _] ++ _) ++ _) _
        rw [hoff, recvOffsets_append, recvOffsets_append]
        have h1 : recvOffsets [Event.send slave Tag.finish s.jobs] = [] := rfl
        have h2 : recvOffsets [Event.recv slave o] = [o] := rfl
        rw [h1, h2, List.append_nil]
        exact hperm
      · show dataSends (_ ++ [Event.recv slave _] ++ _) = _
        rw [dataSends_append, dataSends_append, hP.sends]
        simp [dataSends]
    · refine GridOK.place hG o (fun k => if k < data_size then payload k else s.result k)
        hres ?_ ?_
      · show fixMatrix _ _ _ _ _ = _
        rw [hoff]
      · show recvOffsets (_ ++ [Event.recv slave _] ++ _) = _
        rw [hoff, recvOffsets_append, recvOffsets_append]
        simp [recvOffsets]
    · show height - s.jobs + (s.inflight.eraseIdx _).length + 1 = _
      omega
    · intro _
      have := hP.jobs_le
      show s.jobs = height
      omega

end MW

end HPC

/-! ## Master-worker: the dispatch loop, the collection loop and the run -/

namespace HPC

namespace MW

/-- The grid invariant only looks at the grid and at the offsets received. -/
theorem GridOK.congr {minX minY dx dy : ℚ} {width : Nat} {results0 : Buf} {s t : State}
    (hG : GridOK minX minY dx dy width results0 s) (hres : t.results = s.results)
    (htr : recvOffsets t.trace = recvOffsets s.trace) :
    GridOK minX minY dx dy width results0 t := by
  constructor
  · intro o ho j hj
    rw [hres]
    exact hG.rows o (by rw [← htr]; exact ho) j hj
  · intro k hk
    rw [hres]
    exact hG.frame k (fun o ho => hk o (by rw [htr]; exact ho))

/-- The initial dispatch loop for one-row tasks hands out `min n (height - jobs)` tasks and
keeps both invariants; it receives nothing and leaves the grid alone. -/
theorem dispatch_spec {minX minY dx dy : ℚ} {height width : Nat} {results0 : Buf} :
    ∀ (n : Nat) (s : State), Proto minX minY dx dy height width s →
      GridOK minX minY dx dy width results0 s →
      Proto minX minY dx dy height width (dispatch minX minY dx dy height width 1 n s)
        ∧ GridOK minX minY dx dy width results0 (dispatch minX minY dx dy height width 1 n s)
        ∧ (dispatch minX minY dx dy height width 1 n s).jobs
            = s.jobs + min n (height - s.jobs)
        ∧ (dispatch minX minY dx dy height width 1 n s).inflight.length
            = s.inflight.length + min n (height - s.jobs)
        ∧ (dispatch minX minY dx dy height width 1 n s).shown = s.shown := by
  intro n
  induction n with
  | zero =>
    intro s hP hG
    exact ⟨hP, hG, by simp [dispatch], by simp [dispatch], rfl⟩
  | succ n ih =>
    intro s hP hG
    rw [dispatch]
    by_cases hlt : s.jobs < height
    · rw [if_pos hlt]
      have hP1 : Proto minX minY dx dy height width
          { sendData minX minY dx dy height width 1 s s.actives with
            actives := s.actives + 1
            jobs := s.jobs + 1 } :=
        Proto.send_data s.actives hP hlt rfl rfl rfl rfl
      have hG1 : GridOK minX minY dx dy width results0
          { sendData minX minY dx dy height width 1 s s.actives with
            actives := s.actives + 1
            jobs := s.jobs + 1 } := by
        refine GridOK.congr hG rfl ?_
        show recvOffsets (s.trace ++ [Event.send s.actives Tag.data s.jobs]) = _
        rw [recvOffsets_append]
        simp [recvOffsets]
      obtain ⟨h1, h2, h3, h4, h5⟩ := ih _ hP1 hG1
      refine ⟨h1, h2, ?_, ?_, ?_⟩
      · rw [h3]
        show s.jobs + 1 + min n (height - (s.jobs + 1)) = _
        omega
      · rw [h4]
        show (s.inflight ++ [_]).length + min n (height - (s.jobs + 1)) = _
        rw [List.length_append, List.length_singleton]
        omega
      · rw [h5]; rfl
    · rw [if_neg hlt]
      refine ⟨hP, hG, ?_, ?_, rfl⟩
      · omega
      · omega

/-- The collection loop for one-row tasks, started with a message under way: it makes
`height - jobs + (messages under way)` passes, neither fewer nor more, never sits in a receive
with nothing under way, and leaves with every row handed out and received. -/
theorem collect_spec {minX minY dx dy : ℚ} {height width data_size : Nat} {results0 : Buf}
    (hds : width < data_size) :
    ∀ (fuel : Nat) (arrival : Nat → Nat) (s : State),
      Proto minX minY dx dy height width s → GridOK minX minY dx dy width results0 s →
      s.inflight ≠ [] →
      (height - s.jobs + s.inflight.length ≤ fuel →
        ∃ t, collect minX minY dx dy height width 1 data_size arrival fuel s = Outcome.done t
          ∧ Proto minX minY dx dy height width t ∧ GridOK minX minY dx dy width results0 t
          ∧ t.inflight = [] ∧ t.jobs = height ∧ t.shown = s.shown)
      ∧ (fuel < height - s.jobs + s.inflight.length →
        ∃ t, collect minX minY dx dy height width 1 data_size arrival fuel s
          = Outcome.unfinished t) := by
  intro fuel
  induction fuel with
  | zero =>
    intro arrival s hP hG hne
    have hlen : 0 < s.inflight.length := List.length_pos.mpr hne
    exact ⟨fun h => by omega, fun _ => ⟨s, rfl⟩⟩
  | succ fuel ih =>
    intro arrival s hP hG hne
    obtain ⟨t, hbody, hPt, hGt, hmu, hjobs, hshown⟩ :=
      collectBody_step hds hP hG hne (arrival 0)
    rw [collect, hbody]
    by_cases hact : t.actives > 1
    · simp only [hact, if_true]
      have hne1 : t.inflight ≠ [] := by
        intro hnil
        have := hPt.actives_eq
        rw [hnil] at this
        simp at this
        omega
      obtain ⟨hdone, hunf⟩ := ih (fun k => arrival (k + 1)) t hPt hGt hne1
      constructor
      · intro hfuel
        obtain ⟨u, hu, h1, h2, h3, h4, h5⟩ := hdone (by omega)
        exact ⟨u, hu, h1, h2, h3, h4, by rw [h5, hshown]⟩
      · intro hfuel
        exact hunf (by omega)
    · simp only [hact, if_false]
      have hnil : t.inflight = [] := by
        have := hPt.actives_eq
        have hlen : t.inflight.length = 0 := by omega
        exact List.length_eq_zero.mp hlen
      constructor
      · intro _
        exact ⟨t, rfl, hPt, hGt, hnil, hjobs hnil, hshown⟩
      · intro hfuel
        have h1 := hjobs hnil
        rw [hnil] at hmu
        simp at hmu
        omega

/-- The state in which `master` starts its loops satisfies both invariants. -/
theorem init_invariants (minX minY dx dy : ℚ) (height width : Nat) (result results : Buf)
    (wbuf : Nat → Buf) :
    Proto minX minY dx dy height width
        { actives := 1, jobs := 0, result := result, results := results, wbuf := wbuf,
          inflight := [], trace := [], shown := [] }
      ∧ GridOK minX minY dx dy width results
        { actives := 1, jobs := 0, result := result, results := results, wbuf := wbuf,
          inflight := [], trace := [], shown := [] } := by
  constructor
  · refine ⟨rfl, Nat.zero_le _, ?_, ?_, ?_⟩
    · intro p hp
      exact absurd hp (List.not_mem_nil p)
    · exact List.Perm.refl _
    · rfl
  · constructor
    · intro o ho
      exact absurd ho (List.not_mem_nil o)
    · intro k _
      rfl

/-- The function `master` with at least one worker and one-row tasks: after exactly `height`
passes of the collection loop it shows the grid, with `actives = 1`, every offset of
`0 .. height - 1` sent once and received once, and every row holding its kernel values. -/
theorem master_spec (result : Buf) (minX minY dx dy : ℚ) (height width size data_size : Nat)
    (results : Buf) (wbuf : Nat → Buf) (arrival : Nat → Nat) (fuel : Nat)
    (hsize : 2 ≤ size) (hh : 1 ≤ height) (hds : width < data_size) :
    (height ≤ fuel →
      ∃ t, master result minX minY dx dy height width 1 size data_size results wbuf arrival fuel
          = Outcome.done t
        ∧ t.actives = 1
        ∧ dataSends t.trace = List.range height
        ∧ List.Perm (recvOffsets t.trace) (List.range height)
        ∧ (∀ r j, r < height → j < width →
            t.results (r * width + j) = mandelbrot (minX + j * dx) ((r : ℚ) * dy + minY))
        ∧ (∀ k, height * width ≤ k → t.results k = results k)
        ∧ t.shown = displayResult t.results height width size)
    ∧ (fuel < height →
      ∃ t, master result minX minY dx dy height width 1 size data_size results wbuf arrival fuel
          = Outcome.unfinished t) := by
  have hne1 : size ≠ 1 := by omega
  have hmu : height - min (size - 1) height + min (size - 1) height = height := by omega
  obtain ⟨hP0, hG0⟩ := init_invariants minX minY dx dy height width result results wbuf
  obtain ⟨hPd, hGd, hjobs, hlen, hshown⟩ := dispatch_spec (size - 1) _ hP0 hG0
  simp only [Nat.sub_zero, List.length_nil, Nat.zero_add] at hjobs hlen
  have hned : (dispatch minX minY dx dy height width 1 (size - 1)
      { actives := 1, jobs := 0, result := result, results := results, wbuf := wbuf,
        inflight := [], trace := [], shown := [] }).inflight ≠ [] := by
    intro hnil
    rw [hnil] at hlen
    simp at hlen
    omega
  obtain ⟨hdone, hunf⟩ := collect_spec hds fuel arrival _ hPd hGd hned
  rw [hjobs, hlen, hmu] at hdone hunf
  constructor
  · intro hfuel
    obtain ⟨t, ht, hPt, hGt, hnil, hj, _⟩ := hdone hfuel
    refine ⟨{ t with shown := displayResult t.results height width size }, ?_, ?_, ?_, ?_, ?_,
      ?_, rfl⟩
    · simp only [master, hne1, if_false, ht]
    · show t.actives = 1
      rw [hPt.actives_eq, hnil]; rfl
    · show dataSends t.trace = _
      rw [hPt.sends, hj]
    · show List.Perm (recvOffsets t.trace) _
      have h := hPt.offsets
      rw [hnil, hj] at h
      simpa using h
    · intro r j hr hj2
      show t.results (r * width + j) = _
      have h := hPt.offsets
      rw [hnil, hj] at h
      simp only [List.map_nil, List.append_nil] at h
      exact hGt.rows r (h.mem_iff.mpr (List.mem_range.mpr hr)) j hj2
    · intro k hk
      show t.results k = _
      have h := hPt.offsets
      rw [hnil, hj] at h
      simp only [List.map_nil, List.append_nil] at h
      refine hGt.frame k (fun o ho => ?_)
      have ho1 : o < height := List.mem_range.mp (h.mem_iff.mp ho)
      right
      have h1 : (o + 1) * width ≤ height * width := Nat.mul_le_mul_right _ ho1
      omega
  · intro hfuel
    obtain ⟨t, ht⟩ := hunf hfuel
    exact ⟨t, by simp only [master, hne1, if_false, ht]⟩

/-- The run of `main` with at least two processes. -/
theorem run_multi (height width size : Nat) (result results : Buf) (wbuf : Nat → Buf)
    (arrival : Nat → Nat) (fuel : Nat) (hsize : 2 ≤ size) (hh : 1 ≤ height) :
    (height ≤ fuel →
      ∃ t, run height width size result results wbuf arrival fuel = Outcome.done t
        ∧ t.actives = 1
        ∧ dataSends t.trace = List.range height
        ∧ List.Perm (recvOffsets t.trace) (List.range height)
        ∧ (∀ r j, r < height → j < width →
            t.results (r * width + j)
              = mandelbrot (minX + j * dxOf width) (minY + r * dyOf height))
        ∧ (∀ k, height * width ≤ k → t.results k = results k)
        ∧ t.shown = displayResult t.results height width size)
    ∧ (fuel < height →
      ∃ t, run height width size result results wbuf arrival fuel = Outcome.unfinished t) := by
  have hne1 : size ≠ 1 := by omega
  have hrun : run height width size result results wbuf arrival fuel
      = master result minX minY (dxOf width) (dyOf height) height width 1 size (1 * width + 1)
          results wbuf arrival fuel := by
    simp only [run, hne1, if_false]
  rw [hrun]
  obtain ⟨h1, h2⟩ := master_spec result minX minY (dxOf width) (dyOf height) height width size
    (1 * width + 1) results wbuf arrival fuel hsize hh (by omega)
  refine ⟨fun hfuel => ?_, h2⟩
  obtain ⟨t, ht, ha, hs, hp, hv, hf, hd⟩ := h1 hfuel
  refine ⟨t, ht, ha, hs, hp, ?_, hf, hd⟩
  intro r j hr hj
  rw [hv r j hr hj, add_comm _ minY]

/-- The run of `main` with a single process: no message, and `displayResult` reads the rows
that `worker(0, ...)` left behind the offset cell. -/
theorem run_single (height width : Nat) (result results : Buf) (wbuf : Nat → Buf)
    (arrival : Nat → Nat) (fuel : Nat) :
    ∃ t, run height width 1 result results wbuf arrival fuel = Outcome.done t
      ∧ t.trace = []
      ∧ t.result = worker ROOT result minX minY (dxOf width) (dyOf height) height width height
      ∧ t.shown = displayResult t.result height width 1
      ∧ (∀ i j, i < height → j < width →
          t.result (i * width + j + 1)
            = mandelbrot (minX + j * dxOf width) (minY + i * dyOf height)) := by
  refine ⟨(⟨1, 0, worker ROOT result minX minY (dxOf width) (dyOf height) height width height,
      results, wbuf, [], [], displayResult
        (worker ROOT result minX minY (dxOf width) (dyOf height) height width height)
        height width 1⟩ : State),
    by simp only [run, master, if_true], rfl, rfl, rfl, ?_⟩
  intro i j hi hj
  show worker ROOT result minX minY (dxOf width) (dyOf height) height width height
    (i * width + j + 1) = _
  rw [worker_hit ROOT result minX minY (dxOf width) (dyOf height) height width height i j hi
    (by simp [ROOT, hi]) hj, add_comm _ minY]
  simp [ROOT]

end MW

end HPC

/-! ## Master-worker: coverage, termination, placement -/


namespace HPC

/-- C6. Master-worker coverage and exclusivity.  For `N ≥ 2` processes, `height ≥ 1`, one-row
tasks and every arrival order of the RESULT messages, the run leaves the collection loop
(given fuel for `height` passes), the offsets sent in DATA messages (initial dispatch and
re-dispatch) are `0, 1, ..., height - 1` in this order, none twice, and the offsets embedded
in the RESULT messages received are every row of `[0, height)`, each exactly once. -/
theorem mw_coverage_exclusivity (N height width : Nat) (hN : 2 ≤ N) (hh : 1 ≤ height)
    (result results : Buf) (wbuf : Nat → Buf) (arrival : Nat → Nat) (fuel : Nat)
    (hfuel : height ≤ fuel) :
    ∃ t, MW.run height width N result results wbuf arrival fuel = MW.Outcome.done t
      ∧ MW.dataSends t.trace = List.range height
      ∧ (MW.dataSends t.trace).Nodup
      ∧ List.Perm (MW.recvOffsets t.trace) (List.range height)
      ∧ ∀ r, r < height → List.count r (MW.recvOffsets t.trace) = 1 := by
  obtain ⟨t, ht, _, hs, hp, _, _, _⟩ :=
    (MW.run_multi height width N result results wbuf arrival fuel hN hh).1 hfuel
  refine ⟨t, ht, hs, by rw [hs]; exact List.nodup_range _, hp, ?_⟩
  intro r hr
  exact List.count_eq_one_of_mem (hp.nodup_iff.mpr (List.nodup_range _))
    (hp.mem_iff.mpr (List.mem_range.mpr hr))

/-- Witness for C6: three processes, five rows, results taken in the order `arrival k = k`. -/
theorem mw_coverage_exclusivity_witness :
    ∃ t, MW.run 5 1 3 (fun _ => 0) (fun _ => 0) (fun _ _ => 0) (fun k => k) 5
        = MW.Outcome.done t
      ∧ MW.dataSends t.trace = List.range 5
      ∧ (MW.dataSends t.trace).Nodup
      ∧ List.Perm (MW.recvOffsets t.trace) (List.range 5)
      ∧ ∀ r, r < 5 → List.count r (MW.recvOffsets t.trace) = 1 :=
  mw_coverage_exclusivity 3 5 1 (by decide) (by decide) (fun _ => 0) (fun _ => 0) (fun _ _ => 0)
    (fun k => k) 5 (by decide)

/-- C7. Coordinator loop termination.  For `N ≥ 2`, `height ≥ 1` and every arrival order the
`do ... while` loop makes exactly `height` passes: with fuel for `height` passes it exits with
`actives = 1` after `height` receives, with fuel for fewer it is still running, and it never
sits in a receive with no message under way.  With `N = 1` the coordinator neither sends
nor receives. -/
theorem mw_loop_terminates (N height width : Nat) (hN : 2 ≤ N) (hh : 1 ≤ height)
    (result results : Buf) (wbuf : Nat → Buf) (arrival : Nat → Nat) :
    (∀ fuel, height ≤ fuel →
        ∃ t, MW.run height width N result results wbuf arrival fuel = MW.Outcome.done t
          ∧ (MW.recvOffsets t.trace).length = height ∧ t.actives = 1)
      ∧ (∀ fuel, fuel < height →
        ∃ t, MW.run height width N result results wbuf arrival fuel = MW.Outcome.unfinished t)
      ∧ (∀ fuel t, MW.run height width N result results wbuf arrival fuel ≠ MW.Outcome.blocked t)
      ∧ (∀ fuel, ∃ t, MW.run height width 1 result results wbuf arrival fuel = MW.Outcome.done t
          ∧ t.trace = []) := by
  refine ⟨?_, ?_, ?_, ?_⟩
  · intro fuel hfuel
    obtain ⟨t, ht, ha, _, hp, _, _, _⟩ :=
      (MW.run_multi height width N result results wbuf arrival fuel hN hh).1 hfuel
    exact ⟨t, ht, by rw [hp.length_eq, List.length_range], ha⟩
  · intro fuel hfuel
    exact (MW.run_multi height width N result results wbuf arrival fuel hN hh).2 hfuel
  · intro fuel t hb
    rcases Nat.lt_or_ge fuel height with hlt | hge
    · obtain ⟨u, hu⟩ :=
        (MW.run_multi height width N result results wbuf arrival fuel hN hh).2 hlt
      rw [hu] at hb
      exact MW.Outcome.noConfusion hb
    · obtain ⟨u, hu, _⟩ :=
        (MW.run_multi height width N result results wbuf arrival fuel hN hh).1 hge
      rw [hu] at hb
      exact MW.Outcome.noConfusion hb
  · intro fuel
    obtain ⟨t, ht, htr, _⟩ := MW.run_single height width result results wbuf arrival fuel
    exact ⟨t, ht, htr⟩

/-- Witness for C7: three processes, five rows. -/
theorem mw_loop_terminates_witness :
    (∀ fuel, 5 ≤ fuel →
        ∃ t, MW.run 5 1 3 (fun _ => 0) (fun _ => 0) (fun _ _ => 0) (fun k => k) fuel
            = MW.Outcome.done t
          ∧ (MW.recvOffsets t.trace).length = 5 ∧ t.actives = 1)
      ∧ (∀ fuel, fuel < 5 →
        ∃ t, MW.run 5 1 3 (fun _ => 0) (fun _ => 0) (fun _ _ => 0) (fun k => k) fuel
            = MW.Outcome.unfinished t)
      ∧ (∀ fuel t, MW.run 5 1 3 (fun _ => 0) (fun _ => 0) (fun _ _ => 0) (fun k => k) fuel
            ≠ MW.Outcome.blocked t)
      ∧ (∀ fuel, ∃ t, MW.run 5 1 1 (fun _ => 0) (fun _ => 0) (fun _ _ => 0) (fun k => k) fuel
            = MW.Outcome.done t
          ∧ t.trace = []) :=
  mw_loop_terminates 3 5 1 (by decide) (by decide) (fun _ => 0) (fun _ => 0) (fun _ _ => 0)
    (fun k => k)

/-- C8. With three processes and `height = 1` (so `height < N - 1`) the coordinator leaves its
collection loop having sent rank `1` a DATA and then a FINISH message and rank `2` nothing at
all: `slave` on rank `2` never leaves its first `MPI_Recv`. -/
theorem mw_rank_without_task_gets_no_finish (width : Nat) (result results : Buf)
    (wbuf : Nat → Buf) (arrival : Nat → Nat) (fuel : Nat) :
    ∃ t, MW.run 1 width 3 result results wbuf arrival (fuel + 1) = MW.Outcome.done t
      ∧ t.trace = [MW.Event.send 1 MW.Tag.data 0, MW.Event.recv 1 0,
          MW.Event.send 1 MW.Tag.finish 1]
      ∧ MW.inbox 2 t.trace = []
      ∧ (MW.slave minX minY (dxOf width) (dyOf 1) 1 width 1 (wbuf 2) (MW.inbox 2 t.trace)).2
          = false := by
  have hw := MW.worker_zero 0 (wbuf 1) minX minY (dxOf width) (dyOf 1) 1 width 1
  have key : ∃ t, MW.run 1 width 3 result results wbuf arrival (fuel + 1) = MW.Outcome.done t
      ∧ t.trace = [MW.Event.send 1 MW.Tag.data 0, MW.Event.recv 1 0,
          MW.Event.send 1 MW.Tag.finish 1] := by
    have hm : arrival 0 % 1 = 0 := Nat.mod_one _
    simp [MW.run, MW.master, MW.dispatch, MW.collect, MW.collectBody, MW.sendData, hw, hm]
  obtain ⟨t, ht, htr⟩ := key
  refine ⟨t, ht, htr, ?_, ?_⟩
  · rw [htr]
    simp [MW.inbox]
  · rw [htr]
    simp [MW.inbox, MW.slave]

end HPC

namespace HPC

/-- C9. Placement by embedded offset, independent of arrival order.  For `N ≥ 2` processes,
`height, width > 0` and any two arrival orders of the RESULT messages, both runs leave the
collection loop with the same grid, in which every cell `(r, j)`, `r < height`, `j < width`,
is `mandelbrot (minX + j*dx) (minY + r*dy)`; and `fixMatrix` writes a received one-row payload
to grid row `offset = result[0]` and changes no other cell. -/
theorem mw_placement_by_offset (N height width : Nat) (hN : 2 ≤ N) (hh : 0 < height)
    (hw : 0 < width) (results result1 result2 : Buf) (wbuf1 wbuf2 : Nat → Buf)
    (arrival1 arrival2 : Nat → Nat) (fuel1 fuel2 : Nat)
    (hf1 : height ≤ fuel1) (hf2 : height ≤ fuel2) :
    ∃ t1 t2, MW.run height width N result1 results wbuf1 arrival1 fuel1 = MW.Outcome.done t1
      ∧ MW.run height width N result2 results wbuf2 arrival2 fuel2 = MW.Outcome.done t2
      ∧ t1.results = t2.results
      ∧ t1.shown = t2.shown
      ∧ (∀ r j, r < height → j < width →
          t1.results (r * width + j)
              = mandelbrot (minX + j * dxOf width) (minY + r * dyOf height)
            ∧ t2.results (r * width + j)
              = mandelbrot (minX + j * dxOf width) (minY + r * dyOf height))
      ∧ (∀ (offset : Nat) (payload grid : Buf),
          (∀ j, j < width →
            MW.fixMatrix offset payload grid width 1 (offset * width + j) = payload (j + 1))
          ∧ (∀ k, (k < offset * width ∨ (offset + 1) * width ≤ k) →
            MW.fixMatrix offset payload grid width 1 k = grid k)) := by
  obtain ⟨t1, ht1, _, _, _, hv1, hfr1, hd1⟩ :=
    (MW.run_multi height width N result1 results wbuf1 arrival1 fuel1 hN hh).1 hf1
  obtain ⟨t2, ht2, _, _, _, hv2, hfr2, hd2⟩ :=
    (MW.run_multi height width N result2 results wbuf2 arrival2 fuel2 hN hh).1 hf2
  have heq : t1.results = t2.results := by
    funext k
    by_cases hk : k < height * width
    · have hr : k / width < height :=
        Nat.div_lt_of_lt_mul (by rw [Nat.mul_comm]; exact hk)
      have hj : k % width < width := Nat.mod_lt _ hw
      have e : k / width * width + k % width = k := by
        rw [Nat.mul_comm]; exact Nat.div_add_mod k width
      have h1 := hv1 (k / width) (k % width) hr hj
      have h2 := hv2 (k / width) (k % width) hr hj
      rw [e] at h1 h2
      rw [h1, h2]
    · rw [hfr1 k (Nat.le_of_not_lt hk), hfr2 k (Nat.le_of_not_lt hk)]
  refine ⟨t1, t2, ht1, ht2, heq, by rw [hd1, hd2, heq],
    fun r j hr hj => ⟨hv1 r j hr hj, hv2 r j hr hj⟩, ?_⟩
  intro offset payload grid
  exact ⟨fun j hj => MW.fixMatrix_one_hit offset payload grid width j hj,
    fun k hk => MW.fixMatrix_one_miss offset payload grid width k hk⟩

/-- Witness for C9: three processes, a `5 x 2` grid, the arrival orders `k` and `2*k + 1`. -/
theorem mw_placement_by_offset_witness :
    ∃ t1 t2, MW.run 5 2 3 (fun _ => 0) (fun _ => 0) (fun _ _ => 0) (fun k => k) 5
        = MW.Outcome.done t1
      ∧ MW.run 5 2 3 (fun _ => 1) (fun _ => 0) (fun _ _ => 1) (fun k => 2 * k + 1) 6
        = MW.Outcome.done t2
      ∧ t1.results = t2.results
      ∧ t1.shown = t2.shown
      ∧ (∀ r j, r < 5 → j < 2 →
          t1.results (r * 2 + j) = mandelbrot (minX + j * dxOf 2) (minY + r * dyOf 5)
            ∧ t2.results (r * 2 + j) = mandelbrot (minX + j * dxOf 2) (minY + r * dyOf 5))
      ∧ (∀ (offset : Nat) (payload grid : Buf),
          (∀ j, j < 2 →
            MW.fixMatrix offset payload grid 2 1 (offset * 2 + j) = payload (j + 1))
          ∧ (∀ k, (k < offset * 2 ∨ (offset + 1) * 2 ≤ k) →
            MW.fixMatrix offset payload grid 2 1 k = grid k)) :=
  mw_placement_by_offset 3 5 2 (by decide) (by decide) (by decide) (fun _ => 0) (fun _ => 0)
    (fun _ => 1) (fun _ _ => 0) (fun _ _ => 1) (fun k => k) (fun k => 2 * k + 1) 5 6
    (by decide) (by decide)

/-- C2. For `height = 10`, `width = 4` and three processes the strategies disagree at cell
`(9, 1)` of the remainder row: the block and the cyclic grid hold `0` there, the kernel value at
ordinate `9*dy`, while the master-worker grid holds the kernel value at `(minX + 1*dx,
minY + 9*dy)`, which is not `0`. -/
theorem cross_strategy_remainder_row_differs (localInit : Nat → Buf)
    (gridInit gatherInit permInit result results : Buf) (wbuf : Nat → Buf)
    (arrival : Nat → Nat) (fuel : Nat) :
    Block.grid 10 4 3 localInit gridInit (9 * 4 + 1) = 0
      ∧ Cyclic.grid 10 4 3 localInit gatherInit permInit (9 * 4 + 1) = 0
      ∧ ∃ t, MW.run 10 4 3 result results wbuf arrival (10 + fuel) = MW.Outcome.done t
          ∧ t.results (9 * 4 + 1) = mandelbrot (minX + (1 : Nat) * dxOf 4) (minY + (9 : Nat) * dyOf 10)
          ∧ t.results (9 * 4 + 1) ≠ 0 := by
  have hzero : mandelbrot (minX + (1 : Nat) * dxOf 4) ((9 : Nat) * dyOf 10) = 0 := by
    rw [mandelbrot_eq_zero_iff]
    norm_num [minX, maxX, minY, maxY, dxOf, dyOf]
  have hnz : mandelbrot (minX + (1 : Nat) * dxOf 4) (minY + (9 : Nat) * dyOf 10) ≠ 0 := by
    rw [Ne, mandelbrot_eq_zero_iff]
    norm_num [minX, maxX, minY, maxY, dxOf, dyOf]
  refine ⟨?_, ?_, ?_⟩
  · have h := Block.doRemainingRows_hit
      (gather (fun rank => Block.start (localInit rank) minX minY (dxOf 4) (dyOf 10) 10 4
        (10 / 3) rank) (10 / 3 * 4) 3 gridInit)
      3 10 4 (10 / 3) minX minY (dxOf 4) (dyOf 10) 9 1 (by decide) (by decide) (by decide)
    rw [← hzero]
    exact h
  · have h := Block.doRemainingRows_hit
      (Cyclic.fixMatrix
        (gather (fun rank => Cyclic.start (localInit rank) minX minY (dxOf 4) (dyOf 10) 10 4
          (10 / 3) rank 3) (10 / 3 * 4) 3 gatherInit) permInit 3 4 (10 / 3))
      3 10 4 (10 / 3) minX minY (dxOf 4) (dyOf 10) 9 1 (by decide) (by decide) (by decide)
    rw [← hzero]
    exact h
  · obtain ⟨t, ht, _, _, _, hv, _, _⟩ :=
      (MW.run_multi 10 4 3 result results wbuf arrival (10 + fuel) (by decide) (by decide)).1
        (Nat.le_add_right _ _)
    have h := hv 9 1 (by decide) (by decide)
    exact ⟨t, ht, h, by rw [h]; exact hnz⟩

end HPC

/-! ## The kernel: oracle values -/

namespace HPC

/-- At the origin the iterate never moves, so the loop runs to its cap. -/
theorem mandelbrotLoop_origin : ∀ (n it : Nat), mandelbrotLoop 0 0 n it 0 0 = it + n := by
  intro n
  induction n with
  | zero => intro it; rfl
  | succ n ih =>
    intro it
    rw [mandelbrotLoop, if_pos (by norm_num)]
    have e : ((0 : ℚ) * 0 - 0 * 0 + 0) = 0 := by norm_num
    have e2 : ((2 : ℚ) * 0 * 0 + 0) = 0 := by norm_num
    rw [e, e2, ih (it + 1)]
    omega

/-- C13. Kernel oracle values: `mandelbrot(0, 0) = 511`, the point never escapes within the
iteration cap, and `mandelbrot(2, 2) = 0`, the escape test `x*x + y*y < 4` fails on the first
check. -/
theorem mandelbrot_oracle_values :
    mandelbrot 0 0 = 511 ∧ mandelbrot 2 2 = 0 ∧ ¬ ((2 : ℚ) * 2 + 2 * 2 < 4) := by
  refine ⟨?_, ?_, by norm_num⟩
  · unfold mandelbrot
    rw [mandelbrotLoop_origin 511 0]
    rfl
  · rw [mandelbrot_eq_zero_iff]
    norm_num

end HPC

/-! ## Master-worker placement of payloads of several rows -/

namespace HPC

namespace MW

end MW

end HPC

/-! ## The gathered buffers and the grids of the static strategies -/

namespace HPC

end HPC

/-! ## Index safety of the cyclic reassembly -/

namespace HPC

namespace Cyclic

/-- The accesses of the inner loop of `fixMatrix`, in closed form. -/
theorem copyRowAccesses_eq (width job_height i cycNum count : Nat) :
    ∀ (n j0 : Nat) (acc : List (Nat × Nat)),
      copyRowAccesses width job_height i cycNum count n j0 acc
        = acc ++ (List.range' j0 n).map
            (fun j => (i * width + j, (cycNum + count * job_height) * width + j)) := by
  intro n
  induction n with
  | zero => intro j0 acc; simp [copyRowAccesses]
  | succ n ih =>
    intro j0 acc
    rw [copyRowAccesses, ih (j0 + 1), List.range'_succ, List.map_cons, List.append_assoc,
      List.singleton_append]

/-- The access log is the log of the code: replaying its stores gives what `copyRow` gives. -/
theorem copyRowAccesses_replay (results : Buf) (width job_height i cycNum count : Nat) :
    ∀ (n j0 : Nat) (acc : List (Nat × Nat)) (perm : Buf),
      (copyRowAccesses width job_height i cycNum count n j0 acc).foldl
          (fun p a => p.write a.1 (results a.2)) perm
        = copyRow results width job_height i cycNum count n j0
            (acc.foldl (fun p a => p.write a.1 (results a.2)) perm) := by
  intro n
  induction n with
  | zero => intro j0 acc perm; rfl
  | succ n ih =>
    intro j0 acc perm
    rw [copyRowAccesses, ih (j0 + 1), copyRow, List.foldl_append]
    rfl

/-- The access log is the log of the code: replaying its stores gives what `fixLoop` gives. -/
theorem fixLoopAccesses_replay (results : Buf) (size width job_height : Nat) :
    ∀ (n i cycNum count : Nat) (acc : List (Nat × Nat)) (perm : Buf),
      (fixLoopAccesses size width job_height n i cycNum count acc).foldl
          (fun p a => p.write a.1 (results a.2)) perm
        = fixLoop results size width job_height n i cycNum count
            (acc.foldl (fun p a => p.write a.1 (results a.2)) perm) := by
  intro n
  induction n with
  | zero => intro i cycNum count acc perm; rfl
  | succ n ih =>
    intro i cycNum count acc perm
    rw [fixLoopAccesses, fixLoop]
    split
    · rw [ih, copyRowAccesses_replay]
    · rw [ih, copyRowAccesses_replay]

/-- Replaying the accesses of `fixMatrix` on `permresults` gives `fixMatrix`. -/
theorem fixMatrixAccesses_replay (results permresults : Buf) (size width job_height : Nat) :
    (fixMatrixAccesses size width job_height).foldl
        (fun p a => p.write a.1 (results a.2)) permresults
      = fixMatrix results permresults size width job_height :=
  fixLoopAccesses_replay results size width job_height (job_height * size) 0 0 0 [] permresults

/-- The counters of `fixMatrix` track `i`: from `i0 = cycNum*size + count` with `count < size`
on, pass `k` starts with `cycNum = k / size` and `count = k % size`. -/
theorem fixLoopCounters_eq (size : Nat) :
    ∀ (n i0 cycNum count : Nat) (acc : List (Nat × Nat × Nat)),
      i0 = cycNum * size + count → count < size →
      fixLoopCounters size n i0 cycNum count acc
        = acc ++ (List.range' i0 n).map (fun k => (k, k / size, k % size)) := by
  intro n
  induction n with
  | zero => intro i0 cycNum count acc _ _; simp [fixLoopCounters]
  | succ n ih =>
    intro i0 cycNum count acc hi hc
    have hpos : 0 < size := by omega
    have hdiv : i0 / size = cycNum := by
      rw [hi, Nat.mul_comm, Nat.mul_add_div hpos, Nat.div_eq_of_lt hc, Nat.add_zero]
    have hmod : i0 % size = count := by
      rw [hi, Nat.mul_comm, Nat.mul_add_mod, Nat.mod_eq_of_lt hc]
    rw [fixLoopCounters, List.range'_succ, List.map_cons, hdiv, hmod]
    split
    · rename_i hge
      have hcs : count + 1 = size := by omega
      rw [ih (i0 + 1) (cycNum + 1) ((count + 1) % size) _
        (by rw [hcs, Nat.mod_self, hi, Nat.add_mul, Nat.one_mul]; omega)
        (Nat.mod_lt _ hpos), List.append_assoc, List.singleton_append]
    · rename_i hlt
      rw [ih (i0 + 1) cycNum (count + 1) _ (by omega) (by omega), List.append_assoc,
        List.singleton_append]

/-- The accesses of `fixMatrix` in closed form: pass `k` writes row `k` of `permresults` from
row `k / size + (k % size)*job_height` of `results`. -/
theorem fixLoopAccesses_eq (size width job_height : Nat) :
    ∀ (n i0 cycNum count : Nat) (acc : List (Nat × Nat)),
      i0 = cycNum * size + count → count < size →
      fixLoopAccesses size width job_height n i0 cycNum count acc
        = acc ++ (List.range' i0 n).flatMap (fun k => (List.range' 0 width).map
            (fun j => (k * width + j, (k / size + k % size * job_height) * width + j))) := by
  intro n
  induction n with
  | zero => intro i0 cycNum count acc _ _; simp [fixLoopAccesses]
  | succ n ih =>
    intro i0 cycNum count acc hi hc
    have hpos : 0 < size := by omega
    have hdiv : i0 / size = cycNum := by
      rw [hi, Nat.mul_comm, Nat.mul_add_div hpos, Nat.div_eq_of_lt hc, Nat.add_zero]
    have hmod : i0 % size = count := by
      rw [hi, Nat.mul_comm, Nat.mul_add_mod, Nat.mod_eq_of_lt hc]
    rw [fixLoopAccesses, List.range'_succ, List.flatMap_cons, hdiv, hmod]
    split
    · rename_i hge
      have hcs : count + 1 = size := by omega
      rw [ih (i0 + 1) (cycNum + 1) ((count + 1) % size) _
        (by rw [hcs, Nat.mod_self, hi, Nat.add_mul, Nat.one_mul]; omega)
        (Nat.mod_lt _ hpos), copyRowAccesses_eq, List.append_assoc]
    · rename_i hlt
      rw [ih (i0 + 1) cycNum (count + 1) _ (by omega) (by omega), copyRowAccesses_eq,
        List.append_assoc]

/-- The source row read in pass `i` lies in the gathered buffer. -/
theorem source_row_lt (size job_height i : Nat) (hi : i < job_height * size) :
    i / size + i % size * job_height < job_height * size := by
  have hpos : 0 < size := by
    rcases Nat.eq_zero_or_pos size with h | h
    · rw [h] at hi; omega
    · exact h
  have h1 : i / size < job_height := Nat.div_lt_of_lt_mul (by rw [Nat.mul_comm]; exact hi)
  have h2 : i % size < size := Nat.mod_lt _ hpos
  have h3 : (i % size + 1) * job_height ≤ size * job_height := Nat.mul_le_mul_right _ h2
  have h4 : (i % size + 1) * job_height = i % size * job_height + job_height := by ring
  have h5 : size * job_height = job_height * size := Nat.mul_comm _ _
  omega

/-- Two passes below `job_height*size` that read the same source row are the same pass. -/
theorem source_row_inj (size job_height i k : Nat) (hi : i < job_height * size)
    (hk : k < job_height * size)
    (h : i / size + i % size * job_height = k / size + k % size * job_height) : i = k := by
  have hi1 : i / size < job_height := Nat.div_lt_of_lt_mul (by rw [Nat.mul_comm]; exact hi)
  have hk1 : k / size < job_height := Nat.div_lt_of_lt_mul (by rw [Nat.mul_comm]; exact hk)
  have hpos : 0 < job_height := Nat.lt_of_le_of_lt (Nat.zero_le _) hi1
  have hdi : (i / size + i % size * job_height) / job_height = i % size := by
    rw [Nat.add_comm, Nat.mul_comm, Nat.mul_add_div hpos, Nat.div_eq_of_lt hi1, Nat.add_zero]
  have hdk : (k / size + k % size * job_height) / job_height = k % size := by
    rw [Nat.add_comm, Nat.mul_comm, Nat.mul_add_div hpos, Nat.div_eq_of_lt hk1, Nat.add_zero]
  have hmi : (i / size + i % size * job_height) % job_height = i / size := by
    rw [Nat.add_mul_mod_self_right, Nat.mod_eq_of_lt hi1]
  have hmk : (k / size + k % size * job_height) % job_height = k / size := by
    rw [Nat.add_mul_mod_self_right, Nat.mod_eq_of_lt hk1]
  have e1 : i % size = k % size := by rw [← hdi, ← hdk, h]
  have e2 : i / size = k / size := by rw [← hmi, ← hmk, h]
  rw [← Nat.div_add_mod i size, ← Nat.div_add_mod k size, e1, e2]

/-- Every row of the gathered buffer is the source row of a pass. -/
theorem source_row_surj (size job_height k : Nat) (hk : k < job_height * size) :
    ∃ i, i < job_height * size ∧ i / size + i % size * job_height = k := by
  have hjh : 0 < job_height := by
    rcases Nat.eq_zero_or_pos job_height with h | h
    · rw [h] at hk; omega
    · exact h
  have hpos : 0 < size := by
    rcases Nat.eq_zero_or_pos size with h | h
    · rw [h] at hk; omega
    · exact h
  have h1 : k / job_height < size := Nat.div_lt_of_lt_mul hk
  have h2 : k % job_height < job_height := Nat.mod_lt _ hjh
  refine ⟨k % job_height * size + k / job_height, ?_, ?_⟩
  · have h3 : (k % job_height + 1) * size ≤ job_height * size := Nat.mul_le_mul_right _ h2
    have h4 : (k % job_height + 1) * size = k % job_height * size + size := by ring
    omega
  · have hd : (k % job_height * size + k / job_height) / size = k % job_height := by
      rw [Nat.mul_comm, Nat.mul_add_div hpos, Nat.div_eq_of_lt h1, Nat.add_zero]
    have hm : (k % job_height * size + k / job_height) % size = k / job_height := by
      rw [Nat.mul_comm, Nat.mul_add_mod, Nat.mod_eq_of_lt h1]
    rw [hd, hm, Nat.mul_comm]
    exact Nat.mod_add_div k job_height

end Cyclic

end HPC

namespace HPC

/-- C19. Index safety of the cyclic reassembly.  For `size ≥ 1`, any `job_height` and `width`,
and `height ≥ job_height*size`: pass `i` of `fixMatrix` starts with `cycNum = i / size` and
`count = i % size`; the stores and loads of `fixMatrix` are, in order, the pairs
`(i*width + j, (cycNum + count*job_height)*width + j)`; every index read is below
`job_height*size*width`, the length of the gathered buffer, and every index written is below
`height*width`; and `i ↦ cycNum + count*job_height` is a bijection of `[0, job_height*size)`,
so that every gathered row is read in exactly one pass. -/
theorem cyclic_fixMatrix_index_safety (size job_height width height : Nat)
    (hs : 1 ≤ size) (hh : job_height * size ≤ height) :
    Cyclic.fixMatrixCounters size job_height
        = (List.range (job_height * size)).map (fun i => (i, i / size, i % size))
      ∧ Cyclic.fixMatrixAccesses size width job_height
        = (List.range (job_height * size)).flatMap (fun i => (List.range width).map
            (fun j => (i * width + j, (i / size + i % size * job_height) * width + j)))
      ∧ (∀ (results permresults : Buf),
          (Cyclic.fixMatrixAccesses size width job_height).foldl
              (fun p a => p.write a.1 (results a.2)) permresults
            = Cyclic.fixMatrix results permresults size width job_height)
      ∧ (∀ a ∈ Cyclic.fixMatrixAccesses size width job_height,
          a.1 < height * width ∧ a.2 < job_height * size * width)
      ∧ (∀ i, i < job_height * size →
          i / size + i % size * job_height < job_height * size)
      ∧ (∀ i k, i < job_height * size → k < job_height * size →
          i / size + i % size * job_height = k / size + k % size * job_height → i = k)
      ∧ (∀ k, k < job_height * size →
          ∃ i, i < job_height * size ∧ i / size + i % size * job_height = k)
      ∧ List.Perm
          ((List.range (job_height * size)).map (fun i => i / size + i % size * job_height))
          (List.range (job_height * size)) := by
  have hcount := Cyclic.fixLoopCounters_eq size (job_height * size) 0 0 0 [] (by simp) hs
  have hacc := Cyclic.fixLoopAccesses_eq size width job_height (job_height * size) 0 0 0 []
    (by simp) hs
  rw [List.nil_append, ← List.range_eq_range'] at hcount hacc
  simp only [← List.range_eq_range'] at hacc
  have hacc2 : Cyclic.fixMatrixAccesses size width job_height
      = (List.range (job_height * size)).flatMap (fun i => (List.range width).map
          (fun j => (i * width + j, (i / size + i % size * job_height) * width + j))) := hacc
  refine ⟨hcount, hacc2, fun results permresults =>
      Cyclic.fixMatrixAccesses_replay results permresults size width job_height,
    ?_, fun i hi => Cyclic.source_row_lt size job_height i hi,
    fun i k hi hk h => Cyclic.source_row_inj size job_height i k hi hk h,
    fun k hk => Cyclic.source_row_surj size job_height k hk, ?_⟩
  · intro a ha
    rw [hacc2, List.mem_flatMap] at ha
    obtain ⟨i, hi, ha⟩ := ha
    rw [List.mem_map] at ha
    obtain ⟨j, hj, rfl⟩ := ha
    rw [List.mem_range] at hi hj
    have hsrc := Cyclic.source_row_lt size job_height i hi
    constructor
    · show i * width + j < height * width
      have h1 : (i + 1) * width ≤ height * width := Nat.mul_le_mul_right _ (by omega)
      have h2 : (i + 1) * width = i * width + width := by ring
      omega
    · show (i / size + i % size * job_height) * width + j < job_height * size * width
      have h1 : (i / size + i % size * job_height + 1) * width ≤ job_height * size * width :=
        Nat.mul_le_mul_right _ hsrc
      have h2 : (i / size + i % size * job_height + 1) * width
          = (i / size + i % size * job_height) * width + width := by ring
      omega
  · rw [List.perm_ext_iff_of_nodup _ (List.nodup_range _)]
    · intro k
      rw [List.mem_map, List.mem_range]
      constructor
      · rintro ⟨i, hi, rfl⟩
        exact Cyclic.source_row_lt size job_height i (List.mem_range.mp hi)
      · intro hk
        obtain ⟨i, hi, hik⟩ := Cyclic.source_row_surj size job_height k hk
        exact ⟨i, List.mem_range.mpr hi, hik⟩
    · refine List.Nodup.map_on ?_ (List.nodup_range _)
      intro i hi k hk h
      exact Cyclic.source_row_inj size job_height i k (List.mem_range.mp hi)
        (List.mem_range.mp hk) h

/-- Witness for C19: `size = 4`, `job_height = 2`, `width = 2`, `height = 8`. -/
theorem cyclic_fixMatrix_index_safety_witness :
    Cyclic.fixMatrixCounters 4 2
        = [(0, 0, 0), (1, 0, 1), (2, 0, 2), (3, 0, 3), (4, 1, 0), (5, 1, 1), (6, 1, 2), (7, 1, 3)]
      ∧ (∀ a ∈ Cyclic.fixMatrixAccesses 4 2 2, a.1 < 8 * 2 ∧ a.2 < 2 * 4 * 2)
      ∧ List.Perm ((List.range (2 * 4)).map (fun i => i / 4 + i % 4 * 2)) (List.range (2 * 4)) :=
  have h := cyclic_fixMatrix_index_safety 4 2 2 8 (by decide) (by decide)
  ⟨h.1, h.2.2.2.1, h.2.2.2.2.2.2.2⟩

end HPC

/-! ## Master-worker: the counters of the scheduler -/

namespace HPC

namespace MW

theorem sendsTo_append (w : Nat) (a b : List Event) :
    sendsTo w (a ++ b) = sendsTo w a + sendsTo w b := by
  induction a with
  | nil => simp [sendsTo]
  | cons e es ih =>
    cases e with
    | send d t v =>
      show _ + sendsTo w (es ++ b) = _ + sendsTo w es + sendsTo w b
      rw [ih, Nat.add_assoc]
    | recv s o =>
      show sendsTo w (es ++ b) = sendsTo w es + sendsTo w b
      exact ih

theorem recvsFrom_append (w : Nat) (a b : List Event) :
    recvsFrom w (a ++ b) = recvsFrom w a + recvsFrom w b := by
  induction a with
  | nil => simp [recvsFrom]
  | cons e es ih =>
    cases e with
    | send d t v =>
      show recvsFrom w (es ++ b) = recvsFrom w es + recvsFrom w b
      exact ih
    | recv s o =>
      show _ + recvsFrom w (es ++ b) = _ + recvsFrom w es + recvsFrom w b
      rw [ih, Nat.add_assoc]

/-- Sending a task to a rank with no message under way keeps the per-worker invariant. -/
theorem Workers.send_task {s t : State} (dest value : Nat) (buf : Buf) (h : Workers s)
    (hfree : dest ∉ s.inflight.map Prod.fst)
    (hin : t.inflight = s.inflight ++ [(dest, buf)])
    (htr : t.trace = s.trace ++ [Event.send dest Tag.data value]) :
    Workers t := by
  constructor
  · rw [hin, List.map_append, List.map_singleton]
    refine List.Nodup.append h.nodup (List.nodup_singleton _) ?_
    intro x hx1 hx2
    rw [List.mem_singleton] at hx2
    have hx3 : x = dest := hx2
    rw [hx3] at hx1
    exact hfree hx1
  · intro w
    rw [htr, hin, sendsTo_append, recvsFrom_append, List.map_append, List.count_append, h.held w]
    have hc : List.count w (List.map Prod.fst [(dest, buf)]) = if dest = w then 1 else 0 := by
      by_cases hw : dest = w
      · simp [hw]
      · have hw2 : ¬ (dest == w) = true := by simpa using hw
        simp [hw, List.count_cons, hw2]
    rw [hc]
    by_cases hw : dest = w
    · simp [sendsTo, recvsFrom, hw]
      omega
    · simp [sendsTo, recvsFrom, hw]

/-- The initial dispatch loop keeps the per-worker invariant: it sends to the ranks
`actives, actives + 1, ...`, all above the ranks with a message under way. -/
theorem dispatch_workers (minX minY dx dy : ℚ) (height width job_height : Nat) :
    ∀ (n : Nat) (s : State), Workers s → (∀ w ∈ s.inflight.map Prod.fst, w < s.actives) →
      Workers (dispatch minX minY dx dy height width job_height n s) := by
  intro n
  induction n with
  | zero => intro s h _; exact h
  | succ n ih =>
    intro s h hlt
    rw [dispatch]
    split
    · apply ih
      · exact Workers.send_task s.actives s.jobs _ h
          (fun hmem => Nat.lt_irrefl _ (hlt _ hmem)) rfl rfl
      · intro w hw
        have hw2 : w ∈ (s.inflight ++ [(s.actives,
            worker s.jobs (s.wbuf s.actives) minX minY dx dy height width job_height)]).map
            Prod.fst := hw
        rw [List.map_append, List.mem_append] at hw2
        show w < s.actives + 1
        rcases hw2 with h1 | h1
        · exact Nat.lt_succ_of_lt (hlt w h1)
        · simp at h1
          omega
    · exact h

/-- The messages of the initial dispatch loop for one-row tasks: DATA with the offsets
`jobs, jobs + 1, ...` to the ranks `actives, actives + 1, ...`. -/
theorem dispatch_trace (minX minY dx dy : ℚ) (height width : Nat) :
    ∀ (n : Nat) (s : State),
      (dispatch minX minY dx dy height width 1 n s).trace
          = s.trace ++ (List.range (min n (height - s.jobs))).map
              (fun k => Event.send (s.actives + k) Tag.data (s.jobs + k))
        ∧ (dispatch minX minY dx dy height width 1 n s).actives
          = s.actives + min n (height - s.jobs) := by
  intro n
  induction n with
  | zero => intro s; simp [dispatch]
  | succ n ih =>
    intro s
    rw [dispatch]
    by_cases hlt : s.jobs < height
    · rw [if_pos hlt]
      obtain ⟨h1, h2⟩ := ih
        { sendData minX minY dx dy height width 1 s s.actives with
          actives := s.actives + 1
          jobs := s.jobs + 1 }
      rw [h1, h2]
      have hmin : min (n + 1) (height - s.jobs) = min n (height - (s.jobs + 1)) + 1 := by omega
      constructor
      · show s.trace ++ [Event.send s.actives Tag.data s.jobs]
            ++ (List.range (min n (height - (s.jobs + 1)))).map
              (fun k => Event.send (s.actives + 1 + k) Tag.data (s.jobs + 1 + k)) = _
        rw [hmin, List.range_succ_eq_map, List.map_cons, List.map_map, List.append_assoc,
          List.singleton_append]
        congr 2
        apply List.map_congr_left
        intro k _
        simp only [Function.comp, Nat.succ_eq_add_one]
        congr 1 <;> omega
      · show s.actives + 1 + min n (height - (s.jobs + 1)) = _
        omega
    · rw [if_neg hlt]
      have hmin : min (n + 1) (height - s.jobs) = 0 := by omega
      rw [hmin]
      simp

/-- One pass of the collection loop keeps the per-worker invariant. -/
theorem collectBody_workers (minX minY dx dy : ℚ) (height width job_height data_size pick : Nat)
    (s t : State) (h : Workers s)
    (hbody : collectBody minX minY dx dy height width job_height data_size pick s = some t) :
    Workers t := by
  have hne : s.inflight ≠ [] := by
    intro hnil
    rw [collectBody_blocked minX minY dx dy height width job_height data_size pick s hnil]
      at hbody
    exact Option.noConfusion hbody
  have hlen : 0 < s.inflight.length := List.length_pos.mpr hne
  have hklt : pick % s.inflight.length < s.inflight.length := Nat.mod_lt _ hlen
  rcases hpair : s.inflight[pick % s.inflight.length] with ⟨slave, payload⟩
  have hget : s.inflight[pick % s.inflight.length]? = some (slave, payload) := by
    rw [List.getElem?_eq_getElem hklt, hpair]
  have hperm := (perm_cons_eraseIdx s.inflight _ hklt).map Prod.fst
  rw [hpair, List.map_cons] at hperm
  have hnd : (slave :: (s.inflight.eraseIdx (pick % s.inflight.length)).map Prod.fst).Nodup :=
    hperm.nodup_iff.mp h.nodup
  have hfree : slave ∉ (s.inflight.eraseIdx (pick % s.inflight.length)).map Prod.fst :=
    (List.nodup_cons.mp hnd).1
  have hcount : ∀ w, (s.inflight.map Prod.fst).count w
      = (if slave = w then 1 else 0)
        + ((s.inflight.eraseIdx (pick % s.inflight.length)).map Prod.fst).count w := by
    intro w
    rw [hperm.count_eq, List.count_cons]
    by_cases hw : slave = w
    · simp [hw]; omega
    · simp [hw]
  -- the state after the receive
  have hW1 : ∀ (offset : Nat), Workers
      { s with
        inflight := s.inflight.eraseIdx (pick % s.inflight.length)
        trace := s.trace ++ [Event.recv slave offset] } := by
    intro offset
    constructor
    · exact (List.nodup_cons.mp hnd).2
    · intro w
      show sendsTo w (s.trace ++ [Event.recv slave offset]) = recvsFrom w (s.trace ++ _) + _
      rw [sendsTo_append, recvsFrom_append, h.held w, hcount w]
      by_cases hw : slave = w
      · simp [sendsTo, recvsFrom, hw]; omega
      · simp [sendsTo, recvsFrom, hw]
  by_cases hlt : s.jobs < height
  · rw [collectBody_data minX minY dx dy height width job_height data_size pick s slave payload
      hget hlt] at hbody
    have ht := Option.some.inj hbody
    rw [← ht]
    exact Workers.send_task slave s.jobs _
      (hW1 (if 0 < data_size then payload 0 else s.result 0).toNat) hfree rfl rfl
  · rw [collectBody_finish minX minY dx dy height width job_height data_size pick s slave payload
      hget hlt] at hbody
    have ht := Option.some.inj hbody
    rw [← ht]
    have hW := hW1 (if 0 < data_size then payload 0 else s.result 0).toNat
    constructor
    · exact hW.nodup
    · intro w
      have hh := hW.held w
      show sendsTo w (s.trace ++ [Event.recv slave _] ++ [Event.send slave Tag.finish s.jobs])
        = recvsFrom w (s.trace ++ [Event.recv slave _] ++ [Event.send slave Tag.finish s.jobs])
          + _
      rw [sendsTo_append, recvsFrom_append]
      have e1 : sendsTo w [Event.send slave Tag.finish s.jobs] = 0 := by
        simp [sendsTo]
      have e2 : recvsFrom w [Event.send slave Tag.finish s.jobs] = 0 := rfl
      rw [e1, e2, Nat.add_zero, Nat.add_zero]
      exact hh

end MW

end HPC

namespace HPC

namespace MW

/-- The state at the end of every pass of the collection loop for one-row tasks: as long as
passes remain to be made, the pass is made and all invariants are kept. -/
theorem collectAt_spec {minX minY dx dy : ℚ} {height width data_size : Nat} {results0 : Buf}
    (hds : width < data_size) :
    ∀ (k : Nat) (arrival : Nat → Nat) (s : State),
      Proto minX minY dx dy height width s → GridOK minX minY dx dy width results0 s →
      Workers s → s.inflight ≠ [] → k ≤ height - s.jobs + s.inflight.length →
      ∃ t, collectAt minX minY dx dy height width 1 data_size arrival k s = some t
        ∧ Proto minX minY dx dy height width t ∧ GridOK minX minY dx dy width results0 t
        ∧ Workers t
        ∧ height - t.jobs + t.inflight.length + k = height - s.jobs + s.inflight.length := by
  intro k
  induction k with
  | zero =>
    intro arrival s hP hG hW _ _
    exact ⟨s, rfl, hP, hG, hW, rfl⟩
  | succ k ih =>
    intro arrival s hP hG hW hne hk
    obtain ⟨s1, hbody, hP1, hG1, hmu, hjobs, _⟩ := collectBody_step hds hP hG hne (arrival 0)
    have hW1 := collectBody_workers minX minY dx dy height width 1 data_size (arrival 0) s s1 hW
      hbody
    rw [collectAt, hbody]
    by_cases hk0 : k = 0
    · subst hk0
      simp only [true_or, if_true, collectAt]
      exact ⟨s1, rfl, hP1, hG1, hW1, by omega⟩
    · have hne1 : s1.inflight ≠ [] := by
        intro hnil
        have h1 := hjobs hnil
        rw [hnil] at hmu
        simp at hmu
        omega
      have hact : s1.actives > 1 := by
        have h1 := hP1.actives_eq
        have h2 : 0 < s1.inflight.length := List.length_pos.mpr hne1
        omega
      simp only [hact, or_true, if_true]
      obtain ⟨t, ht, hPt, hGt, hWt, hmut⟩ :=
        ih (fun i => arrival (i + 1)) s1 hP1 hG1 hW1 hne1 (by omega)
      exact ⟨t, ht, hPt, hGt, hWt, by omega⟩

/-- The collection loop leaves in the state at the end of its last pass. -/
theorem collect_collectAt {minX minY dx dy : ℚ} {height width data_size : Nat} {results0 : Buf}
    (hds : width < data_size) :
    ∀ (fuel : Nat) (arrival : Nat → Nat) (s : State),
      Proto minX minY dx dy height width s → GridOK minX minY dx dy width results0 s →
      s.inflight ≠ [] → height - s.jobs + s.inflight.length ≤ fuel →
      ∃ t, collect minX minY dx dy height width 1 data_size arrival fuel s = Outcome.done t
        ∧ collectAt minX minY dx dy height width 1 data_size arrival
            (height - s.jobs + s.inflight.length) s = some t := by
  intro fuel
  induction fuel with
  | zero =>
    intro arrival s _ _ hne hfuel
    have hlen : 0 < s.inflight.length := List.length_pos.mpr hne
    omega
  | succ fuel ih =>
    intro arrival s hP hG hne hfuel
    obtain ⟨s1, hbody, hP1, hG1, hmu, hjobs, _⟩ := collectBody_step hds hP hG hne (arrival 0)
    rw [← hmu, collect, collectAt, hbody]
    by_cases hact : s1.actives > 1
    · have hne1 : s1.inflight ≠ [] := by
        intro hnil
        have := hP1.actives_eq
        rw [hnil] at this
        simp at this
        omega
      simp only [hact, or_true, if_true]
      exact ih (fun k => arrival (k + 1)) s1 hP1 hG1 hne1 (by omega)
    · have hnil : s1.inflight = [] := by
        have := hP1.actives_eq
        have hlen : s1.inflight.length = 0 := by omega
        exact List.length_eq_zero.mp hlen
      have h1 := hjobs hnil
      have hz : height - s1.jobs + s1.inflight.length = 0 := by
        rw [hnil, h1]; simp
      simp only [hact, if_false, hz, true_or, if_true, collectAt]
      exact ⟨s1, rfl, rfl⟩

/-- The state in which `master` enters its collection loop, for one-row tasks, at least one
worker and at least one row: the invariants hold, a message is under way, and `height` passes
remain to be made. -/
theorem dispatched_spec (result : Buf) (minX minY dx dy : ℚ) (height width size : Nat)
    (results : Buf) (wbuf : Nat → Buf) (hsize : 2 ≤ size) (hh : 1 ≤ height) :
    Proto minX minY dx dy height width
        (dispatched result minX minY dx dy height width 1 size results wbuf)
      ∧ GridOK minX minY dx dy width results
        (dispatched result minX minY dx dy height width 1 size results wbuf)
      ∧ Workers (dispatched result minX minY dx dy height width 1 size results wbuf)
      ∧ (dispatched result minX minY dx dy height width 1 size results wbuf).inflight ≠ []
      ∧ height - (dispatched result minX minY dx dy height width 1 size results wbuf).jobs
          + (dispatched result minX minY dx dy height width 1 size results wbuf).inflight.length
          = height
      ∧ (dispatched result minX minY dx dy height width 1 size results wbuf).actives
          = 1 + min (size - 1) height
      ∧ (dispatched result minX minY dx dy height width 1 size results wbuf).jobs
          = min (size - 1) height
      ∧ (dispatched result minX minY dx dy height width 1 size results wbuf).trace
          = (List.range (min (size - 1) height)).map
              (fun k => Event.send (k + 1) Tag.data k) := by
  have hmu : height - min (size - 1) height + min (size - 1) height = height := by omega
  have hm1 : 1 ≤ min (size - 1) height := by omega
  obtain ⟨hP0, hG0⟩ := init_invariants minX minY dx dy height width result results wbuf
  have hW0 : Workers
      { actives := 1, jobs := 0, result := result, results := results, wbuf := wbuf,
        inflight := [], trace := [], shown := [] } := by
    constructor
    · exact List.nodup_nil
    · intro w; rfl
  obtain ⟨hPd, hGd, hjobs, hlen, _⟩ := dispatch_spec (size - 1) _ hP0 hG0
  have hWd := dispatch_workers minX minY dx dy height width 1 (size - 1) _ hW0
    (fun w hw => absurd hw (List.not_mem_nil w))
  obtain ⟨htr, hact⟩ := dispatch_trace minX minY dx dy height width (size - 1)
    { actives := 1, jobs := 0, result := result, results := results, wbuf := wbuf,
      inflight := [], trace := [], shown := [] }
  simp only [Nat.sub_zero, List.length_nil, Nat.zero_add, List.nil_append] at hjobs hlen htr hact
  refine ⟨hPd, hGd, hWd, ?_, ?_, hact, hjobs, ?_⟩
  · intro hnil
    have hlen2 := hlen
    unfold dispatched at hnil
    rw [hnil] at hlen2
    simp at hlen2
    omega
  · unfold dispatched
    rw [hjobs, hlen, hmu]
  · unfold dispatched
    rw [htr]
    apply List.map_congr_left
    intro k _
    rw [Nat.add_comm 1 k]

end MW

end HPC

namespace HPC

/-- C16. Scheduler counter invariant, for `N ≥ 2` processes, `height ≥ 1` and one-row tasks.
After the initial dispatch loop `actives = 1 + min(N-1, height)` and `jobs = min(N-1, height)`,
the tasks `0, 1, ...` having been sent to the distinct ranks `1, 2, ..., min(N-1, height)`.  At
the head of the collection loop and at the end of each of its `height` passes, under any
arrival order: `actives - 1` is the number of tasks dispatched and not yet reported, `jobs` is
the number of tasks dispatched so far and is at most `height`, and every rank has at most one
task dispatched to it and not yet reported.  The loop of the run ends in the state at the end
of pass `height`. -/
theorem mw_scheduler_counters (N height width : Nat) (hN : 2 ≤ N) (hh : 1 ≤ height)
    (result results : Buf) (wbuf : Nat → Buf) (arrival : Nat → Nat) :
    (MW.dispatched result minX minY (dxOf width) (dyOf height) height width 1 N results
        wbuf).actives = 1 + min (N - 1) height
      ∧ (MW.dispatched result minX minY (dxOf width) (dyOf height) height width 1 N results
        wbuf).jobs = min (N - 1) height
      ∧ (MW.dispatched result minX minY (dxOf width) (dyOf height) height width 1 N results
        wbuf).trace
          = (List.range (min (N - 1) height)).map (fun k => MW.Event.send (k + 1) MW.Tag.data k)
      ∧ (∀ k, k ≤ height →
          ∃ s, MW.collectAt minX minY (dxOf width) (dyOf height) height width 1 (1 * width + 1)
              arrival k
              (MW.dispatched result minX minY (dxOf width) (dyOf height) height width 1 N results
                wbuf) = some s
            ∧ s.actives - 1
                = (MW.dataSends s.trace).length - (MW.recvOffsets s.trace).length
            ∧ (MW.recvOffsets s.trace).length ≤ (MW.dataSends s.trace).length
            ∧ s.jobs = (MW.dataSends s.trace).length
            ∧ s.jobs ≤ height
            ∧ ∀ w, MW.recvsFrom w s.trace ≤ MW.sendsTo w s.trace
                ∧ MW.sendsTo w s.trace - MW.recvsFrom w s.trace ≤ 1)
      ∧ (∀ fuel, height ≤ fuel →
          ∃ t, MW.collectAt minX minY (dxOf width) (dyOf height) height width 1 (1 * width + 1)
              arrival height
              (MW.dispatched result minX minY (dxOf width) (dyOf height) height width 1 N results
                wbuf) = some t
            ∧ MW.run height width N result results wbuf arrival fuel
                = MW.Outcome.done
                    { t with shown := MW.displayResult t.results height width N }) := by
  obtain ⟨hP, hG, hW, hne, hmu, hact, hjobs, htr⟩ :=
    MW.dispatched_spec result minX minY (dxOf width) (dyOf height) height width N results wbuf
      hN hh
  have hds : width < 1 * width + 1 := by omega
  refine ⟨hact, hjobs, htr, ?_, ?_⟩
  · intro k hk
    obtain ⟨s, hs, hPs, _, hWs, _⟩ :=
      MW.collectAt_spec hds k arrival _ hP hG hW hne (by rw [hmu]; exact hk)
    have h1 := hPs.actives_eq
    have h2 : (MW.dataSends s.trace).length = s.jobs := by
      rw [hPs.sends, List.length_range]
    have h3 : (MW.recvOffsets s.trace).length + s.inflight.length = s.jobs := by
      have := hPs.offsets.length_eq
      rw [List.length_append, List.length_map, List.length_range] at this
      exact this
    refine ⟨s, hs, by omega, by omega, h2.symm, hPs.jobs_le, ?_⟩
    intro w
    have h4 := hWs.held w
    have h5 : (s.inflight.map Prod.fst).count w ≤ 1 :=
      List.nodup_iff_count_le_one.mp hWs.nodup w
    constructor
    · omega
    · omega
  · intro fuel hfuel
    obtain ⟨t, ht, hat⟩ := MW.collect_collectAt hds fuel arrival _ hP hG hne
      (by rw [hmu]; exact hfuel)
    rw [hmu] at hat
    refine ⟨t, hat, ?_⟩
    have hne1 : N ≠ 1 := by omega
    have hrun : MW.run height width N result results wbuf arrival fuel
        = match MW.collect minX minY (dxOf width) (dyOf height) height width 1 (1 * width + 1)
            arrival fuel
            (MW.dispatched result minX minY (dxOf width) (dyOf height) height width 1 N results
              wbuf) with
          | MW.Outcome.done s =>
            MW.Outcome.done { s with shown := MW.displayResult s.results height width N }
          | o => o := by
      simp only [MW.run, MW.master, hne1, if_false, MW.dispatched]
    rw [hrun, ht]

/-- Witness for C16: three processes, five rows, results taken in the order `arrival k = k`. -/
theorem mw_scheduler_counters_witness :
    (MW.dispatched (fun _ => 0) minX minY (dxOf 1) (dyOf 5) 5 1 1 3 (fun _ => 0)
        (fun _ _ => 0)).actives = 1 + min (3 - 1) 5
      ∧ (MW.dispatched (fun _ => 0) minX minY (dxOf 1) (dyOf 5) 5 1 1 3 (fun _ => 0)
        (fun _ _ => 0)).jobs = min (3 - 1) 5
      ∧ (MW.dispatched (fun _ => 0) minX minY (dxOf 1) (dyOf 5) 5 1 1 3 (fun _ => 0)
        (fun _ _ => 0)).trace
          = [MW.Event.send 1 MW.Tag.data 0, MW.Event.send 2 MW.Tag.data 1]
      ∧ (∀ k, k ≤ 5 →
          ∃ s, MW.collectAt minX minY (dxOf 1) (dyOf 5) 5 1 1 (1 * 1 + 1) (fun k => k) k
              (MW.dispatched (fun _ => 0) minX minY (dxOf 1) (dyOf 5) 5 1 1 3 (fun _ => 0)
                (fun _ _ => 0)) = some s
            ∧ s.actives - 1
                = (MW.dataSends s.trace).length - (MW.recvOffsets s.trace).length
            ∧ (MW.recvOffsets s.trace).length ≤ (MW.dataSends s.trace).length
            ∧ s.jobs = (MW.dataSends s.trace).length
            ∧ s.jobs ≤ 5
            ∧ ∀ w, MW.recvsFrom w s.trace ≤ MW.sendsTo w s.trace
                ∧ MW.sendsTo w s.trace - MW.recvsFrom w s.trace ≤ 1) :=
  have h := mw_scheduler_counters 3 5 1 (by decide) (by decide) (fun _ => 0) (fun _ => 0)
    (fun _ _ => 0) (fun k => k)
  ⟨h.1, h.2.1, h.2.2.1, h.2.2.2.1⟩

end HPC

/-! ## Arbitrary arithmetic: stores, and the loops that fill rows -/

namespace HPC

namespace Fp

theorem steps_shift (A : Arith) (x0 dx : A.F) :
    ∀ k, steps A (A.add x0 dx) dx k = steps A x0 dx (k + 1)
  | 0 => rfl
  | k + 1 => by
    show A.add (steps A (A.add x0 dx) dx k) dx = A.add (steps A x0 dx (k + 1)) dx
    rw [steps_shift A x0 dx k]

/-- In exact arithmetic `k` additions of `dx` to `x0` give `x0 + k*dx`. -/
theorem steps_exact (x0 dx : ℚ) :
    ∀ k : Nat, (steps exactArith x0 dx k : ℚ) = x0 + (k : ℚ) * dx
  | 0 => by simp [steps]
  | k + 1 => by
    have ih := steps_exact x0 dx k
    simp only [steps]
    rw [ih]
    show (x0 + (k : ℚ) * dx) + dx = x0 + ((k + 1 : Nat) : ℚ) * dx
    push_cast
    ring

/-- Cells outside the index range of a column loop keep their content. -/
theorem fp_forCols_miss (A : Arith) (dx : A.F) (f : A.F → ℤ) (width off i : Nat) :
    ∀ (n j0 : Nat) (x0 : A.F) (m : Mem) (k : Nat),
      (k < i * width + j0 + off ∨ i * width + j0 + off + n ≤ k) →
      (forCols A dx (fun j x (b : Mem) => b.write (i * width + j + off) (f x)) n j0 x0 m).buf k
        = m.buf k := by
  intro n
  induction n with
  | zero => intro j0 x0 m k _; rfl
  | succ n ih =>
    intro j0 x0 m k hk
    rw [forCols, ih (j0 + 1) (A.add x0 dx) _ k (by omega)]
    exact Buf.write_other _ _ _ _ (by omega)

/-- The cell of column `j0 + c` holds the value computed at the abscissa reached from `x0` by
`c` additions of `dx`. -/
theorem fp_forCols_hit (A : Arith) (dx : A.F) (f : A.F → ℤ) (width off i : Nat) :
    ∀ (n j0 : Nat) (x0 : A.F) (m : Mem) (c : Nat), c < n →
      (forCols A dx (fun j x (b : Mem) => b.write (i * width + j + off) (f x)) n j0 x0 m).buf
          (i * width + (j0 + c) + off)
        = f (steps A x0 dx c) := by
  intro n
  induction n with
  | zero => intro j0 x0 m c hc; omega
  | succ n ih =>
    intro j0 x0 m c hc
    rw [forCols]
    cases c with
    | zero =>
      rw [fp_forCols_miss A dx f width off i n (j0 + 1) (A.add x0 dx) _ _ (by omega)]
      simp [Mem.write, Buf.write, steps]
    | succ c =>
      have h := ih (j0 + 1) (A.add x0 dx) (m.write (i * width + j0 + off) (f x0)) c (by omega)
      have e : j0 + (c + 1) = j0 + 1 + c := by omega
      rw [e, h, steps_shift]

/-- The stores of a column loop: the cells of columns `j0, ..., j0 + n - 1`, in this order. -/
theorem fp_forCols_log (A : Arith) (dx : A.F) (f : A.F → ℤ) (width off i : Nat) :
    ∀ (n j0 : Nat) (x0 : A.F) (m : Mem),
      (forCols A dx (fun j x (b : Mem) => b.write (i * width + j + off) (f x)) n j0 x0 m).log
        = m.log ++ List.range' (i * width + j0 + off) n := by
  intro n
  induction n with
  | zero => intro j0 x0 m; simp [forCols]
  | succ n ih =>
    intro j0 x0 m
    rw [forCols, ih (j0 + 1) (A.add x0 dx), List.range'_succ]
    have e : i * width + (j0 + 1) + off = i * width + j0 + off + 1 := by omega
    rw [e]
    simp [Mem.write]

/-- Row `i` of the buffer after `fillRow`: column `j` holds the kernel value at the abscissa
reached from `minX` by `j` additions of `dx`. -/
theorem fp_fillRow_hit (A : Arith) (minX dx : A.F) (width off i : Nat) (y : A.F) (m : Mem)
    (j : Nat) (hj : j < width) :
    (fillRow A minX dx width off i y m).buf (i * width + j + off)
      = mandelbrot A (steps A minX dx j) y := by
  have h := fp_forCols_hit A dx (fun x => mandelbrot A x y) width off i width 0 minX m j hj
  rw [Nat.zero_add] at h
  exact h

/-- The function `fillRow` changes no cell outside row `i`. -/
theorem fp_fillRow_miss (A : Arith) (minX dx : A.F) (width off i : Nat) (y : A.F) (m : Mem)
    (k : Nat) (hk : k < i * width + off ∨ i * width + width + off ≤ k) :
    (fillRow A minX dx width off i y m).buf k = m.buf k :=
  fp_forCols_miss A dx (fun x => mandelbrot A x y) width off i width 0 minX m k (by omega)

/-- The stores of `fillRow`: the `width` cells of row `i`, in order. -/
theorem fp_fillRow_log (A : Arith) (minX dx : A.F) (width off i : Nat) (y : A.F) (m : Mem) :
    (fillRow A minX dx width off i y m).log = m.log ++ List.range' (i * width + off) width := by
  have h := fp_forCols_log A dx (fun x => mandelbrot A x y) width off i width 0 minX m
  rw [Nat.add_zero] at h
  exact h

/-- The row loop changes no cell outside rows `i0 .. i0 + n - 1`. -/
theorem fp_forRows_miss (A : Arith) (minX minY dx dy : A.F) (height width stride off : Nat) :
    ∀ (n i0 cy0 : Nat) (m : Mem) (k : Nat),
      (k < i0 * width + off ∨ (i0 + n) * width + off ≤ k) →
      (forRows height stride
        (fun i cy t => fillRow A minX dx width off i (A.add (A.mul (A.ofInt (cy : ℤ)) dy) minY) t)
        n i0 cy0 m).buf k = m.buf k := by
  intro n
  induction n with
  | zero => intro i0 cy0 m k _; rfl
  | succ n ih =>
    intro i0 cy0 m k hk
    rw [forRows]
    split
    · have e1 : (i0 + 1) * width = i0 * width + width := by ring
      have e2 : (i0 + (n + 1)) * width = (i0 + 1 + n) * width := by ring_nf
      have e3 : (i0 + 1 + n) * width = i0 * width + width + n * width := by ring
      rw [ih (i0 + 1) (cy0 + stride) _ k (by omega)]
      exact fp_fillRow_miss _ _ _ _ _ _ _ _ _ (by omega)
    · rfl

/-- Local row `i0 + c` after the row loop, when the guard `cy < height` lets iteration `c` run:
column `j` holds the kernel value of grid row `cy0 + c*stride`. -/
theorem fp_forRows_hit (A : Arith) (minX minY dx dy : A.F) (height width stride off : Nat) :
    ∀ (n i0 cy0 : Nat) (m : Mem) (c j : Nat), c < n → j < width →
      cy0 + c * stride < height →
      (forRows height stride
        (fun i cy t => fillRow A minX dx width off i (A.add (A.mul (A.ofInt (cy : ℤ)) dy) minY) t)
        n i0 cy0 m).buf ((i0 + c) * width + j + off)
        = mandelbrot A (steps A minX dx j) (rowY A minY dy (cy0 + c * stride)) := by
  intro n
  induction n with
  | zero => intro i0 cy0 m c j hc; omega
  | succ n ih =>
    intro i0 cy0 m c j hc hj hcy
    have h0 : cy0 < height := lt_of_le_of_lt (Nat.le_add_right _ _) hcy
    rw [forRows, if_pos h0]
    cases c with
    | zero =>
      have e1 : (i0 + 1) * width = i0 * width + width := by ring
      rw [fp_forRows_miss A minX minY dx dy height width stride off n (i0 + 1) (cy0 + stride) _ _
        (by left; simp only [Nat.add_zero]; omega)]
      simp only [Nat.add_zero, Nat.zero_mul]
      exact fp_fillRow_hit _ _ _ _ _ _ _ _ _ hj
    | succ c =>
      have h := ih (i0 + 1) (cy0 + stride)
        (fillRow A minX dx width off i0 (A.add (A.mul (A.ofInt (cy0 : ℤ)) dy) minY) m) c j
        (by omega) hj
        (by have e0 : cy0 + stride + c * stride = cy0 + (c + 1) * stride := by ring
            rw [e0]; exact hcy)
      have e : i0 + (c + 1) = i0 + 1 + c := by omega
      have e2 : cy0 + (c + 1) * stride = cy0 + stride + c * stride := by ring
      rw [e, e2]
      exact h

/-- The stores of a row loop whose guard lets every iteration run: the cells of the local rows
`i0, ..., i0 + n - 1`, in order. -/
theorem fp_forRows_log (A : Arith) (minX minY dx dy : A.F) (height width stride off : Nat) :
    ∀ (n i0 cy0 : Nat) (m : Mem), (∀ c, c < n → cy0 + c * stride < height) →
      (forRows height stride
        (fun i cy t => fillRow A minX dx width off i (A.add (A.mul (A.ofInt (cy : ℤ)) dy) minY) t)
        n i0 cy0 m).log = m.log ++ List.range' (i0 * width + off) (n * width) := by
  intro n
  induction n with
  | zero => intro i0 cy0 m _; simp [forRows]
  | succ n ih =>
    intro i0 cy0 m hg
    have h0 : cy0 < height := by simpa using hg 0 (Nat.succ_pos n)
    rw [forRows, if_pos h0, ih (i0 + 1) (cy0 + stride) _ (fun c hc => by
      have := hg (c + 1) (by omega)
      have e0 : cy0 + stride + c * stride = cy0 + (c + 1) * stride := by ring
      rw [e0]; exact this), fp_fillRow_log, List.append_assoc]
    congr 1
    have e1 : (n + 1) * width = n * width + width := by ring
    have e2 : (i0 + 1) * width + off = i0 * width + off + width := by ring
    rw [e1, e2, List.range'_append_1]

/-- A row loop of stride `1` runs as many iterations as the first of its two bounds allows. -/
theorem fp_forRows_cut {α : Type} (height : Nat) (body : Nat → Nat → α → α) :
    ∀ (n i0 cy0 : Nat) (a : α),
      forRows height 1 body n i0 cy0 a = forRows height 1 body (min n (height - cy0)) i0 cy0 a := by
  intro n
  induction n with
  | zero => intro i0 cy0 a; simp [forRows]
  | succ n ih =>
    intro i0 cy0 a
    by_cases hlt : cy0 < height
    · have hmin : min (n + 1) (height - cy0) = min n (height - (cy0 + 1)) + 1 := by omega
      rw [hmin]
      simp only [forRows, if_pos hlt]
      exact ih (i0 + 1) (cy0 + 1) _
    · have hmin : min (n + 1) (height - cy0) = 0 := by omega
      rw [hmin]
      simp only [forRows, if_neg hlt]

/-- The remainder loop changes no cell outside rows `i0 .. i0 + n - 1`. -/
theorem fp_forRem_miss (A : Arith) (minX dx dy : A.F) (width : Nat) :
    ∀ (n i0 : Nat) (y0 : A.F) (m : Mem) (k : Nat),
      (k < i0 * width ∨ (i0 + n) * width ≤ k) →
      (forRem A dy (fun i y r => fillRow A minX dx width 0 i y r) n i0 y0 m).buf k = m.buf k := by
  intro n
  induction n with
  | zero => intro i0 y0 m k _; rfl
  | succ n ih =>
    intro i0 y0 m k hk
    have e1 : (i0 + 1) * width = i0 * width + width := by ring
    have e2 : (i0 + (n + 1)) * width = i0 * width + width + n * width := by ring
    have e3 : (i0 + 1 + n) * width = i0 * width + width + n * width := by ring
    rw [forRem, ih (i0 + 1) (A.add y0 dy) _ k (by omega)]
    exact fp_fillRow_miss _ _ _ _ _ _ _ _ _ (by omega)

/-- Row `i0 + c` after the remainder loop: column `j` holds the kernel value at the ordinate
reached from `y0` by `c` additions of `dy`. -/
theorem fp_forRem_hit (A : Arith) (minX dx dy : A.F) (width : Nat) :
    ∀ (n i0 : Nat) (y0 : A.F) (m : Mem) (c j : Nat), c < n → j < width →
      (forRem A dy (fun i y r => fillRow A minX dx width 0 i y r) n i0 y0 m).buf
          ((i0 + c) * width + j)
        = mandelbrot A (steps A minX dx j) (steps A y0 dy c) := by
  intro n
  induction n with
  | zero => intro i0 y0 m c j hc; omega
  | succ n ih =>
    intro i0 y0 m c j hc hj
    rw [forRem]
    cases c with
    | zero =>
      have e1 : (i0 + 1) * width = i0 * width + width := by ring
      rw [fp_forRem_miss A minX dx dy width n (i0 + 1) (A.add y0 dy) _ _
        (by left; simp only [Nat.add_zero]; omega)]
      have h := fp_fillRow_hit A minX dx width 0 i0 y0 m j hj
      simp only [Nat.add_zero] at h ⊢
      rw [h]
      rfl
    | succ c =>
      have h := ih (i0 + 1) (A.add y0 dy) (fillRow A minX dx width 0 i0 y0 m) c j (by omega) hj
      have e : i0 + (c + 1) = i0 + 1 + c := by omega
      rw [e, h, steps_shift]

/-- The stores of the remainder loop: the cells of rows `i0, ..., i0 + n - 1`, in order. -/
theorem fp_forRem_log (A : Arith) (minX dx dy : A.F) (width : Nat) :
    ∀ (n i0 : Nat) (y0 : A.F) (m : Mem),
      (forRem A dy (fun i y r => fillRow A minX dx width 0 i y r) n i0 y0 m).log
        = m.log ++ List.range' (i0 * width) (n * width) := by
  intro n
  induction n with
  | zero => intro i0 y0 m; simp [forRem]
  | succ n ih =>
    intro i0 y0 m
    rw [forRem, ih (i0 + 1) (A.add y0 dy), fp_fillRow_log, List.append_assoc]
    congr 1
    have e1 : (n + 1) * width = n * width + width := by ring
    have e2 : (i0 + 1) * width = i0 * width + 0 + width := by ring
    rw [e1, e2, List.range'_append_1, Nat.add_zero]

/-- A fold of stores over a list of indices: the content. -/
theorem foldl_write_buf (g : Nat → ℤ) :
    ∀ (l : List Nat) (m : Mem) (k : Nat),
      (l.foldl (fun (b : Mem) i => b.write i (g i)) m).buf k = if k ∈ l then g k else m.buf k := by
  intro l
  induction l with
  | nil => intro m k; simp
  | cons a l ih =>
    intro m k
    rw [List.foldl_cons, ih]
    by_cases h : k ∈ l
    · simp [h]
    · by_cases hka : k = a
      · subst hka
        simp [h, Mem.write, Buf.write]
      · simp [h, hka, Mem.write, Buf.write]

/-- A fold of stores over a list of indices: the log. -/
theorem foldl_write_log (g : Nat → ℤ) :
    ∀ (l : List Nat) (m : Mem),
      (l.foldl (fun (b : Mem) i => b.write i (g i)) m).log = m.log ++ l := by
  intro l
  induction l with
  | nil => intro m; simp
  | cons a l ih =>
    intro m
    rw [List.foldl_cons, ih]
    simp [Mem.write]

/-- After the gather, cell `k` of slot `r` holds cell `k` of the buffer of rank `r`. -/
theorem fp_gather_hit (bufs : Nat → Buf) (data_size size : Nat) (results : Mem) (r k : Nat)
    (hr : r < size) (hk : k < data_size) :
    (gather bufs data_size size results).buf (r * data_size + k) = bufs r k := by
  have hlt : r * data_size + k < size * data_size := by
    have h1 : (r + 1) * data_size ≤ size * data_size := Nat.mul_le_mul_right _ hr
    have h2 : (r + 1) * data_size = r * data_size + data_size := by ring
    omega
  have hpos : 0 < data_size := by omega
  rw [gather, foldl_write_buf (fun k => bufs (k / data_size) (k % data_size)),
    if_pos (List.mem_range.mpr hlt)]
  have e1 : (r * data_size + k) / data_size = r := by
    rw [Nat.add_comm, Nat.add_mul_div_right _ _ hpos, Nat.div_eq_of_lt hk, Nat.zero_add]
  have e2 : (r * data_size + k) % data_size = k := by
    rw [Nat.add_comm, Nat.add_mul_mod_self_right, Nat.mod_eq_of_lt hk]
  rw [e1, e2]

/-- The gather leaves the cells from `size * data_size` on alone. -/
theorem fp_gather_miss (bufs : Nat → Buf) (data_size size : Nat) (results : Mem) (k : Nat)
    (hk : size * data_size ≤ k) :
    (gather bufs data_size size results).buf k = results.buf k := by
  rw [gather, foldl_write_buf (fun k => bufs (k / data_size) (k % data_size)),
    if_neg (by rw [List.mem_range]; omega)]

/-- The stores of the gather: the cells `0 .. size*data_size - 1`, in order. -/
theorem fp_gather_log (bufs : Nat → Buf) (data_size size : Nat) (results : Mem) :
    (gather bufs data_size size results).log = results.log ++ List.range (size * data_size) := by
  rw [gather, foldl_write_log (fun k => bufs (k / data_size) (k % data_size))]

end Fp

end HPC

/-! ## Arbitrary arithmetic: the static strategies -/

namespace HPC

namespace Fp

/-- The loop test of `mandelbrot` in exact arithmetic is the comparison of rationals. -/
theorem mandelbrotLoop_exact (cx cy : ℚ) :
    ∀ (n it : Nat) (x y : ℚ),
      mandelbrotLoop exactArith cx cy n it x y = HPC.mandelbrotLoop cx cy n it x y := by
  intro n
  induction n with
  | zero => intro it x y; rfl
  | succ n ih =>
    intro it x y
    rw [mandelbrotLoop, HPC.mandelbrotLoop]
    have e : (exactArith.lt (exactArith.add (exactArith.mul x x) (exactArith.mul y y))
        (exactArith.ofInt 4) = true) ↔ x * x + y * y < 4 := by
      show decide (x * x + y * y < ((4 : ℤ) : ℚ)) = true ↔ _
      rw [decide_eq_true_iff]
      norm_num
    by_cases h : x * x + y * y < 4
    · rw [if_pos (e.mpr h), if_pos h, ih]
      show HPC.mandelbrotLoop cx cy n (it + 1) (x * x - y * y + cx) (((2 : ℤ) : ℚ) * x * y + cy) = _
      norm_num
    · rw [if_neg (fun h1 => h (e.mp h1)), if_neg h]

/-- In exact arithmetic the cell the program computes for row `i` and column `j` is the kernel
value at the grid coordinate `(minX + j*dx, minY + i*dy)`. -/
theorem cell_exact (height width i j : Nat) :
    mandelbrot exactArith (steps exactArith (minX exactArith) (dxOf exactArith width) j)
        (rowY exactArith (minY exactArith) (dyOf exactArith height) i)
      = HPC.mandelbrot (HPC.minX + (j : ℚ) * HPC.dxOf width) (HPC.minY + (i : ℚ) * HPC.dyOf height) := by
  have e1 : (steps exactArith (minX exactArith) (dxOf exactArith width) j : ℚ)
      = HPC.minX + (j : ℚ) * HPC.dxOf width := by
    rw [steps_exact]
    show ((-21 : ℤ) : ℚ) / ((10 : Nat) : ℚ)
        + (j : ℚ) * ((((7 : ℤ) : ℚ) / ((10 : Nat) : ℚ) - ((-21 : ℤ) : ℚ) / ((10 : Nat) : ℚ))
          / (((width : ℤ)) : ℚ))
      = HPC.minX + (j : ℚ) * HPC.dxOf width
    simp only [HPC.minX, HPC.maxX, HPC.dxOf]
    push_cast
    ring
  have e2 : (rowY exactArith (minY exactArith) (dyOf exactArith height) i : ℚ)
      = HPC.minY + (i : ℚ) * HPC.dyOf height := by
    show (((i : ℤ)) : ℚ) * ((((5 : ℤ) : ℚ) / ((4 : Nat) : ℚ) - ((-5 : ℤ) : ℚ) / ((4 : Nat) : ℚ))
          / (((height : ℤ)) : ℚ)) + ((-5 : ℤ) : ℚ) / ((4 : Nat) : ℚ)
      = HPC.minY + (i : ℚ) * HPC.dyOf height
    simp only [HPC.minY, HPC.maxY, HPC.dyOf]
    push_cast
    ring
  unfold mandelbrot HPC.mandelbrot
  rw [mandelbrotLoop_exact, e1, e2]

namespace Block

/-- Local row `k` of the buffer filled by block `start` on rank `rank` holds the kernel values
of grid row `rank*job_size + k`. -/
theorem fp_block_start_hit (A : Arith) (temp : Mem) (minX minY dx dy : A.F)
    (height width rank size k j : Nat)
    (hr : rank < size) (hk : k < height / size) (hj : j < width) :
    (start A temp minX minY dx dy height width (height / size) rank).buf (k * width + j)
      = mandelbrot A (steps A minX dx j) (rowY A minY dy (rank * (height / size) + k)) := by
  have h := fp_forRows_hit A minX minY dx dy height width 1 0 (height / size) 0
    (rank * (height / size)) temp k j hk hj (HPC.Block.block_start_guard height size rank k hr hk)
  simp only [Nat.zero_add, Nat.add_zero, Nat.mul_one] at h
  exact h

/-- The stores of block `start`: every cell of the `job_size` local rows, once, in order. -/
theorem fp_block_start_log (A : Arith) (temp : Mem) (minX minY dx dy : A.F)
    (height width rank size : Nat) (hr : rank < size) :
    (start A temp minX minY dx dy height width (height / size) rank).log
      = temp.log ++ List.range' 0 (height / size * width) := by
  have h := fp_forRows_log A minX minY dx dy height width 1 0 (height / size) 0
    (rank * (height / size)) temp
    (fun c hc => HPC.Block.block_start_guard height size rank c hr hc)
  simp only [Nat.zero_mul, Nat.add_zero] at h
  exact h

/-- What `doRemainingRows` stores: cell `(i, j)` of a remainder row gets the kernel value at
the ordinate reached from `job_height*size*dy` by `i - job_height*size` additions of `dy`. -/
theorem fp_doRemainingRows_hit (A : Arith) (results : Mem) (size height width job_height : Nat)
    (minX minY dx dy : A.F) (i j : Nat) (hlo : job_height * size ≤ i) (hi : i < height)
    (hj : j < width) :
    (doRemainingRows A results size height width job_height minX minY dx dy).buf (i * width + j)
      = mandelbrot A (steps A minX dx j)
          (steps A (A.mul (A.ofInt ((job_height * size : Nat) : ℤ)) dy) dy
            (i - job_height * size)) := by
  have h := fp_forRem_hit A minX dx dy width (height - job_height * size) (job_height * size)
    (A.mul (A.ofInt ((job_height * size : Nat) : ℤ)) dy) results (i - job_height * size) j
    (by omega) hj
  have e : job_height * size + (i - job_height * size) = i := by omega
  rw [e] at h
  exact h

/-- The function `doRemainingRows` changes no cell of the rows below `job_height*size`, nor any
cell from row `height` on. -/
theorem fp_doRemainingRows_miss (A : Arith) (results : Mem) (size height width job_height : Nat)
    (minX minY dx dy : A.F) (k : Nat)
    (hk : k < job_height * size * width ∨
      (job_height * size + (height - job_height * size)) * width ≤ k) :
    (doRemainingRows A results size height width job_height minX minY dx dy).buf k
      = results.buf k :=
  fp_forRem_miss A minX dx dy width (height - job_height * size) (job_height * size)
    (A.mul (A.ofInt ((job_height * size : Nat) : ℤ)) dy) results k hk

/-- The stores of `doRemainingRows`: every cell of the rows `job_height*size, ..., height - 1`,
once, in order. -/
theorem fp_doRemainingRows_log (A : Arith) (results : Mem) (size height width job_height : Nat)
    (minX minY dx dy : A.F) :
    (doRemainingRows A results size height width job_height minX minY dx dy).log
      = results.log
        ++ List.range' (job_height * size * width) ((height - job_height * size) * width) :=
  fp_forRem_log A minX dx dy width (height - job_height * size) (job_height * size)
    (A.mul (A.ofInt ((job_height * size : Nat) : ℤ)) dy) results

end Block

namespace Cyclic

/-- The stores of cyclic `start`: every cell of the `job_size` local rows, once, in order. -/
theorem fp_cyclic_start_log (A : Arith) (temp : Mem) (minX minY dx dy : A.F)
    (height width rank size : Nat) (hr : rank < size) :
    (start A temp minX minY dx dy height width (height / size) rank size).log
      = temp.log ++ List.range' 0 (height / size * width) := by
  have h := fp_forRows_log A minX minY dx dy height width size 0 (height / size) 0 rank temp
    (fun c hc => HPC.Cyclic.start_guard height size rank c hr hc)
  simp only [Nat.zero_mul, Nat.add_zero] at h
  exact h

/-- The stores of the inner loop of `fixMatrix`: the cells of columns `j0 ..` of row `i`. -/
theorem fp_copyRow_log (results : Buf) (width job_height i cycNum count : Nat) :
    ∀ (n j0 : Nat) (perm : Mem),
      (copyRow results width job_height i cycNum count n j0 perm).log
        = perm.log ++ List.range' (i * width + j0) n := by
  intro n
  induction n with
  | zero => intro j0 perm; simp [copyRow]
  | succ n ih =>
    intro j0 perm
    rw [copyRow, ih (j0 + 1), List.range'_succ]
    have e : i * width + (j0 + 1) = i * width + j0 + 1 := by omega
    rw [e]
    simp [Mem.write]

/-- The stores of the outer loop of `fixMatrix`: the cells of rows `i0, ..., i0 + n - 1`. -/
theorem fp_fixLoop_log (results : Buf) (size width job_height : Nat) :
    ∀ (n i0 cycNum count : Nat) (perm : Mem),
      (fixLoop results size width job_height n i0 cycNum count perm).log
        = perm.log ++ List.range' (i0 * width) (n * width) := by
  intro n
  induction n with
  | zero => intro i0 cycNum count perm; simp [fixLoop]
  | succ n ih =>
    intro i0 cycNum count perm
    have e1 : (n + 1) * width = n * width + width := by ring
    have e2 : (i0 + 1) * width = i0 * width + width := by ring
    rw [fixLoop]
    split
    · rw [ih, fp_copyRow_log, List.append_assoc, Nat.add_zero, e1, e2, List.range'_append_1]
    · rw [ih, fp_copyRow_log, List.append_assoc, Nat.add_zero, e1, e2, List.range'_append_1]

/-- The stores of `fixMatrix`: every cell of the rows `0 .. job_height*size - 1` of
`permresults`, once, in order. -/
theorem fp_fixMatrix_log (results : Buf) (permresults : Mem) (size width job_height : Nat) :
    (fixMatrix results permresults size width job_height).log
      = permresults.log ++ List.range' 0 (job_height * size * width) := by
  have h := fp_fixLoop_log results size width job_height (job_height * size) 0 0 0 permresults
  rw [Nat.zero_mul] at h
  exact h

end Cyclic

/-- The rows below `job_size*size` and the remainder rows together are the grid. -/
theorem range_append_rem (height width size : Nat) :
    List.range' 0 (height / size * size * width)
        ++ List.range' (height / size * size * width) ((height - height / size * size) * width)
      = List.range (height * width) := by
  have h1 : height / size * size ≤ height := Nat.div_mul_le_self _ _
  have e : height * width
      = (height - height / size * size) * width + height / size * size * width := by
    rw [← Nat.add_mul]
    congr 1
    omega
  have h := List.range'_append_1 0 (height / size * size * width)
    ((height - height / size * size) * width)
  rw [Nat.zero_add] at h
  rw [h, List.range_eq_range', e]

end Fp

end HPC

/-! ## Block partition and coverage of the static strategies, on the stores made -/

namespace HPC

/-- C4. Block partition correctness, for every arithmetic of `double`.  For `height > 0`,
`N ≥ 1` and `jobSize = height / N`: block `start` on rank `r < N` runs its body for the rows
`r*jobSize + k`, `k < jobSize`, and stores in its local row `k` the kernel values of row
`r*jobSize + k`, that is `mandelbrot(x_j, (r*jobSize + k)*dy + minY)` with `x_j` reached from
`minX` by `j` additions of `dx`; after the gather, grid row `i < jobSize*N` is local row
`i % jobSize` of rank `i / jobSize` and holds the kernel values of row `i`, also in the final
grid; the gather stores to the cells below row `jobSize*N` and to no other, and leaves the
others as they were; `doRemainingRows` stores to every cell of the rows
`jobSize*N, ..., height - 1`, once each, and to no other cell, changes nothing below row
`jobSize*N`, and the final grid holds in those rows what `doRemainingRows` computes.  In exact
arithmetic the kernel value of row `i`, column `j` is `mandelbrot(minX + j*dx, minY + i*dy)`. -/
theorem block_partition_correct (A : Arith) (height width N : Nat) (hh : 0 < height)
    (hN : 1 ≤ N) (localInit : Nat → Buf) (gridInit : Buf) :
    (∀ r, r < N → Block.startRows height (height / N) r
        = (List.range (height / N)).map (fun k => r * (height / N) + k))
      ∧ (∀ r k j, r < N → k < height / N → j < width →
          (Fp.Block.start A (Mem.fresh (localInit r)) (Fp.minX A) (Fp.minY A) (Fp.dxOf A width)
              (Fp.dyOf A height) height width (height / N) r).buf (k * width + j)
            = Fp.mandelbrot A (Fp.steps A (Fp.minX A) (Fp.dxOf A width) j)
                (Fp.rowY A (Fp.minY A) (Fp.dyOf A height) (r * (height / N) + k)))
      ∧ (∀ i j, i < height / N * N → j < width →
          (Fp.gather (fun r => (Fp.Block.start A (Mem.fresh (localInit r)) (Fp.minX A)
              (Fp.minY A) (Fp.dxOf A width) (Fp.dyOf A height) height width (height / N) r).buf)
              (height / N * width) N (Mem.fresh gridInit)).buf (i * width + j)
            = (Fp.Block.start A (Mem.fresh (localInit (i / (height / N)))) (Fp.minX A)
                (Fp.minY A) (Fp.dxOf A width) (Fp.dyOf A height) height width (height / N)
                (i / (height / N))).buf (i % (height / N) * width + j)
          ∧ (Fp.gather (fun r => (Fp.Block.start A (Mem.fresh (localInit r)) (Fp.minX A)
              (Fp.minY A) (Fp.dxOf A width) (Fp.dyOf A height) height width (height / N) r).buf)
              (height / N * width) N (Mem.fresh gridInit)).buf (i * width + j)
            = Fp.mandelbrot A (Fp.steps A (Fp.minX A) (Fp.dxOf A width) j)
                (Fp.rowY A (Fp.minY A) (Fp.dyOf A height) i)
          ∧ (Fp.Block.grid A height width N localInit gridInit).buf (i * width + j)
            = Fp.mandelbrot A (Fp.steps A (Fp.minX A) (Fp.dxOf A width) j)
                (Fp.rowY A (Fp.minY A) (Fp.dyOf A height) i))
      ∧ (Fp.gather (fun r => (Fp.Block.start A (Mem.fresh (localInit r)) (Fp.minX A)
            (Fp.minY A) (Fp.dxOf A width) (Fp.dyOf A height) height width (height / N) r).buf)
            (height / N * width) N (Mem.fresh gridInit)).log
          = List.range (height / N * N * width)
      ∧ (∀ k, height / N * N * width ≤ k →
          (Fp.gather (fun r => (Fp.Block.start A (Mem.fresh (localInit r)) (Fp.minX A)
              (Fp.minY A) (Fp.dxOf A width) (Fp.dyOf A height) height width (height / N) r).buf)
              (height / N * width) N (Mem.fresh gridInit)).buf k = gridInit k)
      ∧ (∀ (results : Mem),
          (Fp.Block.doRemainingRows A results N height width (height / N) (Fp.minX A) (Fp.minY A)
              (Fp.dxOf A width) (Fp.dyOf A height)).log
            = results.log
              ++ List.range' (height / N * N * width) ((height - height / N * N) * width))
      ∧ (∀ (results : Mem) k, k < height / N * N * width →
          (Fp.Block.doRemainingRows A results N height width (height / N) (Fp.minX A) (Fp.minY A)
              (Fp.dxOf A width) (Fp.dyOf A height)).buf k = results.buf k)
      ∧ (Fp.Block.grid A height width N localInit gridInit).log
          = List.range (height / N * N * width)
            ++ List.range' (height / N * N * width) ((height - height / N * N) * width)
      ∧ (∀ i j, height / N * N ≤ i → i < height → j < width →
          (Fp.Block.grid A height width N localInit gridInit).buf (i * width + j)
            = Fp.mandelbrot A (Fp.steps A (Fp.minX A) (Fp.dxOf A width) j)
                (Fp.steps A (A.mul (A.ofInt ((height / N * N : Nat) : ℤ)) (Fp.dyOf A height))
                  (Fp.dyOf A height) (i - height / N * N)))
      ∧ Block.remRows N height (height / N) (dyOf height)
          = List.range' (height / N * N) (height - height / N * N)
      ∧ (∀ i j : Nat,
          Fp.mandelbrot exactArith
              (Fp.steps exactArith (Fp.minX exactArith) (Fp.dxOf exactArith width) j)
              (Fp.rowY exactArith (Fp.minY exactArith) (Fp.dyOf exactArith height) i)
            = mandelbrot (minX + (j : ℚ) * dxOf width) (minY + (i : ℚ) * dyOf height)) := by
  have hstart : ∀ r k j, r < N → k < height / N → j < width →
      (Fp.Block.start A (Mem.fresh (localInit r)) (Fp.minX A) (Fp.minY A) (Fp.dxOf A width)
          (Fp.dyOf A height) height width (height / N) r).buf (k * width + j)
        = Fp.mandelbrot A (Fp.steps A (Fp.minX A) (Fp.dxOf A width) j)
            (Fp.rowY A (Fp.minY A) (Fp.dyOf A height) (r * (height / N) + k)) := by
    intro r k j hr hk hj
    exact Fp.Block.fp_block_start_hit A _ _ _ _ _ height width r N k j hr hk hj
  have hgather : ∀ i j, i < height / N * N → j < width →
      (Fp.gather (fun r => (Fp.Block.start A (Mem.fresh (localInit r)) (Fp.minX A)
          (Fp.minY A) (Fp.dxOf A width) (Fp.dyOf A height) height width (height / N) r).buf)
          (height / N * width) N (Mem.fresh gridInit)).buf (i * width + j)
        = (Fp.Block.start A (Mem.fresh (localInit (i / (height / N)))) (Fp.minX A)
            (Fp.minY A) (Fp.dxOf A width) (Fp.dyOf A height) height width (height / N)
            (i / (height / N))).buf (i % (height / N) * width + j) := by
    intro i j hi hj
    have hjs : 0 < height / N := by
      rcases Nat.eq_zero_or_pos (height / N) with h | h
      · rw [h] at hi; omega
      · exact h
    have hr : i / (height / N) < N := Nat.div_lt_of_lt_mul hi
    have hm : i % (height / N) < height / N := Nat.mod_lt _ hjs
    have hk : i % (height / N) * width + j < height / N * width := by
      have h1 : (i % (height / N) + 1) * width ≤ height / N * width :=
        Nat.mul_le_mul_right _ hm
      have h2 : (i % (height / N) + 1) * width = i % (height / N) * width + width := by ring
      omega
    have h := Fp.fp_gather_hit (fun r => (Fp.Block.start A (Mem.fresh (localInit r)) (Fp.minX A)
      (Fp.minY A) (Fp.dxOf A width) (Fp.dyOf A height) height width (height / N) r).buf)
      (height / N * width) N (Mem.fresh gridInit) (i / (height / N))
      (i % (height / N) * width + j) hr hk
    have e : i * width + j
        = i / (height / N) * (height / N * width) + (i % (height / N) * width + j) := by
      have e0 : i / (height / N) * (height / N * width) + (i % (height / N) * width + j)
          = (height / N * (i / (height / N)) + i % (height / N)) * width + j := by ring
      rw [e0, Nat.div_add_mod]
    rw [e]
    exact h
  have hval : ∀ i j, i < height / N * N → j < width →
      (Fp.gather (fun r => (Fp.Block.start A (Mem.fresh (localInit r)) (Fp.minX A)
          (Fp.minY A) (Fp.dxOf A width) (Fp.dyOf A height) height width (height / N) r).buf)
          (height / N * width) N (Mem.fresh gridInit)).buf (i * width + j)
        = Fp.mandelbrot A (Fp.steps A (Fp.minX A) (Fp.dxOf A width) j)
            (Fp.rowY A (Fp.minY A) (Fp.dyOf A height) i) := by
    intro i j hi hj
    have hjs : 0 < height / N := by
      rcases Nat.eq_zero_or_pos (height / N) with h | h
      · rw [h] at hi; omega
      · exact h
    rw [hgather i j hi hj, hstart _ _ j (Nat.div_lt_of_lt_mul hi) (Nat.mod_lt _ hjs) hj]
    have e : i / (height / N) * (height / N) + i % (height / N) = i := by
      rw [Nat.mul_comm]; exact Nat.div_add_mod i (height / N)
    rw [e]
  have hglog : (Fp.gather (fun r => (Fp.Block.start A (Mem.fresh (localInit r)) (Fp.minX A)
        (Fp.minY A) (Fp.dxOf A width) (Fp.dyOf A height) height width (height / N) r).buf)
        (height / N * width) N (Mem.fresh gridInit)).log
      = List.range (height / N * N * width) := by
    rw [Fp.fp_gather_log]
    have e : N * (height / N * width) = height / N * N * width := by ring
    rw [e]
    rfl
  have hmiss : ∀ (results : Mem) k, k < height / N * N * width →
      (Fp.Block.doRemainingRows A results N height width (height / N) (Fp.minX A) (Fp.minY A)
          (Fp.dxOf A width) (Fp.dyOf A height)).buf k = results.buf k := by
    intro results k hk
    exact Fp.Block.fp_doRemainingRows_miss A results N height width (height / N) _ _ _ _ k
      (Or.inl hk)
  have hrlog : ∀ (results : Mem),
      (Fp.Block.doRemainingRows A results N height width (height / N) (Fp.minX A) (Fp.minY A)
          (Fp.dxOf A width) (Fp.dyOf A height)).log
        = results.log
          ++ List.range' (height / N * N * width) ((height - height / N * N) * width) :=
    fun results => Fp.Block.fp_doRemainingRows_log A results N height width (height / N) _ _ _ _
  refine ⟨fun r hr => Block.block_startRows_eq height N r hr, hstart, ?_, hglog, ?_, hrlog,
    hmiss, ?_, ?_, Block.block_remRows_eq N height (height / N) (dyOf height),
    fun i j => Fp.cell_exact height width i j⟩
  · intro i j hi hj
    refine ⟨hgather i j hi hj, hval i j hi hj, ?_⟩
    have hlt : i * width + j < height / N * N * width := by
      have h1 : (i + 1) * width ≤ height / N * N * width := Nat.mul_le_mul_right _ hi
      have h2 : (i + 1) * width = i * width + width := by ring
      omega
    have hg : (Fp.Block.grid A height width N localInit gridInit).buf (i * width + j)
        = (Fp.gather (fun r => (Fp.Block.start A (Mem.fresh (localInit r)) (Fp.minX A)
            (Fp.minY A) (Fp.dxOf A width) (Fp.dyOf A height) height width (height / N) r).buf)
            (height / N * width) N (Mem.fresh gridInit)).buf (i * width + j) :=
      hmiss _ _ hlt
    rw [hg]
    exact hval i j hi hj
  · intro k hk
    have e : N * (height / N * width) = height / N * N * width := by ring
    exact Fp.fp_gather_miss _ _ _ _ _ (by rw [e]; exact hk)
  · show (Fp.Block.doRemainingRows A _ N height width (height / N) (Fp.minX A) (Fp.minY A)
      (Fp.dxOf A width) (Fp.dyOf A height)).log = _
    rw [hrlog, hglog]
  · intro i j hlo hi hj
    exact Fp.Block.fp_doRemainingRows_hit A _ N height width (height / N) (Fp.minX A)
      (Fp.minY A) (Fp.dxOf A width) (Fp.dyOf A height) i j hlo hi hj

/-- Witness for C4: `height = 10`, `width = 4`, `N = 3` in `binary64`, so `jobSize = 3`: the
ranks compute the rows `0-2`, `3-5`, `6-8`, the gather stores to the `36` cells of the rows
`0 .. 8`, and `doRemainingRows` stores to the `4` cells of row `9`. -/
theorem block_partition_correct_witness :
    (0 < 10 ∧ 1 ≤ 3)
      ∧ Block.startRows 10 (10 / 3) 0 = [0, 1, 2]
      ∧ Block.startRows 10 (10 / 3) 1 = [3, 4, 5]
      ∧ Block.startRows 10 (10 / 3) 2 = [6, 7, 8]
      ∧ (Fp.Block.grid binary64 10 4 3 (fun _ _ => 0) (fun _ => 0)).log
          = List.range 36 ++ [36, 37, 38, 39]
      ∧ (Fp.Block.grid binary64 10 4 3 (fun _ _ => 0) (fun _ => 0)).buf (5 * 4 + 1)
          = Fp.mandelbrot binary64 (Fp.steps binary64 (Fp.minX binary64) (Fp.dxOf binary64 4) 1)
              (Fp.rowY binary64 (Fp.minY binary64) (Fp.dyOf binary64 10) 5)
      ∧ (Fp.Block.grid binary64 10 4 3 (fun _ _ => 0) (fun _ => 0)).buf (9 * 4 + 1)
          = Fp.mandelbrot binary64 (Fp.steps binary64 (Fp.minX binary64) (Fp.dxOf binary64 4) 1)
              (Fp.steps binary64
                (binary64.mul (binary64.ofInt ((10 / 3 * 3 : Nat) : ℤ)) (Fp.dyOf binary64 10))
                (Fp.dyOf binary64 10) (9 - 10 / 3 * 3)) :=
  have h := block_partition_correct binary64 10 4 3 (by decide) (by decide)
    (fun _ _ => 0) (fun _ => 0)
  ⟨⟨by decide, by decide⟩, h.1 0 (by decide), h.1 1 (by decide), h.1 2 (by decide),
    h.2.2.2.2.2.2.2.1, (h.2.2.1 5 1 (by decide) (by decide)).2.2,
    h.2.2.2.2.2.2.2.2.1 9 1 (by decide) (by decide) (by decide)⟩

/-- C12. Coverage of the static strategies, read off the stores the functions make.  For
`height, width > 0`, `N ≥ 1`, `jobSize = height / N` and every arithmetic of `double`: in the
block strategy the stores to the grid before rendering are those of the gather, to the indices
`0, ..., jobSize*N*width - 1`, followed by those of `doRemainingRows`, to the rest; in the
cyclic strategy those of `fixMatrix` followed by those of `doRemainingRows`; either list is
`0, 1, ..., height*width - 1`, so every index of the grid is stored to exactly once and no
other index is.  On every rank `r < N` the guard `cy < height` never cuts the loop of `start`
short: `start` stores once to every cell `0, ..., jobSize*width - 1` of its buffer, the cells
the gather sends, and every gathered cell holds what `start` stored. -/
theorem static_strategies_coverage (A : Arith) (height width N : Nat) (hh : 0 < height)
    (hw : 0 < width) (hN : 1 ≤ N) (localInit : Nat → Buf) (gridInit gatherInit permInit : Buf) :
    (Fp.gather (fun r => (Fp.Block.start A (Mem.fresh (localInit r)) (Fp.minX A) (Fp.minY A)
          (Fp.dxOf A width) (Fp.dyOf A height) height width (height / N) r).buf)
          (height / N * width) N (Mem.fresh gridInit)).log
        = List.range (height / N * N * width)
      ∧ (∀ (results : Mem),
          (Fp.Block.doRemainingRows A results N height width (height / N) (Fp.minX A) (Fp.minY A)
              (Fp.dxOf A width) (Fp.dyOf A height)).log
            = results.log
              ++ List.range' (height / N * N * width) ((height - height / N * N) * width))
      ∧ (Fp.Block.grid A height width N localInit gridInit).log = List.range (height * width)
      ∧ (∀ (results : Buf),
          (Fp.Cyclic.fixMatrix results (Mem.fresh permInit) N width (height / N)).log
            = List.range (height / N * N * width))
      ∧ (∀ (results : Mem),
          (Fp.Cyclic.doRemainingRows A results N height width (height / N) (Fp.minX A)
              (Fp.minY A) (Fp.dxOf A width) (Fp.dyOf A height)).log
            = results.log
              ++ List.range' (height / N * N * width) ((height - height / N * N) * width))
      ∧ (Fp.Cyclic.grid A height width N localInit gatherInit permInit).2.log
          = List.range (height * width)
      ∧ (∀ k, (k < height * width →
            List.count k (Fp.Block.grid A height width N localInit gridInit).log = 1
              ∧ List.count k
                (Fp.Cyclic.grid A height width N localInit gatherInit permInit).2.log = 1)
          ∧ (height * width ≤ k →
            List.count k (Fp.Block.grid A height width N localInit gridInit).log = 0
              ∧ List.count k
                (Fp.Cyclic.grid A height width N localInit gatherInit permInit).2.log = 0))
      ∧ (∀ r, r < N →
          (Fp.Block.start A (Mem.fresh (localInit r)) (Fp.minX A) (Fp.minY A) (Fp.dxOf A width)
              (Fp.dyOf A height) height width (height / N) r).log
            = List.range (height / N * width)
          ∧ (Fp.Cyclic.start A (Mem.fresh (localInit r)) (Fp.minX A) (Fp.minY A)
              (Fp.dxOf A width) (Fp.dyOf A height) height width (height / N) r N).log
            = List.range (height / N * width))
      ∧ (∀ r k, r < N → k < height / N * width →
          (Fp.gather (fun r => (Fp.Block.start A (Mem.fresh (localInit r)) (Fp.minX A)
              (Fp.minY A) (Fp.dxOf A width) (Fp.dyOf A height) height width (height / N) r).buf)
              (height / N * width) N (Mem.fresh gridInit)).buf (r * (height / N * width) + k)
            = (Fp.Block.start A (Mem.fresh (localInit r)) (Fp.minX A) (Fp.minY A)
                (Fp.dxOf A width) (Fp.dyOf A height) height width (height / N) r).buf k
          ∧ (Fp.Cyclic.grid A height width N localInit gatherInit permInit).1.buf
              (r * (height / N * width) + k)
            = (Fp.Cyclic.start A (Mem.fresh (localInit r)) (Fp.minX A) (Fp.minY A)
                (Fp.dxOf A width) (Fp.dyOf A height) height width (height / N) r N).buf k) := by
  have e : N * (height / N * width) = height / N * N * width := by ring
  have hglog : (Fp.gather (fun r => (Fp.Block.start A (Mem.fresh (localInit r)) (Fp.minX A)
        (Fp.minY A) (Fp.dxOf A width) (Fp.dyOf A height) height width (height / N) r).buf)
        (height / N * width) N (Mem.fresh gridInit)).log
      = List.range (height / N * N * width) := by
    rw [Fp.fp_gather_log, e]
    rfl
  have hblock : (Fp.Block.grid A height width N localInit gridInit).log
      = List.range (height * width) := by
    show (Fp.Block.doRemainingRows A _ N height width (height / N) (Fp.minX A) (Fp.minY A)
      (Fp.dxOf A width) (Fp.dyOf A height)).log = _
    rw [Fp.Block.fp_doRemainingRows_log, hglog, List.range_eq_range',
      Fp.range_append_rem height width N]
  have hfix : ∀ (results : Buf),
      (Fp.Cyclic.fixMatrix results (Mem.fresh permInit) N width (height / N)).log
        = List.range (height / N * N * width) := by
    intro results
    rw [Fp.Cyclic.fp_fixMatrix_log, List.range_eq_range']
    rfl
  have hcyc : (Fp.Cyclic.grid A height width N localInit gatherInit permInit).2.log
      = List.range (height * width) := by
    show (Fp.forRem A _ _ _ _ _ (Fp.Cyclic.fixMatrix _ (Mem.fresh permInit) N width
      (height / N))).log = _
    rw [Fp.fp_forRem_log, hfix, List.range_eq_range', Fp.range_append_rem height width N]
  refine ⟨hglog, fun results => Fp.Block.fp_doRemainingRows_log A results N height width
      (height / N) _ _ _ _, hblock, hfix, fun results => Fp.fp_forRem_log A _ _ _ width _ _ _
      results, hcyc, ?_, ?_, ?_⟩
  · intro k
    rw [hblock, hcyc]
    constructor
    · intro hk
      have h1 := List.count_eq_one_of_mem (List.nodup_range (height * width))
        (List.mem_range.mpr hk)
      exact ⟨h1, h1⟩
    · intro hk
      have h0 : List.count k (List.range (height * width)) = 0 :=
        List.count_eq_zero_of_not_mem (by rw [List.mem_range]; omega)
      exact ⟨h0, h0⟩
  · intro r hr
    constructor
    · rw [Fp.Block.fp_block_start_log A _ _ _ _ _ height width r N hr, List.range_eq_range']
      rfl
    · rw [Fp.Cyclic.fp_cyclic_start_log A _ _ _ _ _ height width r N hr, List.range_eq_range']
      rfl
  · intro r k hr hk
    exact ⟨Fp.fp_gather_hit _ _ _ _ r k hr hk, Fp.fp_gather_hit _ _ _ _ r k hr hk⟩

/-- Witness for C12: `height = 10`, `width = 4`, `N = 3` in `binary64`: the `40` cells of the
grid are stored to once each, in both strategies, and rank `2` stores to the `12` cells of its
buffer. -/
theorem static_strategies_coverage_witness :
    (0 < 10 ∧ 0 < 4 ∧ 1 ≤ 3)
      ∧ (Fp.Block.grid binary64 10 4 3 (fun _ _ => 0) (fun _ => 0)).log = List.range (10 * 4)
      ∧ (Fp.Cyclic.grid binary64 10 4 3 (fun _ _ => 0) (fun _ => 0) (fun _ => 0)).2.log
          = List.range (10 * 4)
      ∧ (Fp.Block.start binary64 (Mem.fresh ((fun _ _ => 0) 2)) (Fp.minX binary64)
            (Fp.minY binary64) (Fp.dxOf binary64 4) (Fp.dyOf binary64 10) 10 4 (10 / 3) 2).log
          = List.range (10 / 3 * 4)
      ∧ (Fp.Cyclic.start binary64 (Mem.fresh ((fun _ _ => 0) 2)) (Fp.minX binary64)
            (Fp.minY binary64) (Fp.dxOf binary64 4) (Fp.dyOf binary64 10) 10 4 (10 / 3) 2 3).log
          = List.range (10 / 3 * 4) :=
  have h := static_strategies_coverage binary64 10 4 3 (by decide) (by decide) (by decide)
    (fun _ _ => 0) (fun _ => 0) (fun _ => 0) (fun _ => 0)
  ⟨⟨by decide, by decide, by decide⟩, h.2.2.1, h.2.2.2.2.2.1,
    (h.2.2.2.2.2.2.2.1 2 (by decide)).1, (h.2.2.2.2.2.2.2.1 2 (by decide)).2⟩

end HPC

/-! ## Arbitrary arithmetic: the kernel -/

namespace HPC

namespace Fp

/-- The loop of `mandelbrot`, entered with counter `it` and the iterate `orbit cx cy it`:
it returns a count between `it` and `it + n`, the loop test holds at every iterate before the
returned count, and a count below `it + n` is returned only at an iterate at which the loop
test fails. -/
theorem fp_mandelbrotLoop_orbit (A : Arith) (cx cy : A.F) :
    ∀ (n it : Nat) (x y : A.F), (x, y) = orbit A cx cy it →
      it ≤ mandelbrotLoop A cx cy n it x y
        ∧ mandelbrotLoop A cx cy n it x y ≤ it + n
        ∧ (mandelbrotLoop A cx cy n it x y < it + n →
            A.lt (normSq A (orbit A cx cy (mandelbrotLoop A cx cy n it x y))) (A.ofInt 4)
              = false)
        ∧ (∀ k, it ≤ k → k < mandelbrotLoop A cx cy n it x y →
            A.lt (normSq A (orbit A cx cy k)) (A.ofInt 4) = true) := by
  intro n
  induction n with
  | zero =>
    intro it x y _
    refine ⟨Nat.le_refl _, Nat.le_refl _, fun h => ?_, fun k h1 h2 => ?_⟩
    · simp [mandelbrotLoop] at h
    · simp only [mandelbrotLoop] at h2
      omega
  | succ n ih =>
    intro it x y hxy
    have hx : (orbit A cx cy it).1 = x := by rw [← hxy]
    have hy : (orbit A cx cy it).2 = y := by rw [← hxy]
    rw [mandelbrotLoop]
    by_cases hlt : A.lt (A.add (A.mul x x) (A.mul y y)) (A.ofInt 4) = true
    · rw [if_pos hlt]
      have hnext : (A.add (A.sub (A.mul x x) (A.mul y y)) cx,
          A.add (A.mul (A.mul (A.ofInt 2) x) y) cy) = orbit A cx cy (it + 1) := by
        rw [orbit, hx, hy]
      obtain ⟨h1, h2, h3, h4⟩ := ih (it + 1) _ _ hnext
      refine ⟨by omega, by omega, fun h => h3 (by omega), fun k hk1 hk2 => ?_⟩
      rcases Nat.eq_or_lt_of_le hk1 with heq | hgt
      · rw [← heq, normSq, hx, hy]
        exact hlt
      · exact h4 k hgt hk2
    · rw [if_neg hlt]
      refine ⟨Nat.le_refl _, by omega, fun _ => ?_, fun k h1 h2 => by omega⟩
      rw [normSq, hx, hy]
      exact Bool.eq_false_iff.mpr hlt

/-- The function `mandelbrot` returns `0` exactly when the loop test fails at the input. -/
theorem fp_mandelbrot_eq_zero_iff (A : Arith) (x y : A.F) :
    mandelbrot A x y = 0 ↔ A.lt (A.add (A.mul x x) (A.mul y y)) (A.ofInt 4) = false := by
  obtain ⟨_, _, h3, h4⟩ := fp_mandelbrotLoop_orbit A x y 511 0 x y rfl
  unfold mandelbrot
  constructor
  · intro h0
    have h0n : mandelbrotLoop A x y 511 0 x y = 0 := by exact_mod_cast h0
    have h := h3 (by omega)
    rw [h0n] at h
    exact h
  · intro hf
    have hne : ¬ A.lt (A.add (A.mul x x) (A.mul y y)) (A.ofInt 4) = true := by
      rw [hf]; exact Bool.false_ne_true
    have h0n : mandelbrotLoop A x y 511 0 x y = 0 := by
      rw [mandelbrotLoop, if_neg hne]
    rw [h0n]
    rfl

end Fp

/-- The `binary64` value of the `int` `4`. -/
theorem B64.ofInt_four : B64.ofInt 4 = B64.fin 4 0 := by
  rfl

/-- In `binary64`, for an operand that is not NaN, the test `s < 4` fails exactly when
`s >= 4`. -/
theorem B64.lt_four_false_iff (m e : ℤ) :
    B64.lt (B64.fin m e) (B64.ofInt 4) = false ↔ B64.le (B64.ofInt 4) (B64.fin m e) = true := by
  rw [B64.ofInt_four]
  simp only [B64.lt, B64.le, min_comm (0 : ℤ) e, decide_eq_false_iff_not, decide_eq_true_iff,
    not_lt]

end HPC

/-! ## The kernel: range of the count -/

set_option maxRecDepth 100000

namespace HPC

/-- C14, the claim as stated fails.  In `binary64`, at the input
`x = 0x1.6a09e667f3bcdp+0`, `y = 0x1.6a09e667f3bccp+0`, `mandelbrot` returns `0` although the
squared modulus `x*x + y*y` of the input is below `4`: the two products round to a sum of
exactly `4.0`, and the loop test compares the rounded sum.  And at a NaN input `mandelbrot`
returns `0` although the comparison `x*x + y*y >= 4`, evaluated in `binary64`, is false. -/
theorem mandelbrot_zero_iff_as_stated_fails :
    (Fp.mandelbrot binary64 (B64.fin 0x16a09e667f3bcd (-52)) (B64.fin 0x16a09e667f3bcc (-52)) = 0
        ∧ ¬ (4 ≤ (B64.fin 0x16a09e667f3bcd (-52)).toRat * (B64.fin 0x16a09e667f3bcd (-52)).toRat
            + (B64.fin 0x16a09e667f3bcc (-52)).toRat * (B64.fin 0x16a09e667f3bcc (-52)).toRat))
      ∧ (Fp.mandelbrot binary64 B64.nan B64.nan = 0
        ∧ ¬ (binary64.le (binary64.ofInt 4)
            (binary64.add (binary64.mul B64.nan B64.nan) (binary64.mul B64.nan B64.nan))
              = true)) := by
  refine ⟨⟨?_, ?_⟩, ?_, ?_⟩
  · rw [Fp.fp_mandelbrot_eq_zero_iff]
    decide
  · simp only [B64.toRat]
    norm_num
  · rw [Fp.fp_mandelbrot_eq_zero_iff]
    decide
  · decide

/-- C14, amended.  Kernel range, for every arithmetic of `double` and every input: the loop
of `mandelbrot` returns a count `it` with `0 ≤ it ≤ 511`; the loop test `x*x + y*y < 4`, as
the arithmetic computes it, holds at every iterate before step `it`; a count below `511` is
returned only when the test fails at the iterate reached at step `it`; and `0` is returned
exactly when the test fails at the input.  In `binary64`, for a computed sum `s` that is not
NaN, and in exact arithmetic, the test `s < 4` fails exactly when `s >= 4`. -/
theorem mandelbrot_range :
    (∀ (A : Arith) (x y : A.F),
      ∃ it : Nat, Fp.mandelbrot A x y = (it : ℤ)
        ∧ 0 ≤ Fp.mandelbrot A x y ∧ Fp.mandelbrot A x y ≤ 511
        ∧ (∀ k, k < it → A.lt (Fp.normSq A (Fp.orbit A x y k)) (A.ofInt 4) = true)
        ∧ (Fp.mandelbrot A x y < 511 →
            A.lt (Fp.normSq A (Fp.orbit A x y it)) (A.ofInt 4) = false)
        ∧ (Fp.mandelbrot A x y = 0
            ↔ A.lt (A.add (A.mul x x) (A.mul y y)) (A.ofInt 4) = false))
      ∧ (∀ m e : ℤ, binary64.lt (B64.fin m e) (binary64.ofInt 4) = false
          ↔ binary64.le (binary64.ofInt 4) (B64.fin m e) = true)
      ∧ (∀ s : ℚ, exactArith.lt s (exactArith.ofInt 4) = false
          ↔ exactArith.le (exactArith.ofInt 4) s = true) := by
  refine ⟨?_, B64.lt_four_false_iff, ?_⟩
  · intro A x y
    obtain ⟨_, h2, h3, h4⟩ := Fp.fp_mandelbrotLoop_orbit A x y 511 0 x y rfl
    refine ⟨Fp.mandelbrotLoop A x y 511 0 x y, rfl, ?_, ?_, ?_, ?_,
      Fp.fp_mandelbrot_eq_zero_iff A x y⟩
    · unfold Fp.mandelbrot
      exact Int.natCast_nonneg _
    · unfold Fp.mandelbrot
      have : Fp.mandelbrotLoop A x y 511 0 x y ≤ 511 := by omega
      exact_mod_cast this
    · intro k hk
      exact h4 k (Nat.zero_le _) hk
    · intro hlt
      unfold Fp.mandelbrot at hlt
      have hlt2 : Fp.mandelbrotLoop A x y 511 0 x y < 511 := by exact_mod_cast hlt
      exact h3 (by omega)
  · intro s
    show decide (s < ((4 : ℤ) : ℚ)) = false ↔ decide (((4 : ℤ) : ℚ) ≤ s) = true
    rw [decide_eq_false_iff_not, decide_eq_true_iff, not_lt]

/-- Witness for C14: in `binary64` at `(2, 2)` the count is `0`, below `511`, the loop test
fails at the input, and the computed squared modulus `8` is `>= 4`. -/
theorem mandelbrot_range_witness :
    Fp.mandelbrot binary64 (B64.fin 2 0) (B64.fin 2 0) = 0
      ∧ binary64.lt (binary64.add (binary64.mul (B64.fin 2 0) (B64.fin 2 0))
          (binary64.mul (B64.fin 2 0) (B64.fin 2 0))) (binary64.ofInt 4) = false
      ∧ binary64.le (binary64.ofInt 4) (B64.fin 8 0) = true :=
  have h := mandelbrot_range
  have hz : binary64.lt (binary64.add (binary64.mul (B64.fin 2 0) (B64.fin 2 0))
      (binary64.mul (B64.fin 2 0) (B64.fin 2 0))) (binary64.ofInt 4) = false := by decide
  ⟨(h.1 binary64 (B64.fin 2 0) (B64.fin 2 0)).choose_spec.2.2.2.2.2.mpr hz, hz,
    (h.2.1 8 0).mp (by decide)⟩

end HPC

/-! ## Arbitrary arithmetic: the worker's task -/

namespace HPC

namespace Fp

namespace MW

/-- The function `worker` stores the offset in cell `0`. -/
theorem fp_worker_zero (A : Arith) (start : Nat) (result : Mem) (minX minY dx dy : A.F)
    (height width job_height : Nat) :
    (worker A start result minX minY dx dy height width job_height).buf 0 = (start : ℤ) := by
  simp [worker, Mem.write, Buf.write]

/-- Row `i` of the payload of `worker`, when the guard lets iteration `i` run: the kernel
values of grid row `start + i`. -/
theorem fp_worker_hit (A : Arith) (start : Nat) (result : Mem) (minX minY dx dy : A.F)
    (height width job_height i j : Nat) (hi : i < job_height) (hcy : start + i < height)
    (hj : j < width) :
    (worker A start result minX minY dx dy height width job_height).buf (i * width + j + 1)
      = mandelbrot A (steps A minX dx j) (rowY A minY dy (start + i)) := by
  have h := fp_forRows_hit A minX minY dx dy height width 1 1 job_height 0 start result i j hi hj
    (by rw [Nat.mul_one]; exact hcy)
  simp only [Nat.zero_add, Nat.mul_one] at h
  show ((forRows height 1 _ job_height 0 start result).buf.write 0 (start : ℤ))
    (i * width + j + 1) = _
  rw [Buf.write_other _ _ _ _ (Nat.succ_ne_zero _)]
  exact h

/-- The function `worker` leaves every cell behind the rows it computes as it was. -/
theorem fp_worker_frame (A : Arith) (start : Nat) (result : Mem) (minX minY dx dy : A.F)
    (height width job_height k : Nat)
    (hk : 1 + min job_height (height - start) * width ≤ k) :
    (worker A start result minX minY dx dy height width job_height).buf k = result.buf k := by
  have hne : k ≠ 0 := by omega
  show ((forRows height 1 _ job_height 0 start result).buf.write 0 (start : ℤ)) k = _
  rw [Buf.write_other _ _ _ _ hne, fp_forRows_cut]
  exact fp_forRows_miss A minX minY dx dy height width 1 1 _ 0 start result k
    (by right; rw [Nat.zero_add]; omega)

/-- The stores of `worker`: every cell of the `min(job_height, height - start)` payload rows,
once, in order, and then cell `0`. -/
theorem fp_worker_log (A : Arith) (start : Nat) (result : Mem) (minX minY dx dy : A.F)
    (height width job_height : Nat) :
    (worker A start result minX minY dx dy height width job_height).log
      = result.log ++ List.range' 1 (min job_height (height - start) * width) ++ [0] := by
  show (forRows height 1 _ job_height 0 start result).log ++ [0] = _
  rw [fp_forRows_cut, fp_forRows_log A minX minY dx dy height width 1 1 _ 0 start result
    (fun c hc => by rw [Nat.mul_one]; omega)]
  simp

end MW

end Fp

end HPC

/-! ## The contract of the worker -/

namespace HPC

/-- C11, the claim as stated fails.  In `binary64`, with `height = 50`, `width = 28` and the
constants of `main`, `worker(49, ...)` for a task of one row stores `1` in
`result[1 + 0*width + 5]`, while `kernel(minX + 5*dx, minY + (49 + 0)*dy)` is `0`, in
`binary64` and in exact arithmetic alike: the point `(-1.6, 1.2)` has squared modulus exactly
`4`, and the code reaches the abscissa of column `5` by five additions of `dx` to `minX`, a
sum whose rounding differs from that of `minX + 5*dx` and falls inside the circle. -/
theorem worker_task_contract_as_stated_fails :
    (Fp.MW.worker binary64 49 (Mem.fresh (fun _ => 0)) (Fp.minX binary64) (Fp.minY binary64)
        (Fp.dxOf binary64 28) (Fp.dyOf binary64 50) 50 28 1).buf (1 + 0 * 28 + 5) = 1
      ∧ Fp.mandelbrot binary64
          (binary64.add (Fp.minX binary64)
            (binary64.mul (binary64.ofInt 5) (Fp.dxOf binary64 28)))
          (binary64.add (Fp.minY binary64)
            (binary64.mul (binary64.ofInt ((49 + 0 : Nat) : ℤ)) (Fp.dyOf binary64 50))) = 0
      ∧ mandelbrot (minX + (5 : ℚ) * dxOf 28) (minY + ((49 + 0 : Nat) : ℚ) * dyOf 50) = 0
      ∧ (Fp.MW.worker binary64 49 (Mem.fresh (fun _ => 0)) (Fp.minX binary64) (Fp.minY binary64)
            (Fp.dxOf binary64 28) (Fp.dyOf binary64 50) 50 28 1).buf (1 + 0 * 28 + 5)
          ≠ Fp.mandelbrot binary64
              (binary64.add (Fp.minX binary64)
                (binary64.mul (binary64.ofInt 5) (Fp.dxOf binary64 28)))
              (binary64.add (Fp.minY binary64)
                (binary64.mul (binary64.ofInt ((49 + 0 : Nat) : ℤ)) (Fp.dyOf binary64 50))) := by
  have h1 : (Fp.MW.worker binary64 49 (Mem.fresh (fun _ => 0)) (Fp.minX binary64)
      (Fp.minY binary64) (Fp.dxOf binary64 28) (Fp.dyOf binary64 50) 50 28 1).buf (1 + 0 * 28 + 5)
      = 1 := by
    have e : 1 + 0 * 28 + 5 = 0 * 28 + 5 + 1 := by decide
    rw [e, Fp.MW.fp_worker_hit binary64 49 _ _ _ _ _ 50 28 1 0 5 (by decide) (by decide)
      (by decide)]
    decide
  have h2 : Fp.mandelbrot binary64
      (binary64.add (Fp.minX binary64)
        (binary64.mul (binary64.ofInt 5) (Fp.dxOf binary64 28)))
      (binary64.add (Fp.minY binary64)
        (binary64.mul (binary64.ofInt ((49 + 0 : Nat) : ℤ)) (Fp.dyOf binary64 50))) = 0 := by
    decide
  have h3 : mandelbrot (minX + (5 : ℚ) * dxOf 28) (minY + ((49 + 0 : Nat) : ℚ) * dyOf 50)
      = 0 := by
    rw [mandelbrot_eq_zero_iff]
    norm_num [minX, maxX, minY, maxY, dxOf, dyOf]
  refine ⟨h1, h2, h3, ?_⟩
  rw [h1, h2]
  decide

/-- C11, amended.  Worker task contract, for every arithmetic of `double`.  For
`0 ≤ offset < height`, `job_height ≥ 1` and `width ≥ 1`, `worker(offset, ...)` stores to the
cells of exactly `min(job_height, height - offset)` payload rows, once each, and then to
`result[0]`; it stores `mandelbrot(x_j, (offset + i)*dy + minY)` in `result[1 + i*width + j]`
for every `i` below that count and `j < width`, where `x_j` is reached from `minX` by `j`
additions of `dx`; it leaves every payload cell behind those rows as it was, and sets
`result[0] = offset`.  In exact arithmetic, with the constants of `main`, the value stored is
`mandelbrot(minX + j*dx, minY + (offset + i)*dy)`. -/
theorem worker_task_contract (A : Arith) (offset height width job_height : Nat)
    (ho : offset < height) (hjh : 1 ≤ job_height) (hw : 1 ≤ width)
    (result : Buf) (minX minY dx dy : A.F) :
    (Fp.MW.worker A offset (Mem.fresh result) minX minY dx dy height width job_height).log
        = List.range' 1 (min job_height (height - offset) * width) ++ [0]
      ∧ (∀ i j, i < min job_height (height - offset) → j < width →
          (Fp.MW.worker A offset (Mem.fresh result) minX minY dx dy height width job_height).buf
              (1 + i * width + j)
            = Fp.mandelbrot A (Fp.steps A minX dx j) (Fp.rowY A minY dy (offset + i)))
      ∧ (∀ k, 1 + min job_height (height - offset) * width ≤ k →
          (Fp.MW.worker A offset (Mem.fresh result) minX minY dx dy height width job_height).buf k
            = result k)
      ∧ (Fp.MW.worker A offset (Mem.fresh result) minX minY dx dy height width job_height).buf 0
          = (offset : ℤ)
      ∧ (∀ i j : Nat,
          Fp.mandelbrot exactArith
              (Fp.steps exactArith (Fp.minX exactArith) (Fp.dxOf exactArith width) j)
              (Fp.rowY exactArith (Fp.minY exactArith) (Fp.dyOf exactArith height) (offset + i))
            = mandelbrot (HPC.minX + (j : ℚ) * dxOf width)
                (HPC.minY + ((offset + i : Nat) : ℚ) * dyOf height)) := by
  refine ⟨?_, ?_, ?_, Fp.MW.fp_worker_zero A offset _ minX minY dx dy height width job_height,
    fun i j => Fp.cell_exact height width (offset + i) j⟩
  · rw [Fp.MW.fp_worker_log]
    rfl
  · intro i j hi hj
    have e : 1 + i * width + j = i * width + j + 1 := by omega
    rw [e, Fp.MW.fp_worker_hit A offset _ minX minY dx dy height width job_height i j
      (by omega) (by omega) hj]
  · intro k hk
    exact Fp.MW.fp_worker_frame A offset _ minX minY dx dy height width job_height k hk

/-- Witness for C11: in `binary64`, `height = 10`, tasks of `job_height = 4` rows,
`offset = 8`: the worker stores to the cells of the `min(4, 2) = 2` rows `8` and `9`. -/
theorem worker_task_contract_witness :
    (8 < 10 ∧ 1 ≤ 4 ∧ 1 ≤ 3)
      ∧ (Fp.MW.worker binary64 8 (Mem.fresh (fun _ => 0)) (Fp.minX binary64) (Fp.minY binary64)
          (Fp.dxOf binary64 3) (Fp.dyOf binary64 10) 10 3 4).log = [1, 2, 3, 4, 5, 6, 0]
      ∧ (∀ i j, i < min 4 (10 - 8) → j < 3 →
          (Fp.MW.worker binary64 8 (Mem.fresh (fun _ => 0)) (Fp.minX binary64)
              (Fp.minY binary64) (Fp.dxOf binary64 3) (Fp.dyOf binary64 10) 10 3 4).buf
              (1 + i * 3 + j)
            = Fp.mandelbrot binary64
                (Fp.steps binary64 (Fp.minX binary64) (Fp.dxOf binary64 3) j)
                (Fp.rowY binary64 (Fp.minY binary64) (Fp.dyOf binary64 10) (8 + i)))
      ∧ (∀ k, 1 + min 4 (10 - 8) * 3 ≤ k →
          (Fp.MW.worker binary64 8 (Mem.fresh (fun _ => 0)) (Fp.minX binary64)
              (Fp.minY binary64) (Fp.dxOf binary64 3) (Fp.dyOf binary64 10) 10 3 4).buf k
            = (fun _ => 0) k)
      ∧ (Fp.MW.worker binary64 8 (Mem.fresh (fun _ => 0)) (Fp.minX binary64) (Fp.minY binary64)
          (Fp.dxOf binary64 3) (Fp.dyOf binary64 10) 10 3 4).buf 0 = ((8 : Nat) : ℤ) :=
  have h := worker_task_contract binary64 8 10 3 4 (by decide) (by decide) (by decide)
    (fun _ => 0) (Fp.minX binary64) (Fp.minY binary64) (Fp.dxOf binary64 3)
    (Fp.dyOf binary64 10)
  ⟨⟨by decide, by decide, by decide⟩, h.1, h.2.1, h.2.2.1, h.2.2.2.1⟩

end HPC

/-! ## Arbitrary arithmetic: the master-worker protocol -/

namespace HPC

namespace Fp

namespace MW

/-- A dispatched one-row task keeps the protocol invariant: the state after
`MPI_Send(&jobs, ..., dest, TAG[1], ...); jobs += 1; actives++`. -/
theorem Proto.fp_send_data {A : Arith} {minX minY dx dy : A.F} {height width : Nat} {s t : HPC.MW.State} (dest : Nat)
    (h : Proto A minX minY dx dy height width s) (hlt : s.jobs < height)
    (hin : t.inflight
      = s.inflight ++ [(dest, (worker A s.jobs (Mem.fresh (s.wbuf dest)) minX minY dx dy height width 1).buf)])
    (htr : t.trace = s.trace ++ [HPC.MW.Event.send dest HPC.MW.Tag.data s.jobs])
    (hjobs : t.jobs = s.jobs + 1) (hact : t.actives = s.actives + 1) :
    Proto A minX minY dx dy height width t := by
  refine ⟨?_, ?_, ?_, ?_, ?_⟩
  · rw [hact, hin, h.actives_eq]; simp
  · omega
  · intro p hp
    rw [hin, List.mem_append, List.mem_singleton] at hp
    rcases hp with hp | rfl
    · obtain ⟨o, ho, h0, hv⟩ := h.payload p hp
      exact ⟨o, by omega, h0, hv⟩
    · refine ⟨s.jobs, by omega,
        fp_worker_zero A s.jobs (Mem.fresh (s.wbuf dest)) minX minY dx dy height width 1, ?_⟩
      intro j hj
      show (worker A s.jobs (Mem.fresh (s.wbuf dest)) minX minY dx dy height width 1).buf (j + 1) = _
      have hw := fp_worker_hit A s.jobs (Mem.fresh (s.wbuf dest)) minX minY dx dy height width 1 0 j
        (by decide) (by omega) hj
      simp only [Nat.zero_mul, Nat.zero_add, Nat.add_zero] at hw
      exact hw
  · rw [htr, hin, hjobs, HPC.MW.recvOffsets_append, List.map_append, List.range_succ]
    have h1 : HPC.MW.recvOffsets [HPC.MW.Event.send dest HPC.MW.Tag.data s.jobs] = [] := rfl
    rw [h1, List.append_nil, ← List.append_assoc]
    have h2 : List.map (fun p : Nat × Buf => (p.2 0).toNat)
        [(dest, (worker A s.jobs (Mem.fresh (s.wbuf dest)) minX minY dx dy height width 1).buf)] = [s.jobs] := by
      simp [fp_worker_zero]
    rw [h2]
    exact List.Perm.append_right _ h.offsets
  · rw [htr, hjobs, HPC.MW.dataSends_append, h.sends, List.range_succ]
    simp [HPC.MW.dataSends]


/-- The pass of the collection loop that hands out a further task. -/
theorem fp_collectBody_data (A : Arith) (minX minY dx dy : A.F) (height width job_height data_size pick : Nat)
    (s : HPC.MW.State) (slave : Nat) (payload : Buf)
    (hget : s.inflight[pick % s.inflight.length]? = some (slave, payload))
    (hlt : s.jobs < height) :
    collectBody A minX minY dx dy height width job_height data_size pick s
      = some
        { actives := s.actives - 1 + 1
          jobs := s.jobs + job_height
          result := fun k => if k < data_size then payload k else s.result k
          results := HPC.MW.fixMatrix (if 0 < data_size then payload 0 else s.result 0).toNat
            (fun k => if k < data_size then payload k else s.result k) s.results width job_height
          wbuf := fun r =>
            if r = slave then (worker A s.jobs (Mem.fresh (s.wbuf slave)) minX minY dx dy height width job_height).buf
            else s.wbuf r
          inflight := s.inflight.eraseIdx (pick % s.inflight.length)
            ++ [(slave, (worker A s.jobs (Mem.fresh (s.wbuf slave)) minX minY dx dy height width job_height).buf)]
          trace := s.trace
            ++ [HPC.MW.Event.recv slave (if 0 < data_size then payload 0 else s.result 0).toNat]
            ++ [HPC.MW.Event.send slave HPC.MW.Tag.data s.jobs]
          shown := s.shown } := by
  simp only [collectBody, hget, hlt, if_true, sendData]

/-- The pass of the collection loop that answers with FINISH. -/
theorem fp_collectBody_finish (A : Arith) (minX minY dx dy : A.F) (height width job_height data_size pick : Nat)
    (s : HPC.MW.State) (slave : Nat) (payload : Buf)
    (hget : s.inflight[pick % s.inflight.length]? = some (slave, payload))
    (hge : ¬ s.jobs < height) :
    collectBody A minX minY dx dy height width job_height data_size pick s
      = some
        { actives := s.actives - 1
          jobs := s.jobs
          result := fun k => if k < data_size then payload k else s.result k
          results := HPC.MW.fixMatrix (if 0 < data_size then payload 0 else s.result 0).toNat
            (fun k => if k < data_size then payload k else s.result k) s.results width job_height
          wbuf := s.wbuf
          inflight := s.inflight.eraseIdx (pick % s.inflight.length)
          trace := s.trace
            ++ [HPC.MW.Event.recv slave (if 0 < data_size then payload 0 else s.result 0).toNat]
            ++ [HPC.MW.Event.send slave HPC.MW.Tag.finish s.jobs]
          shown := s.shown } := by
  simp only [collectBody, hget, hge, if_false]

/-- The grid invariant after a received one-row payload has been placed. -/
theorem GridOK.fp_place {A : Arith} {minX minY dx dy : A.F} {width : Nat} {results0 : Buf} {s t : HPC.MW.State}
    (hG : GridOK A minX minY dx dy width results0 s) (o : Nat) (result : Buf)
    (hv : ∀ j, j < width → result (j + 1) = mandelbrot A (steps A minX dx j) (rowY A minY dy o))
    (hres : t.results = HPC.MW.fixMatrix o result s.results width 1)
    (htr : HPC.MW.recvOffsets t.trace = HPC.MW.recvOffsets s.trace ++ [o]) :
    GridOK A minX minY dx dy width results0 t := by
  constructor
  · intro o1 ho1 j hj
    rw [hres]
    by_cases heq : o1 = o
    · rw [heq, HPC.MW.fixMatrix_one_hit o result s.results width j hj]
      exact hv j hj
    · rw [htr, List.mem_append, List.mem_singleton] at ho1
      have hmem : o1 ∈ HPC.MW.recvOffsets s.trace := by
        rcases ho1 with h | h
        · exact h
        · exact absurd h heq
      have hout : o1 * width + j < o * width ∨ (o + 1) * width ≤ o1 * width + j := by
        rcases Nat.lt_or_gt_of_ne heq with h | h
        · left
          have h1 : (o1 + 1) * width ≤ o * width := Nat.mul_le_mul_right _ h
          have h2 : (o1 + 1) * width = o1 * width + width := by ring
          omega
        · right
          have h1 : (o + 1) * width ≤ o1 * width := Nat.mul_le_mul_right _ h
          omega
      rw [HPC.MW.fixMatrix_one_miss o result s.results width _ hout]
      exact hG.rows o1 hmem j hj
  · intro k hk
    rw [hres, HPC.MW.fixMatrix_one_miss o result s.results width k
      (hk o (by rw [htr]; simp))]
    exact hG.frame k (fun o1 ho1 => hk o1 (by rw [htr]; simp [ho1]))

/-- One pass of the collection loop for one-row tasks: with a message under way the receive
returns, both invariants are kept, the number of passes still to make drops by one, and the
messages under way run out only once every row has been handed out. -/
theorem fp_collectBody_step {A : Arith} {minX minY dx dy : A.F} {height width data_size : Nat} {results0 : Buf}
    {s : HPC.MW.State} (hds : width < data_size)
    (hP : Proto A minX minY dx dy height width s)
    (hG : GridOK A minX minY dx dy width results0 s)
    (hne : s.inflight ≠ []) (pick : Nat) :
    ∃ t, collectBody A minX minY dx dy height width 1 data_size pick s = some t
      ∧ Proto A minX minY dx dy height width t
      ∧ GridOK A minX minY dx dy width results0 t
      ∧ (height - t.jobs) + t.inflight.length + 1 = (height - s.jobs) + s.inflight.length
      ∧ (t.inflight = [] → t.jobs = height)
      ∧ t.shown = s.shown := by
  have hlen : 0 < s.inflight.length := List.length_pos.mpr hne
  have hklt : pick % s.inflight.length < s.inflight.length := Nat.mod_lt _ hlen
  rcases hpair : s.inflight[pick % s.inflight.length] with ⟨slave, payload⟩
  have hget : s.inflight[pick % s.inflight.length]? = some (slave, payload) := by
    rw [List.getElem?_eq_getElem hklt, hpair]
  have hmem : (slave, payload) ∈ s.inflight := by
    rw [← hpair]; exact List.getElem_mem hklt
  obtain ⟨o, ho, h0, hv⟩ := hP.payload (slave, payload) hmem
  have hpos : 0 < data_size := by omega
  have hoff : (if 0 < data_size then payload 0 else s.result 0).toNat = o := by
    rw [if_pos hpos]
    show (payload 0).toNat = o
    have h0' : payload 0 = (o : ℤ) := h0
    rw [h0']
    exact Int.toNat_natCast o
  have hres : ∀ j, j < width →
      (fun k => if k < data_size then payload k else s.result k) (j + 1)
        = mandelbrot A (steps A minX dx j) (rowY A minY dy o) := by
    intro j hj
    have hlt : j + 1 < data_size := by omega
    simp only [hlt, if_true]
    exact hv j hj
  have hperm : List.Perm
      (HPC.MW.recvOffsets s.trace ++ [o]
        ++ (s.inflight.eraseIdx (pick % s.inflight.length)).map (fun p => (p.2 0).toNat))
      (List.range s.jobs) := by
    have h1 := (HPC.MW.perm_cons_eraseIdx s.inflight _ hklt).map (fun p : Nat × Buf => (p.2 0).toNat)
    rw [hpair, List.map_cons] at h1
    have h2 : (payload 0).toNat = o := by
      have h0' : payload 0 = (o : ℤ) := h0
      rw [h0']; exact Int.toNat_natCast o
    simp only [h2] at h1
    rw [List.append_assoc, List.singleton_append]
    exact (List.Perm.append_left _ h1.symm).trans hP.offsets
  have hlenE : (s.inflight.eraseIdx (pick % s.inflight.length)).length + 1 = s.inflight.length := by
    rw [List.length_eraseIdx_of_lt hklt]; omega
  by_cases hlt : s.jobs < height
  · refine ⟨_, fp_collectBody_data A minX minY dx dy height width 1 data_size pick s slave payload
      hget hlt, ?_, ?_, ?_, ?_, rfl⟩
    · -- the state after the receive keeps the protocol invariant, then a task is sent
      have hP1 : Proto A minX minY dx dy height width
          { s with
            inflight := s.inflight.eraseIdx (pick % s.inflight.length)
            trace := s.trace ++ [HPC.MW.Event.recv slave o]
            actives := s.actives - 1 } := by
        refine ⟨?_, hP.jobs_le, ?_, ?_, ?_⟩
        · show s.actives - 1 = (s.inflight.eraseIdx (pick % s.inflight.length)).length + 1
          rw [hP.actives_eq]; omega
        · intro p hp
          exact hP.payload p (List.mem_of_mem_eraseIdx hp)
        · show List.Perm (HPC.MW.recvOffsets (s.trace ++ [HPC.MW.Event.recv slave o]) ++ _) _
          rw [HPC.MW.recvOffsets_append]
          exact hperm
        · show HPC.MW.dataSends (s.trace ++ [HPC.MW.Event.recv slave o]) = _
          rw [HPC.MW.dataSends_append, hP.sends]
          simp [HPC.MW.dataSends]
      refine Proto.fp_send_data slave hP1 hlt ?_ ?_ rfl rfl
      · rfl
      · show _ ++ [HPC.MW.Event.recv slave _] ++ _ = _
        rw [hoff]
    · refine GridOK.fp_place hG o (fun k => if k < data_size then payload k else s.result k)
        hres ?_ ?_
      · show HPC.MW.fixMatrix _ _ _ _ _ = _
        rw [hoff]
      · show HPC.MW.recvOffsets (_ ++ [HPC.MW.Event.recv slave _] ++ _) = _
        rw [hoff, HPC.MW.recvOffsets_append, HPC.MW.recvOffsets_append]
        simp [HPC.MW.recvOffsets]
    · show height - (s.jobs + 1) + (_ ++ [_]).length + 1 = _
      rw [List.length_append, List.length_singleton]
      omega
    · intro hnil
      have : (s.inflight.eraseIdx (pick % s.inflight.length)
        ++ [(slave, (worker A s.jobs (Mem.fresh (s.wbuf slave)) minX minY dx dy height width 1).buf)]) = [] := hnil
      simp at this
  · refine ⟨_, fp_collectBody_finish A minX minY dx dy height width 1 data_size pick s slave payload
      hget hlt, ?_, ?_, ?_, ?_, rfl⟩
    · refine ⟨?_, hP.jobs_le, ?_, ?_, ?_⟩
      · show s.actives - 1 = (s.inflight.eraseIdx (pick % s.inflight.length)).length + 1
        rw [hP.actives_eq]; omega
      · intro p hp
        exact hP.payload p (List.mem_of_mem_eraseIdx hp)
      · show List.Perm (HPC.MW.recvOffsets (_ ++ [HPC.MW.Event.recv slave _] ++ _) ++ _) _
        rw [hoff, HPC.MW.recvOffsets_append, HPC.MW.recvOffsets_append]
        have h1 : HPC.MW.recvOffsets [HPC.MW.Event.send slave HPC.MW.Tag.finish s.jobs] = [] := rfl
        have h2 : HPC.MW.recvOffsets [HPC.MW.Event.recv slave o] = [o] := rfl
        rw [h1, h2, List.append_nil]
        exact hperm
      · show HPC.MW.dataSends (_ ++ [HPC.MW.Event.recv slave _] ++ _) = _
        rw [HPC.MW.dataSends_append, HPC.MW.dataSends_append, hP.sends]
        simp [HPC.MW.dataSends]
    · refine GridOK.fp_place hG o (fun k => if k < data_size then payload k else s.result k)
        hres ?_ ?_
      · show HPC.MW.fixMatrix _ _ _ _ _ = _
        rw [hoff]
      · show HPC.MW.recvOffsets (_ ++ [HPC.MW.Event.recv slave _] ++ _) = _
        rw [hoff, HPC.MW.recvOffsets_append, HPC.MW.recvOffsets_append]
        simp [HPC.MW.recvOffsets]
    · show height - s.jobs + (s.inflight.eraseIdx _).length + 1 = _
      omega
    · intro _
      have := hP.jobs_le
      show s.jobs = height
      omega


/-- The grid invariant only looks at the grid and at the offsets received. -/
theorem GridOK.fp_congr {A : Arith} {minX minY dx dy : A.F} {width : Nat} {results0 : Buf} {s t : HPC.MW.State}
    (hG : GridOK A minX minY dx dy width results0 s) (hres : t.results = s.results)
    (htr : HPC.MW.recvOffsets t.trace = HPC.MW.recvOffsets s.trace) :
    GridOK A minX minY dx dy width results0 t := by
  constructor
  · intro o ho j hj
    rw [hres]
    exact hG.rows o (by rw [← htr]; exact ho) j hj
  · intro k hk
    rw [hres]
    exact hG.frame k (fun o ho => hk o (by rw [htr]; exact ho))

/-- The initial dispatch loop for one-row tasks hands out `min n (height - jobs)` tasks and
keeps both invariants; it receives nothing and leaves the grid alone. -/
theorem fp_dispatch_spec {A : Arith} {minX minY dx dy : A.F} {height width : Nat} {results0 : Buf} :
    ∀ (n : Nat) (s : HPC.MW.State), Proto A minX minY dx dy height width s →
      GridOK A minX minY dx dy width results0 s →
      Proto A minX minY dx dy height width (dispatch A minX minY dx dy height width 1 n s)
        ∧ GridOK A minX minY dx dy width results0 (dispatch A minX minY dx dy height width 1 n s)
        ∧ (dispatch A minX minY dx dy height width 1 n s).jobs
            = s.jobs + min n (height - s.jobs)
        ∧ (dispatch A minX minY dx dy height width 1 n s).inflight.length
            = s.inflight.length + min n (height - s.jobs)
        ∧ (dispatch A minX minY dx dy height width 1 n s).shown = s.shown := by
  intro n
  induction n with
  | zero =>
    intro s hP hG
    exact ⟨hP, hG, by simp [dispatch], by simp [dispatch], rfl⟩
  | succ n ih =>
    intro s hP hG
    rw [dispatch]
    by_cases hlt : s.jobs < height
    · rw [if_pos hlt]
      have hP1 : Proto A minX minY dx dy height width
          { sendData A minX minY dx dy height width 1 s s.actives with
            actives := s.actives + 1
            jobs := s.jobs + 1 } :=
        Proto.fp_send_data s.actives hP hlt rfl rfl rfl rfl
      have hG1 : GridOK A minX minY dx dy width results0
          { sendData A minX minY dx dy height width 1 s s.actives with
            actives := s.actives + 1
            jobs := s.jobs + 1 } := by
        refine GridOK.fp_congr hG rfl ?_
        show HPC.MW.recvOffsets (s.trace ++ [HPC.MW.Event.send s.actives HPC.MW.Tag.data s.jobs]) = _
        rw [HPC.MW.recvOffsets_append]
        simp [HPC.MW.recvOffsets]
      obtain ⟨h1, h2, h3, h4, h5⟩ := ih _ hP1 hG1
      refine ⟨h1, h2, ?_, ?_, ?_⟩
      · rw [h3]
        show s.jobs + 1 + min n (height - (s.jobs + 1)) = _
        omega
      · rw [h4]
        show (s.inflight ++ [_]).length + min n (height - (s.jobs + 1)) = _
        rw [List.length_append, List.length_singleton]
        omega
      · rw [h5]; rfl
    · rw [if_neg hlt]
      refine ⟨hP, hG, ?_, ?_, rfl⟩
      · omega
      · omega

/-- The collection loop for one-row tasks, started with a message under way: it makes
`height - jobs + (messages under way)` passes, neither fewer nor more, never sits in a receive
with nothing under way, and leaves with every row handed out and received. -/
theorem fp_collect_spec {A : Arith} {minX minY dx dy : A.F} {height width data_size : Nat} {results0 : Buf}
    (hds : width < data_size) :
    ∀ (fuel : Nat) (arrival : Nat → Nat) (s : HPC.MW.State),
      Proto A minX minY dx dy height width s → GridOK A minX minY dx dy width results0 s →
      s.inflight ≠ [] →
      (height - s.jobs + s.inflight.length ≤ fuel →
        ∃ t, collect A minX minY dx dy height width 1 data_size arrival fuel s = HPC.MW.Outcome.done t
          ∧ Proto A minX minY dx dy height width t ∧ GridOK A minX minY dx dy width results0 t
          ∧ t.inflight = [] ∧ t.jobs = height ∧ t.shown = s.shown)
      ∧ (fuel < height - s.jobs + s.inflight.length →
        ∃ t, collect A minX minY dx dy height width 1 data_size arrival fuel s
          = HPC.MW.Outcome.unfinished t) := by
  intro fuel
  induction fuel with
  | zero =>
    intro arrival s hP hG hne
    have hlen : 0 < s.inflight.length := List.length_pos.mpr hne
    exact ⟨fun h => by omega, fun _ => ⟨s, rfl⟩⟩
  | succ fuel ih =>
    intro arrival s hP hG hne
    obtain ⟨t, hbody, hPt, hGt, hmu, hjobs, hshown⟩ :=
      fp_collectBody_step hds hP hG hne (arrival 0)
    rw [collect, hbody]
    by_cases hact : t.actives > 1
    · simp only [hact, if_true]
      have hne1 : t.inflight ≠ [] := by
        intro hnil
        have := hPt.actives_eq
        rw [hnil] at this
        simp at this
        omega
      obtain ⟨hdone, hunf⟩ := ih (fun k => arrival (k + 1)) t hPt hGt hne1
      constructor
      · intro hfuel
        obtain ⟨u, hu, h1, h2, h3, h4, h5⟩ := hdone (by omega)
        exact ⟨u, hu, h1, h2, h3, h4, by rw [h5, hshown]⟩
      · intro hfuel
        exact hunf (by omega)
    · simp only [hact, if_false]
      have hnil : t.inflight = [] := by
        have := hPt.actives_eq
        have hlen : t.inflight.length = 0 := by omega
        exact List.length_eq_zero.mp hlen
      constructor
      · intro _
        exact ⟨t, rfl, hPt, hGt, hnil, hjobs hnil, hshown⟩
      · intro hfuel
        have h1 := hjobs hnil
        rw [hnil] at hmu
        simp at hmu
        omega

/-- The state in which `master` starts its loops satisfies both invariants. -/
theorem fp_init_invariants (A : Arith) (minX minY dx dy : A.F) (height width : Nat) (result results : Buf)
    (wbuf : Nat → Buf) :
    Proto A minX minY dx dy height width
        { actives := 1, jobs := 0, result := result, results := results, wbuf := wbuf,
          inflight := [], trace := [], shown := [] }
      ∧ GridOK A minX minY dx dy width results
        { actives := 1, jobs := 0, result := result, results := results, wbuf := wbuf,
          inflight := [], trace := [], shown := [] } := by
  constructor
  · refine ⟨rfl, Nat.zero_le _, ?_, ?_, ?_⟩
    · intro p hp
      exact absurd hp (List.not_mem_nil p)
    · exact List.Perm.refl _
    · rfl
  · constructor
    · intro o ho
      exact absurd ho (List.not_mem_nil o)
    · intro k _
      rfl

/-- The function `master` with at least one worker and one-row tasks: after exactly `height`
passes of the collection loop it shows the grid, with `actives = 1`, every offset of
`0 .. height - 1` sent once and received once, and every row holding its kernel values. -/
theorem fp_master_spec (A : Arith) (result : Buf) (minX minY dx dy : A.F) (height width size data_size : Nat)
    (results : Buf) (wbuf : Nat → Buf) (arrival : Nat → Nat) (fuel : Nat)
    (hsize : 2 ≤ size) (hh : 1 ≤ height) (hds : width < data_size) :
    (height ≤ fuel →
      ∃ t, master A result minX minY dx dy height width 1 size data_size results wbuf arrival fuel
          = HPC.MW.Outcome.done t
        ∧ t.actives = 1
        ∧ HPC.MW.dataSends t.trace = List.range height
        ∧ List.Perm (HPC.MW.recvOffsets t.trace) (List.range height)
        ∧ (∀ r j, r < height → j < width →
            t.results (r * width + j) = mandelbrot A (steps A minX dx j) (rowY A minY dy r))
        ∧ (∀ k, height * width ≤ k → t.results k = results k)
        ∧ t.shown = HPC.MW.displayResult t.results height width size)
    ∧ (fuel < height →
      ∃ t, master A result minX minY dx dy height width 1 size data_size results wbuf arrival fuel
          = HPC.MW.Outcome.unfinished t) := by
  have hne1 : size ≠ 1 := by omega
  have hmu : height - min (size - 1) height + min (size - 1) height = height := by omega
  obtain ⟨hP0, hG0⟩ := fp_init_invariants A minX minY dx dy height width result results wbuf
  obtain ⟨hPd, hGd, hjobs, hlen, hshown⟩ := fp_dispatch_spec (size - 1) _ hP0 hG0
  simp only [Nat.sub_zero, List.length_nil, Nat.zero_add] at hjobs hlen
  have hned : (dispatch A minX minY dx dy height width 1 (size - 1)
      { actives := 1, jobs := 0, result := result, results := results, wbuf := wbuf,
        inflight := [], trace := [], shown := [] }).inflight ≠ [] := by
    intro hnil
    rw [hnil] at hlen
    simp at hlen
    omega
  obtain ⟨hdone, hunf⟩ := fp_collect_spec hds fuel arrival _ hPd hGd hned
  rw [hjobs, hlen, hmu] at hdone hunf
  constructor
  · intro hfuel
    obtain ⟨t, ht, hPt, hGt, hnil, hj, _⟩ := hdone hfuel
    refine ⟨{ t with shown := HPC.MW.displayResult t.results height width size }, ?_, ?_, ?_, ?_, ?_,
      ?_, rfl⟩
    · simp only [master, hne1, if_false, ht]
    · show t.actives = 1
      rw [hPt.actives_eq, hnil]; rfl
    · show HPC.MW.dataSends t.trace = _
      rw [hPt.sends, hj]
    · show List.Perm (HPC.MW.recvOffsets t.trace) _
      have h := hPt.offsets
      rw [hnil, hj] at h
      simpa using h
    · intro r j hr hj2
      show t.results (r * width + j) = _
      have h := hPt.offsets
      rw [hnil, hj] at h
      simp only [List.map_nil, List.append_nil] at h
      exact hGt.rows r (h.mem_iff.mpr (List.mem_range.mpr hr)) j hj2
    · intro k hk
      show t.results k = _
      have h := hPt.offsets
      rw [hnil, hj] at h
      simp only [List.map_nil, List.append_nil] at h
      refine hGt.frame k (fun o ho => ?_)
      have ho1 : o < height := List.mem_range.mp (h.mem_iff.mp ho)
      right
      have h1 : (o + 1) * width ≤ height * width := Nat.mul_le_mul_right _ ho1
      omega
  · intro hfuel
    obtain ⟨t, ht⟩ := hunf hfuel
    exact ⟨t, by simp only [master, hne1, if_false, ht]⟩

/-- The run of `main` with at least two processes. -/
theorem fp_run_multi (A : Arith) (height width size : Nat) (result results : Buf)
    (wbuf : Nat → Buf) (arrival : Nat → Nat) (fuel : Nat) (hsize : 2 ≤ size) (hh : 1 ≤ height) :
    (height ≤ fuel →
      ∃ t, run A height width size result results wbuf arrival fuel = HPC.MW.Outcome.done t
        ∧ t.actives = 1
        ∧ HPC.MW.dataSends t.trace = List.range height
        ∧ List.Perm (HPC.MW.recvOffsets t.trace) (List.range height)
        ∧ (∀ r j, r < height → j < width →
            t.results (r * width + j)
              = mandelbrot A (steps A (minX A) (dxOf A width) j)
                  (rowY A (minY A) (dyOf A height) r))
        ∧ (∀ k, height * width ≤ k → t.results k = results k)
        ∧ t.shown = HPC.MW.displayResult t.results height width size)
    ∧ (fuel < height →
      ∃ t, run A height width size result results wbuf arrival fuel
        = HPC.MW.Outcome.unfinished t) := by
  have hne1 : size ≠ 1 := by omega
  have hrun : run A height width size result results wbuf arrival fuel
      = master A result (minX A) (minY A) (dxOf A width) (dyOf A height) height width 1 size
          (1 * width + 1) results wbuf arrival fuel := by
    simp only [run, hne1, if_false]
  rw [hrun]
  exact fp_master_spec A result (minX A) (minY A) (dxOf A width) (dyOf A height) height width
    size (1 * width + 1) results wbuf arrival fuel hsize hh (by omega)

/-- The run of `main` with a single process: no message, and `displayResult` reads the rows
that `worker(0, ...)` left behind the offset cell. -/
theorem fp_run_single (A : Arith) (height width : Nat) (result results : Buf)
    (wbuf : Nat → Buf) (arrival : Nat → Nat) (fuel : Nat) :
    ∃ t, run A height width 1 result results wbuf arrival fuel = HPC.MW.Outcome.done t
      ∧ t.trace = []
      ∧ t.result = (worker A HPC.MW.ROOT (Mem.fresh result) (minX A) (minY A) (dxOf A width)
          (dyOf A height) height width height).buf
      ∧ t.shown = HPC.MW.displayResult t.result height width 1
      ∧ (∀ i j, i < height → j < width →
          t.result (i * width + j + 1)
            = mandelbrot A (steps A (minX A) (dxOf A width) j)
                (rowY A (minY A) (dyOf A height) i)) := by
  refine ⟨(⟨1, 0, (worker A HPC.MW.ROOT (Mem.fresh result) (minX A) (minY A) (dxOf A width)
      (dyOf A height) height width height).buf,
      results, wbuf, [], [], HPC.MW.displayResult
        (worker A HPC.MW.ROOT (Mem.fresh result) (minX A) (minY A) (dxOf A width)
          (dyOf A height) height width height).buf
        height width 1⟩ : HPC.MW.State),
    by simp only [run, master, if_true], rfl, rfl, rfl, ?_⟩
  intro i j hi hj
  show (worker A HPC.MW.ROOT (Mem.fresh result) (minX A) (minY A) (dxOf A width)
    (dyOf A height) height width height).buf (i * width + j + 1) = _
  rw [fp_worker_hit A HPC.MW.ROOT _ (minX A) (minY A) (dxOf A width) (dyOf A height) height
    width height i j hi (by simp [HPC.MW.ROOT, hi]) hj]
  simp [HPC.MW.ROOT]

/-- What `displayResult` shows is the stepped grid as soon as the cells it reads hold the
values the program computes. -/
theorem displayResult_eq_steppedGrid (A : Arith) (results : Buf) (height width size : Nat)
    (h : ∀ i j, i < height → j < width →
      results (i * width + j + if size = 1 then 1 else 0)
        = mandelbrot A (steps A (minX A) (dxOf A width) j)
            (rowY A (minY A) (dyOf A height) i)) :
    HPC.MW.displayResult results height width size = steppedGrid A height width := by
  unfold HPC.MW.displayResult steppedGrid
  apply List.map_congr_left
  intro i hi
  apply List.map_congr_left
  intro j hj
  exact h i j (List.mem_range.mp hi) (List.mem_range.mp hj)

end MW

end Fp

end HPC

/-! ## Master-worker with a single process -/

namespace HPC

/-- C10, the claim as stated fails.  In `binary64`, for `height = 50`, `width = 28`, the run
with one process renders `1` for cell `(1, 5)`, the value `results[1*width + 5 + 1]` that
`worker(0, ...)` left, while `kernel(minX + 5*dx, minY + 1*dy)` is `0`, in `binary64` and in
exact arithmetic alike: the point `(-1.6, -1.2)` has squared modulus exactly `4`, and the code
reaches the abscissa of column `5` by five additions of `dx` to `minX`, a sum whose rounding
differs from that of `minX + 5*dx` and falls inside the circle.  Likewise for `height = 10`,
`width = 4` the run renders `43` for cell `(1, 3)` while `kernel(minX + 3*dx, minY + 1*dy)` is
`42` in `binary64`.  In both runs the rendered grid is not the grid of the kernel invoked at
`(minX + j*dx, minY + i*dy)`. -/
theorem mw_single_process_formula_as_stated_fails :
    (∃ t, Fp.MW.run binary64 50 28 1 (fun _ => 0) (fun _ => 0) (fun _ _ => 0) (fun k => k) 0
        = MW.Outcome.done t
      ∧ MW.cell t.shown 1 5 = some (t.result (1 * 28 + 5 + 1))
      ∧ t.result (1 * 28 + 5 + 1) = 1
      ∧ Fp.mandelbrot binary64
          (binary64.add (Fp.minX binary64)
            (binary64.mul (binary64.ofInt ((5 : Nat) : ℤ)) (Fp.dxOf binary64 28)))
          (binary64.add (Fp.minY binary64)
            (binary64.mul (binary64.ofInt ((1 : Nat) : ℤ)) (Fp.dyOf binary64 50))) = 0
      ∧ mandelbrot (minX + (5 : ℚ) * dxOf 28) (minY + (1 : ℚ) * dyOf 50) = 0
      ∧ MW.cell (Fp.MW.kernelGrid binary64 50 28) 1 5 = some 0
      ∧ t.shown ≠ Fp.MW.kernelGrid binary64 50 28)
    ∧ (∃ t, Fp.MW.run binary64 10 4 1 (fun _ => 0) (fun _ => 0) (fun _ _ => 0) (fun k => k) 0
        = MW.Outcome.done t
      ∧ MW.cell t.shown 1 3 = some (t.result (1 * 4 + 3 + 1))
      ∧ t.result (1 * 4 + 3 + 1) = 43
      ∧ Fp.mandelbrot binary64
          (binary64.add (Fp.minX binary64)
            (binary64.mul (binary64.ofInt ((3 : Nat) : ℤ)) (Fp.dxOf binary64 4)))
          (binary64.add (Fp.minY binary64)
            (binary64.mul (binary64.ofInt ((1 : Nat) : ℤ)) (Fp.dyOf binary64 10))) = 42
      ∧ MW.cell (Fp.MW.kernelGrid binary64 10 4) 1 3 = some 42
      ∧ t.shown ≠ Fp.MW.kernelGrid binary64 10 4) := by
  constructor
  · obtain ⟨t, ht, _, _, hsh, hv⟩ :=
      Fp.MW.fp_run_single binary64 50 28 (fun _ => 0) (fun _ => 0) (fun _ _ => 0) (fun k => k) 0
    have hcode : t.result (1 * 28 + 5 + 1) = 1 := by
      rw [hv 1 5 (by decide) (by decide)]
      decide
    have hform : Fp.mandelbrot binary64
        (binary64.add (Fp.minX binary64)
          (binary64.mul (binary64.ofInt ((5 : Nat) : ℤ)) (Fp.dxOf binary64 28)))
        (binary64.add (Fp.minY binary64)
          (binary64.mul (binary64.ofInt ((1 : Nat) : ℤ)) (Fp.dyOf binary64 50))) = 0 := by
      decide
    have hexact : mandelbrot (minX + (5 : ℚ) * dxOf 28) (minY + (1 : ℚ) * dyOf 50) = 0 := by
      rw [mandelbrot_eq_zero_iff]
      norm_num [minX, maxX, minY, maxY, dxOf, dyOf]
    have hcell : MW.cell t.shown 1 5 = some (t.result (1 * 28 + 5 + 1)) := by
      rw [hsh, MW.cell_displayResult t.result 50 28 1 1 5 (by decide) (by decide)]
      simp
    have hk : MW.cell (Fp.MW.kernelGrid binary64 50 28) 1 5 = some 0 := by
      rw [← hform]
      unfold MW.cell Fp.MW.kernelGrid
      rw [List.getElem?_map, List.getElem?_range (by decide), Option.map_some',
        Option.some_bind, List.getElem?_map, List.getElem?_range (by decide), Option.map_some']
    refine ⟨t, ht, hcell, hcode, hform, hexact, hk, ?_⟩
    intro heq
    rw [heq, hk, hcode] at hcell
    exact absurd hcell (by decide)
  · obtain ⟨t, ht, _, _, hsh, hv⟩ :=
      Fp.MW.fp_run_single binary64 10 4 (fun _ => 0) (fun _ => 0) (fun _ _ => 0) (fun k => k) 0
    have hcode : t.result (1 * 4 + 3 + 1) = 43 := by
      rw [hv 1 3 (by decide) (by decide)]
      decide
    have hform : Fp.mandelbrot binary64
        (binary64.add (Fp.minX binary64)
          (binary64.mul (binary64.ofInt ((3 : Nat) : ℤ)) (Fp.dxOf binary64 4)))
        (binary64.add (Fp.minY binary64)
          (binary64.mul (binary64.ofInt ((1 : Nat) : ℤ)) (Fp.dyOf binary64 10))) = 42 := by
      decide
    have hcell : MW.cell t.shown 1 3 = some (t.result (1 * 4 + 3 + 1)) := by
      rw [hsh, MW.cell_displayResult t.result 10 4 1 1 3 (by decide) (by decide)]
      simp
    have hk : MW.cell (Fp.MW.kernelGrid binary64 10 4) 1 3 = some 42 := by
      rw [← hform]
      unfold MW.cell Fp.MW.kernelGrid
      rw [List.getElem?_map, List.getElem?_range (by decide), Option.map_some',
        Option.some_bind, List.getElem?_map, List.getElem?_range (by decide), Option.map_some']
    refine ⟨t, ht, hcell, hcode, hform, hk, ?_⟩
    intro heq
    rw [heq, hk, hcode] at hcell
    exact absurd hcell (by decide)

/-- C10, amended.  Single-process equivalence, for every arithmetic of `double`.  With one
process (`job_height = height`), for `height, width > 0`: the run sends and receives nothing;
the value `displayResult` renders for cell `(i, j)` is `results[i*width + j + 1]` of the
buffer filled by `worker(0, ...)`, which is `mandelbrot(x_j, i*dy + minY)` with `x_j` reached
from `minX` by `j` additions of `dx`; the rendered grid is the kernel invoked over every cell
in row-major order at these coordinates; and it is, cell for cell, the grid of a run with
`N ≥ 2` processes under any arrival order.  In exact arithmetic these coordinates are
`(minX + j*dx, minY + i*dy)`. -/
theorem mw_single_process_equivalence (A : Arith) (height width : Nat) (hh : 0 < height)
    (hw : 0 < width) (result results : Buf) (wbuf : Nat → Buf) (arrival : Nat → Nat)
    (fuel : Nat) :
    (∃ t, Fp.MW.run A height width 1 result results wbuf arrival fuel = MW.Outcome.done t
      ∧ t.trace = []
      ∧ t.shown = Fp.MW.steppedGrid A height width
      ∧ (∀ i j, i < height → j < width →
          MW.cell t.shown i j = some (t.result (i * width + j + 1))
            ∧ t.result (i * width + j + 1)
              = Fp.mandelbrot A (Fp.steps A (Fp.minX A) (Fp.dxOf A width) j)
                  (Fp.rowY A (Fp.minY A) (Fp.dyOf A height) i))
      ∧ (∀ (N : Nat) (resultN resultsN : Buf) (wbufN : Nat → Buf) (arrivalN : Nat → Nat)
          (fuelN : Nat), 2 ≤ N → height ≤ fuelN →
          ∃ u, Fp.MW.run A height width N resultN resultsN wbufN arrivalN fuelN
              = MW.Outcome.done u
            ∧ u.shown = t.shown
            ∧ ∀ i j, i < height → j < width →
                u.results (i * width + j) = t.result (i * width + j + 1)
                  ∧ MW.cell u.shown i j = MW.cell t.shown i j))
      ∧ Fp.MW.steppedGrid exactArith height width = MW.kernelGrid height width := by
  constructor
  · obtain ⟨t, ht, htr, _, hsh, hv⟩ :=
      Fp.MW.fp_run_single A height width result results wbuf arrival fuel
    have hgrid : t.shown = Fp.MW.steppedGrid A height width := by
      rw [hsh]
      exact Fp.MW.displayResult_eq_steppedGrid A t.result height width 1
        (fun i j hi hj => by simpa using hv i j hi hj)
    refine ⟨t, ht, htr, hgrid, ?_, ?_⟩
    · intro i j hi hj
      refine ⟨?_, hv i j hi hj⟩
      rw [hsh, MW.cell_displayResult t.result height width 1 i j hi hj]
      simp
    · intro N resultN resultsN wbufN arrivalN fuelN hN hfuel
      obtain ⟨u, hu, _, _, _, hvu, _, hdu⟩ :=
        (Fp.MW.fp_run_multi A height width N resultN resultsN wbufN arrivalN fuelN hN hh).1 hfuel
      have hne1 : N ≠ 1 := by omega
      have hgu : u.shown = Fp.MW.steppedGrid A height width := by
        rw [hdu]
        exact Fp.MW.displayResult_eq_steppedGrid A u.results height width N
          (fun i j hi hj => by simpa [hne1] using hvu i j hi hj)
      refine ⟨u, hu, by rw [hgu, hgrid], ?_⟩
      intro i j hi hj
      exact ⟨by rw [hvu i j hi hj, hv i j hi hj], by rw [hgu, hgrid]⟩
  · unfold Fp.MW.steppedGrid MW.kernelGrid
    apply List.map_congr_left
    intro i _
    apply List.map_congr_left
    intro j _
    exact Fp.cell_exact height width i j

/-- Witness for C10: a `3 x 2` grid in `binary64`; the multi-process run compared is the one
with three processes. -/
theorem mw_single_process_equivalence_witness :
    (0 < 3 ∧ 0 < 2)
      ∧ ∃ t, Fp.MW.run binary64 3 2 1 (fun _ => 0) (fun _ => 0) (fun _ _ => 0) (fun k => k) 0
          = MW.Outcome.done t
        ∧ t.trace = []
        ∧ t.shown = Fp.MW.steppedGrid binary64 3 2
        ∧ ∃ u, Fp.MW.run binary64 3 2 3 (fun _ => 0) (fun _ => 0) (fun _ _ => 0) (fun k => k) 3
            = MW.Outcome.done u
          ∧ u.shown = t.shown :=
  have h := (mw_single_process_equivalence binary64 3 2 (by decide) (by decide) (fun _ => 0)
    (fun _ => 0) (fun _ _ => 0) (fun k => k) 0).1
  ⟨⟨by decide, by decide⟩, h.choose, h.choose_spec.1, h.choose_spec.2.1, h.choose_spec.2.2.1,
    (h.choose_spec.2.2.2.2 3 (fun _ => 0) (fun _ => 0) (fun _ _ => 0) (fun k => k) 3
      (by decide) (by decide)).choose,
    (h.choose_spec.2.2.2.2 3 (fun _ => 0) (fun _ => 0) (fun _ _ => 0) (fun k => k) 3
      (by decide) (by decide)).choose_spec.1,
    (h.choose_spec.2.2.2.2 3 (fun _ => 0) (fun _ => 0) (fun _ _ => 0) (fun k => k) 3
      (by decide) (by decide)).choose_spec.2.1⟩

end HPC

/-! ## Master-worker placement by `fixMatrix` -/

namespace HPC

end HPC
